import Mathlib

/-!
Verification of the extraction-decision and semantic chunking pipeline
(`src/backend/src/data_pipeline/pdf_extractor.py` and
`src/backend/src/data_pipeline/document_chunker.py`).

Python strings are modelled as `List Char` (a Python `str` is a sequence of
unicode code points, and Lean's `Char` is a unicode scalar value).  The
whitespace class used by Python's `\s`, `str.split()`, `str.strip()` and
`str.isspace()` is modelled by the usual ASCII whitespace characters; all
texts appearing in the sources and in the concrete scenarios are ASCII, so
this restriction is immaterial for the claims below.
-/

/-- The model of a Python `str`: a list of unicode code points. -/
abbrev Str := List Char

/-- Convert a Lean string literal into the model type. -/
def ofS (s : String) : Str := s.data

/-- Python whitespace (`\s`, `str.strip`, `str.split`, `str.isspace`),
restricted to the ASCII whitespace characters. -/
def pyWs (c : Char) : Bool :=
  c = ' ' || c = '\t' || c = '\n' || c = '\r' || c = '\x0b' || c = '\x0c'

/-- Split a list at every character satisfying `p` (the pieces do not contain
the separator characters; empty pieces are kept, as in Python's `re.split`). -/
def splitP (p : Char → Bool) : Str → List Str
  | [] => [[]]
  | c :: t =>
    if p c then [] :: splitP p t
    else
      match splitP p t with
      | [] => [[c]]
      | h :: r => (c :: h) :: r

/-- Python `sep.join(parts)`. -/
def joinWith (sep : Str) : List Str → Str
  | [] => []
  | [x] => x
  | x :: xs => x ++ sep ++ joinWith sep xs

/-- `' '.join(s.split())`: collapse every whitespace run to a single space and
trim; this is also the result of `re.sub(r'\s+', ' ', s).strip()`. -/
def normWS (s : Str) : Str :=
  joinWith (ofS " ") ((splitP pyWs s).filter (fun t => t ≠ []))

/-- Python `s.strip()` (whitespace removed from both ends). -/
def stripL (s : Str) : Str :=
  ((s.dropWhile pyWs).reverse.dropWhile pyWs).reverse

/-- Python `s.isspace()`: non-empty and all characters whitespace. -/
def isspaceB (s : Str) : Bool := !s.isEmpty && s.all pyWs

/-! ## Table formatter: `detect_and_extract_tables` (pdf_extractor.py 20-98) -/

/-- A raw table grid as returned by `page.extract_tables()`: rows of optional
cell strings. -/
abbrev TableGrid := List (List (Option Str))

/-- Cell cleaning inside `detect_and_extract_tables`: `None` becomes the empty
string, any other cell has its whitespace collapsed and trimmed. -/
def cleanRow (row : List (Option Str)) : List Str :=
  row.map (fun cell =>
    match cell with
    | none => []
    | some s => normWS s)

/-- The cleaned table: each row cleaned, rows that become fully empty dropped
(the `if any(cleaned_row)` guard). -/
def cleanedTable (table_data : TableGrid) : List (List Str) :=
  (table_data.map cleanRow).filter (fun r => r.any (fun c => c ≠ []))

/-- Column-count determination: length of the cleaned header row if non-empty,
otherwise the maximum length of the non-empty rows (`num_cols` in the source). -/
def numColsOf (ct : List (List Str)) : Nat :=
  let n := match ct with
    | [] => 0
    | h :: _ => h.length
  if n ≠ 0 then n
  else ((ct.filter (fun r => r ≠ [])).map List.length).foldl max 0

/-- Pad a row with empty cells up to `n` columns, or truncate it to `n`. -/
def padRow (n : Nat) (row : List Str) : List Str :=
  if row.length < n then row.take n ++ List.replicate (n - row.length) []
  else row.take n

/-- One pipe-delimited markdown line `| c1 | c2 | ... |`. -/
def pipeLine (cells : List Str) : Str :=
  ofS "| " ++ joinWith (ofS " | ") cells ++ ofS " |"

/-- `detect_and_extract_tables(table_data, context)`: formats a grid into a
markdown block framed by `[TABLE_START: context]` and `[TABLE_END]`, or the
empty string when the grid is unusable (pdf_extractor.py lines 20-98). -/
def detect_and_extract_tables (table_data : TableGrid) (context : Str) : Str :=
  if table_data.isEmpty || table_data.all List.isEmpty then []
  else
    let cleaned := cleanedTable table_data
    if cleaned.isEmpty then []
    else
      let num_cols := numColsOf cleaned
      if num_cols = 0 then []
      else
        let padded := cleaned.map (padRow num_cols)
        match padded with
        | [] => []
        | header :: dataRows =>
          let markdown_lines :=
            (ofS "[TABLE_START: " ++ context ++ ofS "]") ::
            pipeLine header ::
            pipeLine (List.replicate num_cols (ofS "---")) ::
            (dataRows.map pipeLine ++ [ofS "[TABLE_END]"])
          joinWith (ofS "\n") markdown_lines

example :
    detect_and_extract_tables
      [[some (ofS "A"), some (ofS "B")], [some (ofS "1"), some (ofS "2")]]
      (ofS "T1") =
    ofS "[TABLE_START: T1]\n| A | B |\n| --- | --- |\n| 1 | 2 |\n[TABLE_END]" := by
  decide

/-! ## Decimal rendering of naturals (Python f-string `{n}`) -/

/-- One decimal digit as a character. -/
def digitChar (d : Nat) : Char :=
  match d with
  | 0 => '0' | 1 => '1' | 2 => '2' | 3 => '3' | 4 => '4'
  | 5 => '5' | 6 => '6' | 7 => '7' | 8 => '8' | _ => '9'

/-- Numeric value of a decimal digit character. -/
def digitVal (c : Char) : Nat :=
  match c with
  | '0' => 0 | '1' => 1 | '2' => 2 | '3' => 3 | '4' => 4
  | '5' => 5 | '6' => 6 | '7' => 7 | '8' => 8 | _ => 9

/-- Fuel-driven decimal rendering (structural in the fuel, so that concrete
instances evaluate inside the kernel). -/
def toDecAux : Nat → Nat → Str
  | 0, _ => []
  | fuel + 1, n =>
    if n < 10 then [digitChar n]
    else toDecAux fuel (n / 10) ++ [digitChar (n % 10)]

/-- Decimal rendering of a natural number, as Python's `str(n)` / `f"{n}"`. -/
def natToStr (n : Nat) : Str := toDecAux (n + 1) n

/-- Decimal parsing, used only to establish injectivity of `natToStr`. -/
def parseDec (s : Str) : Nat := s.foldl (fun acc c => acc * 10 + digitVal c) 0

theorem parseDec_append (s t : Str) :
    parseDec (s ++ t) = t.foldl (fun acc c => acc * 10 + digitVal c) (parseDec s) := by
  simp [parseDec, List.foldl_append]

theorem digitVal_digitChar (d : Nat) (h : d < 10) : digitVal (digitChar d) = d := by
  interval_cases d <;> rfl

theorem parseDec_toDecAux (fuel n : Nat) (h : n ≤ fuel) :
    parseDec (toDecAux fuel n) = n := by
  induction fuel generalizing n with
  | zero =>
    have : n = 0 := Nat.le_zero.mp h
    subst this
    simp [toDecAux, parseDec]
  | succ fuel ih =>
    by_cases h10 : n < 10
    · simp [toDecAux, h10, parseDec, digitVal_digitChar n h10]
    · have hlt : n / 10 ≤ fuel := by
        have h1 : n / 10 < n := Nat.div_lt_self (by omega) (by omega)
        omega
      have hmod : n % 10 < 10 := Nat.mod_lt _ (by omega)
      simp only [toDecAux, h10, if_false, parseDec_append]
      have := ih (n / 10) hlt
      simp [parseDec] at this ⊢
      rw [this, digitVal_digitChar _ hmod]
      omega

theorem parseDec_natToStr (n : Nat) : parseDec (natToStr n) = n :=
  parseDec_toDecAux (n + 1) n (Nat.le_succ n)

theorem natToStr_injective : Function.Injective natToStr := by
  intro a b h
  have := parseDec_natToStr a
  rw [h, parseDec_natToStr] at this
  omega

/-! ## Splitting on a single character (the observation used by the
round-trip property in §8 of the spec) -/

/-- Split a string at every occurrence of the character `c` (Python
`s.split('|')` / `s.split('\n')`). -/
def splitChar (c : Char) : Str → List Str
  | [] => [[]]
  | a :: t =>
    if a = c then [] :: splitChar c t
    else
      match splitChar c t with
      | [] => [[a]]
      | h :: r => (a :: h) :: r

theorem splitChar_ne_nil (c : Char) (s : Str) : splitChar c s ≠ [] := by
  induction s with
  | nil => simp [splitChar]
  | cons a t ih =>
    by_cases h : a = c
    · simp [splitChar, h]
    · simp only [splitChar, h, if_false]
      cases hs : splitChar c t with
      | nil => simp
      | cons x r => simp

theorem splitChar_length (c : Char) (s : Str) :
    (splitChar c s).length = s.count c + 1 := by
  induction s with
  | nil => simp [splitChar]
  | cons a t ih =>
    by_cases h : a = c
    · subst h
      simp [splitChar, List.count_cons, ih]
    · simp only [splitChar, h, if_false, List.count_cons]
      cases hs : splitChar c t with
      | nil => exact absurd hs (splitChar_ne_nil c t)
      | cons x r =>
        rw [hs] at ih
        simp only [List.length_cons] at ih ⊢
        simpa [h] using ih

theorem splitChar_of_not_mem (c : Char) (s : Str) (h : c ∉ s) :
    splitChar c s = [s] := by
  induction s with
  | nil => rfl
  | cons a t ih =>
    simp only [List.mem_cons, not_or] at h
    have ha : ¬ a = c := fun hc => h.1 hc.symm
    simp only [splitChar, ha, if_false]
    rw [ih h.2]

theorem splitChar_append_cons (c : Char) (x t : Str) (hx : c ∉ x) :
    splitChar c (x ++ c :: t) = x :: splitChar c t := by
  induction x with
  | nil => simp [splitChar]
  | cons a u ih =>
    simp only [List.mem_cons, not_or] at hx
    have ha : ¬ a = c := fun hc => hx.1 hc.symm
    simp only [List.cons_append, splitChar, ha, if_false]
    have harr : u ++ c :: t = u.append (c :: t) := rfl
    rw [← harr, ih hx.2]

theorem splitChar_joinWith (c : Char) (L : List Str) (hL : L ≠ [])
    (h : ∀ l ∈ L, c ∉ l) : splitChar c (joinWith [c] L) = L := by
  induction L with
  | nil => exact absurd rfl hL
  | cons x r ih =>
    cases r with
    | nil =>
      simp only [joinWith]
      exact splitChar_of_not_mem c x (h x (by simp))
    | cons y r' =>
      have hx : c ∉ x := h x (by simp)
      have : joinWith [c] (x :: y :: r') = x ++ c :: joinWith [c] (y :: r') := by
        simp [joinWith]
      rw [this, splitChar_append_cons c x _ hx]
      rw [ih (by simp) (fun l hl => h l (List.mem_cons_of_mem x hl))]

/-! ## Extraction arbiter: `extract_text_from_pdf` (pdf_extractor.py 101-195)

The physical page parser (`pdfplumber`) and the OCR engine (`pytesseract`)
are external collaborators (spec §6).  A page is therefore modelled by the
data those collaborators deliver for it: the raw directly-parsed text
(`page.extract_text`, possibly absent), the raw table grids
(`page.extract_tables`), and the outcome of the OCR call, which either
returns recognized text (possibly empty) or raises an exception. -/

def MIN_TEXT_LENGTH_FOR_OCR_FALLBACK : Nat := 20

def MIN_TABLE_ROWS_FOR_SIGNIFICANCE : Nat := 2

/-- Outcome of the OCR collaborator for one page: recognized text, or a
raised exception (the `except Exception as ocr_err` branch). -/
inductive OcrOutcome where
  | text (s : Str)
  | failure
deriving DecidableEq

/-- The collaborator data for one page. -/
structure PageInput where
  direct_text : Option Str
  tables : List TableGrid
  ocr : OcrOutcome
deriving DecidableEq

/-- The per-table context string `f"Page {page_num} - Table {idx+1}"`. -/
def tableContext (page_num idx : Nat) : Str :=
  ofS "Page " ++ natToStr page_num ++ ofS " - Table " ++ natToStr idx

/-- `cleaned_direct_text`: `' '.join(direct_text.split()) if direct_text else ""`. -/
def cleanedDirectOf (direct_text : Option Str) : Str :=
  match direct_text with
  | none => []
  | some dt => normWS dt

/-- The `table_texts` list: each table formatted with its context, empty
formats dropped (`if formatted_table`). -/
def tableTextsOf (page_num : Nat) (tables : List TableGrid) : List Str :=
  (tables.enum.map
      (fun p => detect_and_extract_tables p.2 (tableContext page_num (p.1 + 1)))).filter
    (fun t => t ≠ [])

/-- `formatted_tables_text`: the formatted tables joined by blank lines (empty
when the page has no tables, matching the `if extracted_tables` guard). -/
def formattedTablesTextOf (page_num : Nat) (tables : List TableGrid) : Str :=
  if tables.isEmpty then []
  else joinWith (ofS "\n\n") (tableTextsOf page_num tables)

/-- `significant_tables_found`: some table formats to non-empty text and has
at least `MIN_TABLE_ROWS_FOR_SIGNIFICANCE` rows. -/
def significantTablesFound (page_num : Nat) (tables : List TableGrid) : Bool :=
  tables.enum.any (fun p =>
    !(detect_and_extract_tables p.2 (tableContext page_num (p.1 + 1))).isEmpty &&
    decide (MIN_TABLE_ROWS_FOR_SIGNIFICANCE ≤ p.2.length))

/-- The OCR decision (pdf_extractor.py lines 149-152): direct text below the
minimum length and no significant table. -/
def useOcrB (page_num : Nat) (direct_text : Option Str) (tables : List TableGrid) : Bool :=
  decide ((cleanedDirectOf direct_text).length < MIN_TEXT_LENGTH_FOR_OCR_FALLBACK) &&
  !significantTablesFound page_num tables

/-- Append the formatted tables to a base text, blank-line separated, when any
exist (`page_content += "\n\n" + formatted_tables_text`). -/
def appendTables (base : Str) (formatted_tables_text : Str) : Str :=
  if formatted_tables_text = [] then base
  else base ++ ofS "\n\n" ++ formatted_tables_text

/-- The final content of one page (`final_page_content`, pdf_extractor.py
lines 121-178): direct path, OCR path, and OCR-exception fallback, followed
by the final `strip()`. -/
def processPage (page_num : Nat) (page : PageInput) : Str :=
  let cleaned_direct_text := cleanedDirectOf page.direct_text
  let formatted_tables_text := formattedTablesTextOf page_num page.tables
  let page_content :=
    if useOcrB page_num page.direct_text page.tables then
      match page.ocr with
      | OcrOutcome.text t => normWS t
      | OcrOutcome.failure => appendTables cleaned_direct_text formatted_tables_text
    else appendTables cleaned_direct_text formatted_tables_text
  stripL page_content

/-- `extract_text_from_pdf`: every page processed in order, 1-indexed, pages
with empty final content omitted (pdf_extractor.py lines 180-184). -/
def extract_text_from_pdf (pages : List PageInput) : List (Nat × Str) :=
  pages.enum.filterMap (fun p =>
    let content := processPage (p.1 + 1) p.2
    if content = [] then none else some (p.1 + 1, content))

/-! ## Substring machinery shared by the chunker embedding -/

/-- First position (if any) at which `pat` occurs in the string. -/
def findOcc (pat : Str) : Str → Option Nat
  | [] => if pat.isPrefixOf [] then some 0 else none
  | c :: t => if pat.isPrefixOf (c :: t) then some 0 else (findOcc pat t).map (· + 1)

/-- All positions at which `pat` occurs (`pat` non-empty). -/
def occPositions (pat : Str) (text : Str) : List Nat :=
  (List.range (text.length + 1)).filter
    (fun a => pat ≠ [] && pat.isPrefixOf (text.drop a))

/-- Number of occurrences of `pat` in `text`. -/
def occCount (pat : Str) (text : Str) : Nat := (occPositions pat text).length

/-- Python `s.replace(pat, repl)` (single left-to-right pass, non-overlapping),
driven by a character fuel so that concrete instances reduce in the kernel.
The fuel is decremented once per consumed character position; any fuel at
least the length of the string gives Python's behaviour. -/
def replaceAux (pat repl : Str) : Nat → Str → Str
  | 0, s => s
  | fuel + 1, s =>
    match s with
    | [] => []
    | c :: t =>
      if pat ≠ [] ∧ pat.isPrefixOf (c :: t) then
        repl ++ replaceAux pat repl fuel (t.drop (pat.length - 1))
      else c :: replaceAux pat repl fuel t

/-- Python `s.replace(pat, repl)`. -/
def replaceL (pat repl s : Str) : Str := replaceAux pat repl s.length s

/-! ## Structural postprocessor: `_postprocess_chunks` (document_chunker.py 115-129) -/

/-- The break-marker token. -/
def SECTION_BREAK : Str := ofS "__SECTION_BREAK__"

/-- A placeholder map, in insertion order (Python dicts iterate in insertion
order): pairs of placeholder token and original table text. -/
abbrev PlaceholderMap := List (Str × Str)

/-- The placeholder-substitution loop of `_postprocess_chunks`:
`chunk = chunk.replace(placeholder, table_content)` over the map in order. -/
def applyMap (placeholder_map : PlaceholderMap) (chunk : Str) : Str :=
  placeholder_map.foldl (fun c pt => replaceL pt.1 pt.2 c) chunk

/-- `_postprocess_chunks(chunks, placeholder_map)`: substitute placeholders
back, remove break markers, strip, and drop chunks that become empty. -/
def _postprocess_chunks (chunks : List Str) (placeholder_map : PlaceholderMap) : List Str :=
  (chunks.map (fun chunk =>
      stripL (replaceL SECTION_BREAK [] (applyMap placeholder_map chunk)))).filter
    (fun c => c ≠ [])

/-! ## Structural preprocessor: `_preprocess_text` (document_chunker.py 35-112)

Step A replaces every span matched by `TABLE_PATTERN` (non-greedy, multiline:
from a literal `[TABLE_START:` through the first line-initial `[TABLE_END]`
that follows the first `]` after the opening literal) with a fresh
placeholder token.  The source draws the token's random part from
`uuid.uuid4()`; that entropy source is modelled by the oracle `gen`, which
yields the token used for the k-th table of the page. -/

/-- Does position `i` start a line (`^` under `re.MULTILINE`)? -/
def lineStartB (s : Str) (i : Nat) : Bool :=
  i = 0 || s.getD (i - 1) ' ' = '\n'

/-- First `m` at or after the given start with a line-initial `[TABLE_END]`,
scanning with fuel. -/
def findTableEnd (s : Str) : Nat → Nat → Option Nat
  | 0, _ => none
  | fuel + 1, m =>
    if m > s.length then none
    else if lineStartB s m && (ofS "[TABLE_END]").isPrefixOf (s.drop m) then some m
    else findTableEnd s fuel (m + 1)

/-- The end (exclusive) of the `TABLE_PATTERN` match starting at `l`, if any. -/
def tableMatchAt (s : Str) (l : Nat) : Option Nat :=
  if (ofS "[TABLE_START:").isPrefixOf (s.drop l) then
    match findOcc [']'] (s.drop (l + 13)) with
    | none => none
    | some jrel =>
      match findTableEnd s (s.length + 1) (l + 13 + jrel + 1) with
      | none => none
      | some m => some (m + 11)
  else none

/-- The scan of `TABLE_PATTERN.sub`: walk the text, replace each match with
the next oracle token, record the mapping, continue after the match. -/
def subTablesAux (gen : Nat → Str) (s : Str) : Nat → Nat → Nat → Str × PlaceholderMap
  | 0, pos, _ => (s.drop pos, [])
  | fuel + 1, pos, k =>
    if pos ≥ s.length then ([], [])
    else
      match tableMatchAt s pos with
      | some e =>
        let token := gen k
        let r := subTablesAux gen s fuel e (k + 1)
        (token ++ r.1, (token, (s.drop pos).take (e - pos)) :: r.2)
      | none =>
        let r := subTablesAux gen s fuel (pos + 1) k
        (s.getD pos ' ' :: r.1, r.2)

/-- ASCII decimal digit (Python `\d`, restricted to ASCII). -/
def isDigitB (c : Char) : Bool := '0' ≤ c && c ≤ '9'

/-- Length of the maximal whitespace run starting at `i`. -/
def wsRunLen (s : Str) (i : Nat) : Nat := ((s.drop i).takeWhile pyWs).length

/-- Length of the maximal digit run starting at `i`. -/
def digitRunLen (s : Str) (i : Nat) : Nat := ((s.drop i).takeWhile isDigitB).length

/-- The `\d+(?:\.\d+)*\.` part of the header patterns, starting just after the
first digit run: greedily consume `.digits` groups, then require the final
dot; returns the position just after that dot. -/
def dotLoop (s : Str) : Nat → Nat → Option Nat
  | 0, _ => none
  | fuel + 1, pos =>
    if s.getD pos '?' = '.' then
      if isDigitB (s.getD (pos + 1) '?') then
        dotLoop s fuel (pos + 1 + digitRunLen s (pos + 1))
      else some (pos + 1)
    else none

/-- First newline at or after position `i`. -/
def findNl (s : Str) (i : Nat) : Option Nat := (findOcc [Char.ofNat 10] (s.drop i)).map (i + ·)

/-- Last newline strictly inside `[a, b)`. -/
def lastNlIn (s : Str) (a b : Nat) : Option Nat :=
  ((List.range' a (b - a)).filter (fun j => s.getD j ' ' = '\n')).getLast?

/-- The `\s+\d+(?:\.\d+)*\.\s+.*?(?=\n)` tail of the header patterns, starting
just after the keyword; returns the end (exclusive) of the matched header
text.  The greedy `\s+` pieces force the digit run to start at the first
non-whitespace position; the lazy `.*?` with the newline lookahead ends the
header at the first newline after the second whitespace run, or, failing
that, backtracks onto the last newline inside that run. -/
def headerAfterKw (s : Str) (i1 : Nat) : Option Nat :=
  let w := wsRunLen s i1
  if w = 0 then none
  else
    let d0 := i1 + w
    if digitRunLen s d0 = 0 then none
    else
      match dotLoop s (s.length + 1) (d0 + digitRunLen s d0) with
      | none => none
      | some afterDot =>
        let w2 := wsRunLen s afterDot
        if w2 = 0 then none
        else
          match findNl s (afterDot + w2) with
          | some e => some e
          | none => lastNlIn s (afterDot + 1) (afterDot + w2)

/-- Match one of the two header bodies (`Section …` / `खंड …`) at position `h`;
returns the end of the header text. -/
def headerMatchAt (s : Str) (h : Nat) : Option Nat :=
  if (ofS "Section").isPrefixOf (s.drop h) then headerAfterKw s (h + (ofS "Section").length)
  else if (ofS "खंड").isPrefixOf (s.drop h) then headerAfterKw s (h + (ofS "खंड").length)
  else none

/-- Try the combined pattern with its anchor at position `i`: the `^` branch
(line start, then `\s*`, then a header) first, then the `\n\n` branch.
Returns the header start and end. -/
def tryAnchorAt (s : Str) (i : Nat) : Option (Nat × Nat) :=
  let b1 :=
    if lineStartB s i then
      let h := i + wsRunLen s i
      (headerMatchAt s h).map (fun e => (h, e))
    else none
  match b1 with
  | some r => some r
  | none =>
    if s.getD i '?' = '\n' && s.getD (i + 1) '?' = '\n' then
      let h := i + 2 + wsRunLen s (i + 2)
      (headerMatchAt s h).map (fun e => (h, e))
    else none

/-- `finditer` over the combined header pattern: leftmost matches, resuming
after each match's end. -/
def findHeadersAux (s : Str) : Nat → Nat → List (Nat × Nat)
  | 0, _ => []
  | fuel + 1, i =>
    if i ≥ s.length then []
    else
      match tryAnchorAt s i with
      | some he => he :: findHeadersAux s fuel he.2
      | none => findHeadersAux s fuel (i + 1)

/-- The rebuild loop of `_preprocess_text`: all text preserved, with the
break marker inserted immediately before each matched header. -/
def insertBreaksAux (s : Str) : List (Nat × Nat) → Nat → Str
  | [], last => s.drop last
  | (h, e) :: rest, last =>
    (s.drop last).take (h - last) ++ SECTION_BREAK ++
    (s.drop h).take (e - h) ++ insertBreaksAux s rest e

/-- `_preprocess_text(text)`: tables replaced by fresh placeholder tokens
(drawn from the oracle `gen`), then break markers inserted before section
headers; returns the processed text and the placeholder map. -/
def _preprocess_text (gen : Nat → Str) (text : Str) : Str × PlaceholderMap :=
  let r := subTablesAux gen text (text.length + 1) 0 0
  let headers := findHeadersAux r.1 (r.1.length + 1) 0
  (insertBreaksAux r.1 headers 0, r.2)

/-! ## Bounded splitter (spec §4.4)

Modelled from the spec: the Bounded Splitter is the external library class
`RecursiveCharacterTextSplitter` (langchain), whose implementation is not
part of this repository; only its configuration (`CHUNK_SIZE`,
`CHUNK_OVERLAP`, `SEPARATORS`, document_chunker.py 13-25 and 162-168) is.
Following §4.4, the splitter produces an ordered sequence of overlapping
size-bounded windows over the preprocessed text: each chunk after the first
re-includes the trailing `CHUNK_OVERLAP` characters of the previous chunk,
and placeholder tokens are opaque and indivisible — no chunk boundary (nor
the overlap region between two consecutive chunks) may touch a placeholder
occurrence, a chunk being allowed to exceed the budget rather than split a
table.  The separator priorities of §4.4 only select which admissible cut is
preferred; they are abstracted by the budget-filling choice (the furthest
admissible cut within budget, else the nearest admissible cut beyond it). -/

def CHUNK_SIZE : Nat := 1000

def CHUNK_OVERLAP : Nat := 250

/-- The protected intervals: every occurrence `(start, length)` of a
placeholder token in the text. -/
def protIntervals (tokens : List Str) (text : Str) : List (Nat × Nat) :=
  tokens.foldr (fun p acc => (occPositions p text).map (fun a => (a, p.length)) ++ acc) []

/-- A cut at `e` is admissible when no protected interval meets the overlap
window `[e - ov, e)` that the cut would induce: every occurrence lies
entirely at or after `e`, or ends at or before `e - ov`. -/
def safeCutB (occs : List (Nat × Nat)) (ov e : Nat) : Bool :=
  occs.all (fun al => e ≤ al.1 || al.1 + al.2 + ov ≤ e)

/-- Largest admissible cut among `hi, hi - 1, …` (`steps` candidates). -/
def findCutDown (occs : List (Nat × Nat)) (ov : Nat) : Nat → Nat → Option Nat
  | _, 0 => none
  | hi, steps + 1 =>
    if safeCutB occs ov hi then some hi else findCutDown occs ov (hi - 1) steps

/-- Smallest admissible cut among `lo, lo + 1, …` (`steps` candidates). -/
def findCutUp (occs : List (Nat × Nat)) (ov : Nat) : Nat → Nat → Option Nat
  | _, 0 => none
  | lo, steps + 1 =>
    if safeCutB occs ov lo then some lo else findCutUp occs ov (lo + 1) steps

/-- The chunk windows over a text of length `n`: from start `s`, either the
remainder fits the budget (final window), or the furthest admissible cut `e`
within the budget — else the nearest admissible cut beyond it — closes the
window `[s, e)` and the next window starts at `e - ov`; if no admissible cut
exists at all the rest is one oversized window. -/
def splitWindowsAux (occs : List (Nat × Nat)) (size ov n : Nat) : Nat → Nat → List (Nat × Nat)
  | 0, s => [(s, n)]
  | fuel + 1, s =>
    if n ≤ s + size then [(s, n)]
    else
      match findCutDown occs ov (s + size) (size - ov) with
      | some e => (s, e) :: splitWindowsAux occs size ov n fuel (e - ov)
      | none =>
        match findCutUp occs ov (s + size + 1) (n - (s + size + 1)) with
        | some e => (s, e) :: splitWindowsAux occs size ov n fuel (e - ov)
        | none => [(s, n)]

/-- The chunk string carried by a window. -/
def windowChunk (text : Str) (w : Nat × Nat) : Str := (text.drop w.1).take (w.2 - w.1)

/-- The Bounded Splitter (`text_splitter.split_text`), modelled from the spec
as described above: the windows, materialized as chunk strings. -/
def splitText (tokens : List Str) (text : Str) : List Str :=
  (splitWindowsAux (protIntervals tokens text) CHUNK_SIZE CHUNK_OVERLAP
      text.length (text.length + 1) 0).map (windowChunk text)

/-! ## Chunk assembler: `chunk_text` (document_chunker.py 132-227) -/

/-- The metadata dictionary attached to each chunk (document_chunker.py
205-211). -/
structure ChunkMetadata where
  document_id : Str
  page_number : Nat
  chunk_index_on_page : Nat
  total_chunks_on_page : Nat
  total_document_pages : Nat
deriving DecidableEq

/-- The `DocumentChunk` record (schemas.py). -/
structure DocumentChunk where
  chunk_id : Str
  document_id : Str
  text : Str
  metadata : ChunkMetadata
deriving DecidableEq

/-- The clean chunks of one page: empty for an empty or all-whitespace page
(and for a page whose preprocessed text is empty or all-whitespace),
otherwise preprocess, split and postprocess (document_chunker.py 175-197). -/
def pageClean (gen : Nat → Str) (page_text : Str) : List Str :=
  if page_text = [] || isspaceB page_text then []
  else
    let pm := _preprocess_text gen page_text
    if pm.1 = [] || isspaceB pm.1 then []
    else _postprocess_chunks (splitText (pm.2.map Prod.fst) pm.1) pm.2

/-- The records emitted for one page's clean chunks, starting at the given
document-wide running index (document_chunker.py 200-218). -/
def pageRecords (document_id : Str) (total_pages page_num : Nat)
    (cleaned : List Str) (startIdx : Nat) : List DocumentChunk :=
  cleaned.enum.map (fun p =>
    { chunk_id := document_id ++ ofS "_chunk_" ++ natToStr (startIdx + p.1)
      document_id := document_id
      text := p.2
      metadata :=
        { document_id := document_id
          page_number := page_num
          chunk_index_on_page := p.1 + 1
          total_chunks_on_page := cleaned.length
          total_document_pages := total_pages } })

/-- The page loop of `chunk_text`, threading the document-wide running chunk
index (`current_chunk_index`). -/
def chunkTextLoop (gen : Nat → Str) (document_id : Str) (total_pages : Nat) :
    List (Nat × Str) → Nat → List DocumentChunk
  | [], _ => []
  | (page_num, t) :: rest, idx =>
    let cleaned := pageClean gen t
    if cleaned.isEmpty then chunkTextLoop gen document_id total_pages rest idx
    else
      pageRecords document_id total_pages page_num cleaned idx ++
      chunkTextLoop gen document_id total_pages rest (idx + cleaned.length)

/-- `chunk_text(extracted_data, document_id)`: all pages processed in order,
document-wide 1-based chunk ids (document_chunker.py 132-227).  The `gen`
oracle supplies the per-page placeholder tokens (`uuid.uuid4()` entropy). -/
def chunk_text (gen : Nat → Str) (extracted_data : List (Nat × Str))
    (document_id : Str) : List DocumentChunk :=
  if extracted_data.isEmpty then []
  else chunkTextLoop gen document_id extracted_data.length extracted_data 1


/-! ## Small lemmas about `joinWith` and the arbiter's table suffix -/

theorem joinWith_cons (sep x : Str) (xs : List Str) (h : xs ≠ []) :
    joinWith sep (x :: xs) = x ++ sep ++ joinWith sep xs := by
  cases xs with
  | nil => exact absurd rfl h
  | cons y r => rfl

theorem joinWith_ne_nil (sep : Str) (L : List Str) (hL : L ≠ [])
    (h : ∀ x ∈ L, x ≠ []) : joinWith sep L ≠ [] := by
  cases L with
  | nil => exact absurd rfl hL
  | cons x r =>
    cases r with
    | nil => exact h x (by simp)
    | cons y r' =>
      rw [joinWith_cons sep x (y :: r') (by simp)]
      intro hc
      have hx := h x (by simp)
      cases x with
      | nil => exact hx rfl
      | cons a u => simp at hc

theorem tableTextsOf_ne_nil (page_num : Nat) (tables : List TableGrid) :
    ∀ x ∈ tableTextsOf page_num tables, x ≠ [] := by
  intro x hx
  simp only [tableTextsOf, List.mem_filter] at hx
  exact fun hc => by simp [hc] at hx

/-- The direct-plus-tables page content is the blank-line join of the cleaned
direct text and the non-empty formatted tables. -/
theorem appendTables_eq_joinWith (page_num : Nat) (base : Str) (tables : List TableGrid) :
    appendTables base (formattedTablesTextOf page_num tables) =
      joinWith (ofS "\n\n") (base :: tableTextsOf page_num tables) := by
  by_cases hts : tableTextsOf page_num tables = []
  · have hft : formattedTablesTextOf page_num tables = [] := by
      unfold formattedTablesTextOf
      by_cases htb : tables.isEmpty
      · simp [htb]
      · simp [htb, hts, joinWith]
    rw [hft, hts]
    simp [appendTables, joinWith]
  · have htb : tables ≠ [] := by
      intro hc
      subst hc
      simp [tableTextsOf] at hts
    have hft : formattedTablesTextOf page_num tables =
        joinWith (ofS "\n\n") (tableTextsOf page_num tables) := by
      unfold formattedTablesTextOf
      simp [List.isEmpty_iff, htb]
    rw [hft, joinWith_cons _ _ _ hts]
    have hne : joinWith (ofS "\n\n") (tableTextsOf page_num tables) ≠ [] :=
      joinWith_ne_nil _ _ hts (tableTextsOf_ne_nil page_num tables)
    simp [appendTables, hne]

/-! ## Claim C7 (scenario A) -/

/-- C7: the claim as stated is false at its own input: the formatted block
for the grid `[["A","B"],["1","2"]]` with label `T1` has five lines in
total — opening marker, header, dashed separator, one data row, closing
marker — so the block strictly between the markers has three lines, not
four. -/
theorem c7_counterexample :
    let out := detect_and_extract_tables
      [[some (ofS "A"), some (ofS "B")], [some (ofS "1"), some (ofS "2")]] (ofS "T1")
    let lines := splitChar '\n' out
    lines.length = 5 ∧
    lines.head? = some (ofS "[TABLE_START: T1]") ∧
    lines.getLast? = some (ofS "[TABLE_END]") ∧
    ((lines.drop 1).take (lines.length - 2)).length = 3 ∧ (3 : Nat) ≠ 4 := by
  decide

/-- C7 (amended): the grid `[["A","B"],["1","2"]]` with label `T1` formats to
a block whose lines are the opening marker, the header `| A | B |`, the
dashed separator, the data row `| 1 | 2 |`, and the closing marker — i.e., a
3-line block between the markers. -/
theorem c7_scenario_a :
    detect_and_extract_tables
        [[some (ofS "A"), some (ofS "B")], [some (ofS "1"), some (ofS "2")]] (ofS "T1") =
      ofS "[TABLE_START: T1]\n| A | B |\n| --- | --- |\n| 1 | 2 |\n[TABLE_END]" ∧
    splitChar '\n'
        (detect_and_extract_tables
          [[some (ofS "A"), some (ofS "B")], [some (ofS "1"), some (ofS "2")]] (ofS "T1")) =
      [ofS "[TABLE_START: T1]", ofS "| A | B |", ofS "| --- | --- |",
        ofS "| 1 | 2 |", ofS "[TABLE_END]"] := by
  decide

/-! ## Claim C1 (scenario B: the OCR-empty fallback) -/

/-- C1: the claim as stated is false.  On a page whose cleaned direct text is
the two-character string `hi` (below the 20-character minimum) with no
tables, when the OCR collaborator runs successfully but returns empty text,
the code keeps the empty OCR text — so the final page content is empty and
the page is dropped from the output, instead of falling back to the original
short text. -/
theorem c1_counterexample :
    useOcrB 1 (some (ofS "hi")) [] = true ∧
    processPage 1 ⟨some (ofS "hi"), [], OcrOutcome.text []⟩ = [] ∧
    ([] : Str) ≠ ofS "hi" ∧
    extract_text_from_pdf [⟨some (ofS "hi"), [], OcrOutcome.text []⟩] = [] := by
  decide

/-- C1 (amended): on the OCR path, the fallback to the minimal direct text
plus the previously formatted tables (blank-line separated, stripped) happens
when the OCR collaborator raises; when OCR runs but returns text that
normalizes to empty, the page's final content is empty and the page is
omitted from `extract_text_from_pdf`'s output. -/
theorem c1_ocr_empty_and_failure (pn : Nat) (d : Option Str) (tbs : List TableGrid)
    (h : useOcrB pn d tbs = true) :
    processPage pn ⟨d, tbs, OcrOutcome.failure⟩ =
      stripL (joinWith (ofS "\n\n") (cleanedDirectOf d :: tableTextsOf pn tbs)) ∧
    (∀ t, normWS t = [] → processPage pn ⟨d, tbs, OcrOutcome.text t⟩ = []) ∧
    (∀ pages : List PageInput, ∀ pr ∈ extract_text_from_pdf pages, pr.2 ≠ []) := by
  refine ⟨?_, ?_, ?_⟩
  · simp only [processPage, h, if_true]
    rw [appendTables_eq_joinWith]
  · intro t ht
    simp [processPage, h, ht, stripL]
  · intro pages pr hpr
    simp only [extract_text_from_pdf, List.mem_filterMap] at hpr
    obtain ⟨p, _, hp⟩ := hpr
    by_cases hc : processPage (p.1 + 1) p.2 = []
    · simp [hc] at hp
    · simp only [hc, if_false, Option.some_inj] at hp
      rw [← hp]
      exact hc

theorem c1_witness :
    useOcrB 1 (some (ofS "hi")) [] = true ∧
    (processPage 1 ⟨some (ofS "hi"), [], OcrOutcome.failure⟩ =
        stripL (joinWith (ofS "\n\n") (cleanedDirectOf (some (ofS "hi")) :: tableTextsOf 1 [])) ∧
      (∀ t, normWS t = [] → processPage 1 ⟨some (ofS "hi"), [], OcrOutcome.text t⟩ = []) ∧
      (∀ pages : List PageInput, ∀ pr ∈ extract_text_from_pdf pages, pr.2 ≠ [])) :=
  ⟨by decide, c1_ocr_empty_and_failure 1 (some (ofS "hi")) [] (by decide)⟩

/-! ## Claim C8 (the no-OCR path) -/

/-- C8: the claim as stated is false.  A page with no direct text and a
single two-row table whose cells are all `None` meets the claim's antecedent
(a table whose row count meets `MIN_TABLE_ROWS_FOR_SIGNIFICANCE`), yet the
code does invoke OCR there: the code additionally requires the table to
format to non-empty text before counting it as significant, and this table
formats to the empty string. -/
theorem c8_counterexample :
    MIN_TABLE_ROWS_FOR_SIGNIFICANCE ≤ ([[none], [none]] : TableGrid).length ∧
    useOcrB 1 none [[[none], [none]]] = true := by
  decide

/-- C8 (amended): on every page whose cleaned direct text reaches the minimum
length, or that has at least one significant table — at least
`MIN_TABLE_ROWS_FOR_SIGNIFICANCE` rows *and* non-empty formatted text — OCR
is not invoked, and the final page text is the cleaned direct text
concatenated with all non-empty formatted tables, blank-line separated and
stripped of surrounding whitespace. -/
theorem c8_direct_path (pn : Nat) (d : Option Str) (tbs : List TableGrid)
    (h : MIN_TEXT_LENGTH_FOR_OCR_FALLBACK ≤ (cleanedDirectOf d).length ∨
      significantTablesFound pn tbs = true) :
    useOcrB pn d tbs = false ∧
    ∀ ocr, processPage pn ⟨d, tbs, ocr⟩ =
      stripL (joinWith (ofS "\n\n") (cleanedDirectOf d :: tableTextsOf pn tbs)) := by
  have hu : useOcrB pn d tbs = false := by
    unfold useOcrB
    rcases h with h | h
    · have : ¬ (cleanedDirectOf d).length < MIN_TEXT_LENGTH_FOR_OCR_FALLBACK := by omega
      simp [this]
    · simp [h]
  refine ⟨hu, fun ocr => ?_⟩
  simp only [processPage, hu, Bool.false_eq_true, if_false]
  rw [appendTables_eq_joinWith]

theorem c8_witness :
    (MIN_TEXT_LENGTH_FOR_OCR_FALLBACK ≤
        (cleanedDirectOf (some (ofS "this page has plenty of direct text"))).length ∨
      significantTablesFound 1 [] = true) ∧
    (useOcrB 1 (some (ofS "this page has plenty of direct text")) [] = false ∧
      ∀ ocr, processPage 1 ⟨some (ofS "this page has plenty of direct text"), [], ocr⟩ =
        stripL (joinWith (ofS "\n\n")
          (cleanedDirectOf (some (ofS "this page has plenty of direct text")) ::
            tableTextsOf 1 []))) :=
  ⟨Or.inl (by decide),
    c8_direct_path 1 (some (ofS "this page has plenty of direct text")) [] (Or.inl (by decide))⟩

/-! ## The chunk-assembler loop: shared lemmas -/

/-- A concrete token oracle of the shape the source generates
(`__TABLE_<hex>__`), indexed as in the arena reformulation of spec §9. -/
def tokenOracle (k : Nat) : Str := ofS "__TABLE_" ++ natToStr k ++ ofS "__"

theorem pageClean_nil_of_blank (gen : Nat → Str) (t : Str)
    (h : t = [] ∨ isspaceB t = true) : pageClean gen t = [] := by
  rcases h with h | h
  · simp [pageClean, h]
  · simp [pageClean, h]

theorem pageRecords_length (document_id : Str) (tp pn : Nat) (cleaned : List Str) (idx : Nat) :
    (pageRecords document_id tp pn cleaned idx).length = cleaned.length := by
  simp [pageRecords]

theorem pageRecords_getElem (document_id : Str) (tp pn : Nat) (cleaned : List Str)
    (idx : Nat) (i : Nat) (hi : i < (pageRecords document_id tp pn cleaned idx).length) :
    (pageRecords document_id tp pn cleaned idx)[i] =
      { chunk_id := document_id ++ ofS "_chunk_" ++ natToStr (idx + i)
        document_id := document_id
        text := cleaned.get ⟨i, by simpa [pageRecords_length] using hi⟩
        metadata :=
          { document_id := document_id
            page_number := pn
            chunk_index_on_page := i + 1
            total_chunks_on_page := cleaned.length
            total_document_pages := tp } } := by
  have hi' : i < cleaned.length := by simpa [pageRecords_length] using hi
  simp [pageRecords, List.getElem_map, List.getElem_enum]

theorem chunkTextLoop_length (gen : Nat → Str) (document_id : Str) (tp : Nat)
    (pages : List (Nat × Str)) (idx : Nat) :
    (chunkTextLoop gen document_id tp pages idx).length =
      (pages.map (fun p => (pageClean gen p.2).length)).sum := by
  induction pages generalizing idx with
  | nil => simp [chunkTextLoop]
  | cons p rest ih =>
    obtain ⟨pn, t⟩ := p
    by_cases h : (pageClean gen t).isEmpty
    · have ht : pageClean gen t = [] := by simpa [List.isEmpty_iff] using h
      simp [chunkTextLoop, h, ih, ht]
    · simp [chunkTextLoop, h, ih, pageRecords_length]

/-- Every record of the loop carries the id `document_id ++ "_chunk_" ++ n`
where `n` counts from the initial running index in output order. -/
theorem chunkTextLoop_chunk_id (gen : Nat → Str) (document_id : Str) (tp : Nat)
    (pages : List (Nat × Str)) (idx : Nat) (i : Nat)
    (hi : i < (chunkTextLoop gen document_id tp pages idx).length) :
    (chunkTextLoop gen document_id tp pages idx)[i].chunk_id =
      document_id ++ ofS "_chunk_" ++ natToStr (idx + i) := by
  induction pages generalizing idx i with
  | nil => simp [chunkTextLoop] at hi
  | cons p rest ih =>
    obtain ⟨pn, t⟩ := p
    by_cases h : (pageClean gen t).isEmpty
    · simp only [chunkTextLoop, h, if_true] at hi ⊢
      exact ih idx i hi
    · simp only [chunkTextLoop, h, Bool.false_eq_true, if_false] at hi ⊢
      set m := (pageClean gen t).length with hm
      by_cases hlt : i < m
      · rw [List.getElem_append_left (by simpa [pageRecords_length] using hlt)]
        rw [pageRecords_getElem]
      · have hge : m ≤ i := Nat.le_of_not_lt hlt
        have hlen : (pageRecords document_id tp pn (pageClean gen t) idx).length = m :=
          pageRecords_length _ _ _ _ _
        rw [List.getElem_append_right (by omega)]
        simp only [hlen]
        have hi2 : i - m < (chunkTextLoop gen document_id tp rest (idx + m)).length := by
          simp only [List.length_append, hlen] at hi
          omega
        rw [ih (idx + m) (i - m) hi2]
        have harith : idx + m + (i - m) = idx + i := by omega
        rw [harith]

/-! ## Claim C9 (frame: blank pages) -/

/-- C9: a page whose text is empty or all-whitespace, or that yields zero
clean chunks after postprocessing, contributes no records to the loop and
leaves the document-wide running chunk index unchanged, so all records of
the remaining pages (ids included) are exactly those produced without that
page. -/
theorem c9_blank_page_frame (gen : Nat → Str) (document_id : Str) (tp pn idx : Nat)
    (t : Str) (rest : List (Nat × Str))
    (h : t = [] ∨ isspaceB t = true ∨ pageClean gen t = []) :
    chunkTextLoop gen document_id tp ((pn, t) :: rest) idx =
      chunkTextLoop gen document_id tp rest idx := by
  have hc : pageClean gen t = [] := by
    rcases h with h | h | h
    · exact pageClean_nil_of_blank gen t (Or.inl h)
    · exact pageClean_nil_of_blank gen t (Or.inr h)
    · exact h
  simp [chunkTextLoop, hc]

theorem c9_witness :
    ((ofS "   ") = [] ∨ isspaceB (ofS "   ") = true ∨
      pageClean tokenOracle (ofS "   ") = []) ∧
    chunkTextLoop tokenOracle (ofS "doc") 3 [(2, ofS "   "), (3, ofS "Page three.")] 1 =
      chunkTextLoop tokenOracle (ofS "doc") 3 [(3, ofS "Page three.")] 1 :=
  ⟨Or.inr (Or.inl (by decide)),
    c9_blank_page_frame tokenOracle (ofS "doc") 3 2 1 (ofS "   ")
      [(3, ofS "Page three.")] (Or.inr (Or.inl (by decide)))⟩

/-! ## Claim C5 (chunk id uniqueness, shape and order) -/

theorem chunkId_append_inj (document_id : Str) (a b : Nat)
    (h : document_id ++ ofS "_chunk_" ++ natToStr a =
      document_id ++ ofS "_chunk_" ++ natToStr b) : a = b := by
  have h2 := congrArg (List.drop (document_id ++ ofS "_chunk_").length) h
  simp only [List.drop_left] at h2
  exact natToStr_injective h2

/-- C5: the `n`-th record assembled by `chunk_text` (pages in input order,
chunks in page order) has chunk id exactly `{document_id}_chunk_{n}` with `n`
1-based and document-wide; consequently the ids are pairwise distinct and
their numbers strictly increase in assembly order. -/
theorem c5_chunk_ids (gen : Nat → Str) (extracted_data : List (Nat × Str))
    (document_id : Str) :
    (∀ i (hi : i < (chunk_text gen extracted_data document_id).length),
      (chunk_text gen extracted_data document_id)[i].chunk_id =
        document_id ++ ofS "_chunk_" ++ natToStr (i + 1)) ∧
    ((chunk_text gen extracted_data document_id).map (fun c => c.chunk_id)).Nodup := by
  have hpoint : ∀ i (hi : i < (chunk_text gen extracted_data document_id).length),
      (chunk_text gen extracted_data document_id)[i].chunk_id =
        document_id ++ ofS "_chunk_" ++ natToStr (i + 1) := by
    intro i hi
    by_cases hd : extracted_data.isEmpty
    · have hnil : chunk_text gen extracted_data document_id = [] := by
        unfold chunk_text
        rw [if_pos hd]
      rw [hnil] at hi
      simp at hi
    · have heq : chunk_text gen extracted_data document_id =
          chunkTextLoop gen document_id extracted_data.length extracted_data 1 := by
        unfold chunk_text
        rw [if_neg hd]
      have hi' : i < (chunkTextLoop gen document_id
          extracted_data.length extracted_data 1).length := by
        rw [← heq]
        exact hi
      rw [List.getElem_of_eq heq hi]
      rw [chunkTextLoop_chunk_id gen document_id extracted_data.length extracted_data 1 i hi']
      have harith : 1 + i = i + 1 := by omega
      rw [harith]
  refine ⟨hpoint, ?_⟩
  have hmap : (chunk_text gen extracted_data document_id).map (fun c => c.chunk_id) =
      (List.range (chunk_text gen extracted_data document_id).length).map
        (fun i => document_id ++ ofS "_chunk_" ++ natToStr (i + 1)) := by
    apply List.ext_getElem
    · simp
    · intro i h1 h2
      simp only [List.getElem_map, List.getElem_range]
      exact hpoint i (by simpa using h1)
  rw [hmap]
  refine List.Nodup.map ?_ (List.nodup_range _)
  intro a b hab
  have := chunkId_append_inj document_id (a + 1) (b + 1) hab
  omega

/-! ## Claim C10 (metadata correctness) -/

theorem pageRecords_mem_fields (document_id : Str) (tp pn : Nat) (cleaned : List Str)
    (idx : Nat) (c : DocumentChunk) (hc : c ∈ pageRecords document_id tp pn cleaned idx) :
    c.metadata.document_id = document_id ∧
    c.document_id = document_id ∧
    c.metadata.total_document_pages = tp ∧
    c.metadata.page_number = pn ∧
    1 ≤ c.metadata.chunk_index_on_page ∧
    c.metadata.chunk_index_on_page ≤ cleaned.length ∧
    c.metadata.total_chunks_on_page = cleaned.length := by
  obtain ⟨i, hi, rfl⟩ := List.mem_iff_getElem.mp hc
  have hi' : i < cleaned.length := by simpa [pageRecords_length] using hi
  rw [pageRecords_getElem document_id tp pn cleaned idx i hi]
  have h5 : (1 : Nat) ≤ i + 1 := by omega
  have h6 : i + 1 ≤ cleaned.length := by omega
  exact ⟨rfl, rfl, rfl, rfl, h5, h6, rfl⟩

theorem mem_chunkTextLoop_fields (gen : Nat → Str) (document_id : Str) (tp : Nat)
    (pages : List (Nat × Str)) (idx : Nat) (c : DocumentChunk)
    (hc : c ∈ chunkTextLoop gen document_id tp pages idx) :
    c.metadata.document_id = document_id ∧
    c.document_id = document_id ∧
    c.metadata.total_document_pages = tp ∧
    1 ≤ c.metadata.chunk_index_on_page ∧
    c.metadata.chunk_index_on_page ≤ c.metadata.total_chunks_on_page ∧
    ∃ t, (c.metadata.page_number, t) ∈ pages ∧
      c.metadata.total_chunks_on_page = (pageClean gen t).length := by
  induction pages generalizing idx with
  | nil => simp [chunkTextLoop] at hc
  | cons p rest ih =>
    obtain ⟨pn, t⟩ := p
    by_cases h : (pageClean gen t).isEmpty
    · simp only [chunkTextLoop, h, if_true] at hc
      obtain ⟨h1, h2, h3, h4, h5, t', ht', h6⟩ := ih idx hc
      exact ⟨h1, h2, h3, h4, h5, t', List.mem_cons_of_mem _ ht', h6⟩
    · simp only [chunkTextLoop, h, Bool.false_eq_true, if_false, List.mem_append] at hc
      rcases hc with hc | hc
      · obtain ⟨h1, h2, h3, h4, h5, h6, h7⟩ :=
          pageRecords_mem_fields document_id tp pn (pageClean gen t) idx c hc
        exact ⟨h1, h2, h3, by omega, by omega, t, by rw [h4]; exact List.mem_cons_self _ _, h7⟩
      · obtain ⟨h1, h2, h3, h4, h5, t', ht', h6⟩ := ih (idx + (pageClean gen t).length) hc
        exact ⟨h1, h2, h3, h4, h5, t', List.mem_cons_of_mem _ ht', h6⟩

theorem pageRecords_filter_map_index (document_id : Str) (tp pn : Nat)
    (cleaned : List Str) (idx : Nat) :
    ((pageRecords document_id tp pn cleaned idx).filter
        (fun c => decide (c.metadata.page_number = pn))).map
      (fun c => c.metadata.chunk_index_on_page) = List.range' 1 cleaned.length := by
  have hall : (pageRecords document_id tp pn cleaned idx).filter
      (fun c => decide (c.metadata.page_number = pn)) =
      pageRecords document_id tp pn cleaned idx := by
    apply List.filter_eq_self.mpr
    intro c hc
    have := (pageRecords_mem_fields document_id tp pn cleaned idx c hc).2.2.2.1
    simp [this]
  rw [hall]
  apply List.ext_getElem
  · simp [pageRecords_length]
  · intro i h1 h2
    simp only [List.getElem_map]
    rw [pageRecords_getElem document_id tp pn cleaned idx i (by simpa using h1)]
    simp [List.getElem_range']
    omega

theorem chunkTextLoop_filter_page (gen : Nat → Str) (document_id : Str) (tp : Nat)
    (pages : List (Nat × Str)) (idx pn : Nat) (t : Str)
    (hdist : (pages.map Prod.fst).Nodup) (hmem : (pn, t) ∈ pages) :
    ((chunkTextLoop gen document_id tp pages idx).filter
        (fun c => decide (c.metadata.page_number = pn))).map
      (fun c => c.metadata.chunk_index_on_page) =
      List.range' 1 (pageClean gen t).length := by
  induction pages generalizing idx with
  | nil => simp at hmem
  | cons p rest ih =>
    obtain ⟨p0, t0⟩ := p
    have hd0 : p0 ∉ rest.map Prod.fst := by
      have := hdist
      simp only [List.map_cons, List.nodup_cons] at this
      exact this.1
    have hrestfilter : ∀ idx2, p0 = pn →
        (chunkTextLoop gen document_id tp rest idx2).filter
          (fun c => decide (c.metadata.page_number = pn)) = [] := by
      intro idx2 hpn
      apply List.filter_eq_nil.mpr
      intro c hc
      obtain ⟨_, _, _, _, _, t', ht', _⟩ :=
        mem_chunkTextLoop_fields gen document_id tp rest idx2 c hc
      have hpage : c.metadata.page_number ∈ rest.map Prod.fst :=
        List.mem_map.mpr ⟨(c.metadata.page_number, t'), ht', rfl⟩
      simp only [decide_eq_true_eq]
      intro hcp
      rw [hcp, ← hpn] at hpage
      exact hd0 hpage
    by_cases hpn : p0 = pn
    · have ht0 : t = t0 := by
        rcases List.mem_cons.mp hmem with h | h
        · exact congrArg Prod.snd h
        · exfalso
          apply hd0
          rw [hpn]
          exact List.mem_map.mpr ⟨(pn, t), h, rfl⟩
      subst ht0
      subst hpn
      by_cases h : (pageClean gen t).isEmpty
      · have hnil : pageClean gen t = [] := by simpa [List.isEmpty_iff] using h
        simp only [chunkTextLoop, h, if_true]
        rw [hrestfilter idx rfl]
        simp [hnil]
      · simp only [chunkTextLoop, h, Bool.false_eq_true, if_false, List.filter_append,
          List.map_append]
        rw [pageRecords_filter_map_index, hrestfilter (idx + (pageClean gen t).length) rfl]
        simp
    · have hmem' : (pn, t) ∈ rest := by
        rcases List.mem_cons.mp hmem with h | h
        · exact absurd (congrArg Prod.fst h).symm hpn
        · exact h
      have hdist' : (rest.map Prod.fst).Nodup := by
        have := hdist
        simp only [List.map_cons, List.nodup_cons] at this
        exact this.2
      have hblockfilter : ∀ idx2, (pageRecords document_id tp p0 (pageClean gen t0) idx2).filter
          (fun c => decide (c.metadata.page_number = pn)) = [] := by
        intro idx2
        apply List.filter_eq_nil.mpr
        intro c hc
        have := (pageRecords_mem_fields document_id tp p0 (pageClean gen t0) idx2 c hc).2.2.2.1
        simp only [decide_eq_true_eq]
        intro hcp
        exact hpn (this ▸ hcp : p0 = pn)
      by_cases h : (pageClean gen t0).isEmpty
      · simp only [chunkTextLoop, h, if_true]
        exact ih idx hdist' hmem'
      · simp only [chunkTextLoop, h, Bool.false_eq_true, if_false, List.filter_append,
          List.map_append]
        rw [hblockfilter idx, ih (idx + (pageClean gen t0).length) hdist' hmem']
        simp

/-- C10: every emitted record's metadata is correct: metadata `document_id`
equals the record's `document_id` field (both the given document id); the
page number is the number of a source page; `total_document_pages` is the
input length; `chunk_index_on_page` runs 1-based up to
`total_chunks_on_page`, which counts exactly that page's clean chunks — and,
page numbers being distinct, the indices of a page's records are exactly
`1, …, total_chunks_on_page` in order. -/
theorem c10_metadata (gen : Nat → Str) (extracted_data : List (Nat × Str))
    (document_id : Str) (hdist : (extracted_data.map Prod.fst).Nodup) :
    (∀ c ∈ chunk_text gen extracted_data document_id,
      c.metadata.document_id = c.document_id ∧
      c.document_id = document_id ∧
      c.metadata.total_document_pages = extracted_data.length ∧
      1 ≤ c.metadata.chunk_index_on_page ∧
      c.metadata.chunk_index_on_page ≤ c.metadata.total_chunks_on_page ∧
      ∃ t, (c.metadata.page_number, t) ∈ extracted_data ∧
        c.metadata.total_chunks_on_page = (pageClean gen t).length) ∧
    (∀ pn t, (pn, t) ∈ extracted_data →
      ((chunk_text gen extracted_data document_id).filter
          (fun c => decide (c.metadata.page_number = pn))).map
        (fun c => c.metadata.chunk_index_on_page) =
        List.range' 1 (pageClean gen t).length) := by
  by_cases hd : extracted_data.isEmpty
  · have hnil : extracted_data = [] := by simpa [List.isEmpty_iff] using hd
    subst hnil
    constructor
    · intro c hc
      simp [chunk_text] at hc
    · intro pn t hmem
      simp at hmem
  · have heq : chunk_text gen extracted_data document_id =
        chunkTextLoop gen document_id extracted_data.length extracted_data 1 := by
      unfold chunk_text
      rw [if_neg hd]
    constructor
    · intro c hc
      rw [heq] at hc
      obtain ⟨h1, h2, h3, h4, h5, t, ht, h6⟩ :=
        mem_chunkTextLoop_fields gen document_id extracted_data.length extracted_data 1 c hc
      exact ⟨h1.trans h2.symm, h2, h3, h4, h5, t, ht, h6⟩
    · intro pn t hmem
      rw [heq]
      exact chunkTextLoop_filter_page gen document_id extracted_data.length
        extracted_data 1 pn t hdist hmem

theorem c10_witness :
    ((([(1, ofS "Page one."), (2, ofS "Two.")] : List (Nat × Str)).map Prod.fst).Nodup) ∧
    ((∀ c ∈ chunk_text tokenOracle [(1, ofS "Page one."), (2, ofS "Two.")] (ofS "doc"),
      c.metadata.document_id = c.document_id ∧
      c.document_id = ofS "doc" ∧
      c.metadata.total_document_pages =
        ([(1, ofS "Page one."), (2, ofS "Two.")] : List (Nat × Str)).length ∧
      1 ≤ c.metadata.chunk_index_on_page ∧
      c.metadata.chunk_index_on_page ≤ c.metadata.total_chunks_on_page ∧
      ∃ t, (c.metadata.page_number, t) ∈
          ([(1, ofS "Page one."), (2, ofS "Two.")] : List (Nat × Str)) ∧
        c.metadata.total_chunks_on_page = (pageClean tokenOracle t).length) ∧
    (∀ pn t, (pn, t) ∈ ([(1, ofS "Page one."), (2, ofS "Two.")] : List (Nat × Str)) →
      ((chunk_text tokenOracle [(1, ofS "Page one."), (2, ofS "Two.")] (ofS "doc")).filter
          (fun c => decide (c.metadata.page_number = pn))).map
        (fun c => c.metadata.chunk_index_on_page) =
        List.range' 1 (pageClean tokenOracle t).length)) :=
  ⟨by decide,
    c10_metadata tokenOracle [(1, ofS "Page one."), (2, ofS "Two.")] (ofS "doc") (by decide)⟩

/-! ## Claim C4 (coverage of the splitter) -/

/-- Concatenation of a chunk sequence with the configured overlap removed
from the start of every chunk after the first (the observation of spec §8's
coverage property). -/
def assembleChunks (ov : Nat) : List Str → Str
  | [] => []
  | c :: cs => c ++ (cs.map (fun d => d.drop ov)).flatten

theorem findCutDown_bounds (occs : List (Nat × Nat)) (ov : Nat) :
    ∀ steps hi e, steps ≤ hi → findCutDown occs ov hi steps = some e →
      safeCutB occs ov e = true ∧ hi - steps < e ∧ e ≤ hi := by
  intro steps
  induction steps with
  | zero => intro hi e _ h; simp [findCutDown] at h
  | succ k ih =>
    intro hi e hsteps h
    simp only [findCutDown] at h
    by_cases hs : safeCutB occs ov hi
    · simp only [hs, if_true, Option.some_inj] at h
      subst h
      exact ⟨hs, by omega, le_refl _⟩
    · simp only [hs, Bool.false_eq_true, if_false] at h
      obtain ⟨h1, h2, h3⟩ := ih (hi - 1) e (by omega) h
      exact ⟨h1, by omega, by omega⟩

theorem findCutUp_bounds (occs : List (Nat × Nat)) (ov : Nat) :
    ∀ steps lo e, findCutUp occs ov lo steps = some e →
      safeCutB occs ov e = true ∧ lo ≤ e ∧ e < lo + steps := by
  intro steps
  induction steps with
  | zero => intro lo e h; simp [findCutUp] at h
  | succ k ih =>
    intro lo e h
    simp only [findCutUp] at h
    by_cases hs : safeCutB occs ov lo
    · simp only [hs, if_true, Option.some_inj] at h
      subst h
      exact ⟨hs, le_refl _, by omega⟩
    · simp only [hs, Bool.false_eq_true, if_false] at h
      obtain ⟨h1, h2, h3⟩ := ih (lo + 1) e h
      exact ⟨h1, by omega, by omega⟩

/-- Shape of the window list: it is non-empty, starts at `s`, and its head
window either reaches `n` (and is the only window) or ends at an admissible
cut strictly between `s + ov` and `n`, the remaining windows restarting at
`e - ov`. -/
theorem splitWindowsAux_head (occs : List (Nat × Nat)) (size ov n : Nat)
    (hov : ov < size) (fuel s : Nat) :
    ∃ e rest, splitWindowsAux occs size ov n fuel s = (s, e) :: rest ∧
      ((e = n ∧ rest = []) ∨ (s + ov < e ∧ e < n ∧ safeCutB occs ov e = true ∧
        rest = splitWindowsAux occs size ov n (fuel - 1) (e - ov))) := by
  cases fuel with
  | zero => exact ⟨n, [], rfl, Or.inl ⟨rfl, rfl⟩⟩
  | succ k =>
    by_cases hfit : n ≤ s + size
    · refine ⟨n, [], ?_, Or.inl ⟨rfl, rfl⟩⟩
      simp [splitWindowsAux, hfit]
    · cases hdown : findCutDown occs ov (s + size) (size - ov) with
      | some e =>
        obtain ⟨h1, h2, h3⟩ := findCutDown_bounds occs ov _ _ _ (by omega) hdown
        refine ⟨e, _, ?_, Or.inr ⟨by omega, by omega, h1, rfl⟩⟩
        simp [splitWindowsAux, hfit, hdown]
      | none =>
        cases hup : findCutUp occs ov (s + size + 1) (n - (s + size + 1)) with
        | some e =>
          obtain ⟨h1, h2, h3⟩ := findCutUp_bounds occs ov _ _ _ hup
          refine ⟨e, _, ?_, Or.inr ⟨by omega, by omega, h1, rfl⟩⟩
          simp [splitWindowsAux, hfit, hdown, hup]
        | none =>
          refine ⟨n, [], ?_, Or.inl ⟨rfl, rfl⟩⟩
          simp [splitWindowsAux, hfit, hdown, hup]

theorem windowChunk_full (text : Str) (s : Nat) :
    windowChunk text (s, text.length) = text.drop s := by
  unfold windowChunk
  exact List.take_of_length_le (by simp)

/-- Coverage of the modelled splitter: reassembling the windows' chunks with
the overlap removed from every chunk after the first yields the tail of the
text from the current start. -/
theorem splitWindowsAux_coverage (occs : List (Nat × Nat)) (size ov : Nat)
    (text : Str) (hov : ov < size) :
    ∀ fuel s, s ≤ text.length →
      assembleChunks ov
          ((splitWindowsAux occs size ov text.length fuel s).map (windowChunk text)) =
        text.drop s := by
  intro fuel
  induction fuel with
  | zero =>
    intro s hs
    simp only [splitWindowsAux, List.map_cons, List.map_nil, assembleChunks]
    rw [windowChunk_full]
    simp
  | succ k ih =>
    intro s hs
    obtain ⟨e, rest, heq, hcase⟩ :=
      splitWindowsAux_head occs size ov text.length hov (k + 1) s
    rw [heq]
    rcases hcase with ⟨rfl, rfl⟩ | ⟨hlo, hhi, hsafe, hrest⟩
    · simp only [List.map_cons, List.map_nil, assembleChunks]
      rw [windowChunk_full]
      simp
    · simp only [Nat.add_sub_cancel] at hrest
      subst hrest
      obtain ⟨e', rest', heq', hcase'⟩ :=
        splitWindowsAux_head occs size ov text.length hov k (e - ov)
      have hih := ih (e - ov) (by omega)
      rw [heq'] at hih ⊢
      simp only [List.map_cons, assembleChunks] at hih ⊢
      set c1 := windowChunk text (e - ov, e') with hc1
      have hc1len : ov ≤ c1.length := by
        have hlen : c1.length = min (e' - (e - ov)) (text.length - (e - ov)) := by
          rw [hc1]
          unfold windowChunk
          simp [Nat.min_comm]
        rcases hcase' with ⟨rfl, _⟩ | ⟨hlo', hhi', _, _⟩
        · omega
        · omega
      rw [List.flatten_cons]
      have hglue : List.drop ov c1 ++
          (List.map (fun d => List.drop ov d) (List.map (windowChunk text) rest')).flatten =
          (c1 ++
            (List.map (fun d => List.drop ov d) (List.map (windowChunk text) rest')).flatten).drop
            ov :=
        (List.drop_append_of_le_length hc1len).symm
      rw [hglue, hih]
      have hdd : (text.drop (e - ov)).drop ov = text.drop e := by
        rw [List.drop_drop]
        congr 1
        omega
      rw [hdd]
      unfold windowChunk
      have htd : text.drop e = (text.drop s).drop (e - s) := by
        rw [List.drop_drop]
        congr 1
        omega
      rw [htd, List.take_append_drop]

theorem splitText_coverage (tokens : List Str) (text : Str) :
    splitText tokens text ≠ [] ∧
    assembleChunks CHUNK_OVERLAP (splitText tokens text) = text := by
  have hov : CHUNK_OVERLAP < CHUNK_SIZE := by decide
  constructor
  · unfold splitText
    obtain ⟨e, rest, heq, _⟩ :=
      splitWindowsAux_head (protIntervals tokens text) CHUNK_SIZE CHUNK_OVERLAP
        text.length hov (text.length + 1) 0
    rw [heq]
    simp
  · unfold splitText
    have := splitWindowsAux_coverage (protIntervals tokens text) CHUNK_SIZE CHUNK_OVERLAP
      text hov (text.length + 1) 0 (Nat.zero_le _)
    simpa using this

/-- C4 (spec-modelled splitter): for every page processed by `chunk_text`,
concatenating the raw chunks the splitter returns for the page's
preprocessed text, with the configured 250-character overlap removed from
the start of every chunk after the first, reconstructs the preprocessed text
exactly (and the chunk list is never empty). -/
theorem c4_raw_chunk_coverage (gen : Nat → Str) (page_text : Str) :
    splitText ((_preprocess_text gen page_text).2.map Prod.fst)
        (_preprocess_text gen page_text).1 ≠ [] ∧
    assembleChunks CHUNK_OVERLAP
        (splitText ((_preprocess_text gen page_text).2.map Prod.fst)
          (_preprocess_text gen page_text).1) =
      (_preprocess_text gen page_text).1 :=
  splitText_coverage _ _

/-! ## Claim C6 (table-format round trip) -/

theorem splitP_ne_nil (p : Char → Bool) (s : Str) : splitP p s ≠ [] := by
  induction s with
  | nil => simp [splitP]
  | cons a t ih =>
    by_cases h : p a
    · simp [splitP, h]
    · simp only [splitP, h, Bool.false_eq_true, if_false]
      cases hs : splitP p t with
      | nil => simp
      | cons x r => simp

theorem splitP_piece_chars (p : Char → Bool) (s : Str) :
    ∀ piece ∈ splitP p s, ∀ c ∈ piece, c ∈ s ∧ p c = false := by
  induction s with
  | nil =>
    intro piece hp c hc
    simp [splitP] at hp
    subst hp
    simp at hc
  | cons a t ih =>
    intro piece hp c hc
    by_cases ha : p a
    · simp only [splitP, ha, if_true, List.mem_cons] at hp
      rcases hp with hp | hp
      · subst hp; simp at hc
      · obtain ⟨h1, h2⟩ := ih piece hp c hc
        exact ⟨List.mem_cons_of_mem a h1, h2⟩
    · simp only [splitP, ha, Bool.false_eq_true, if_false] at hp
      cases hs : splitP p t with
      | nil => exact absurd hs (splitP_ne_nil p t)
      | cons h r =>
        rw [hs] at hp
        simp only [List.mem_cons] at hp
        rcases hp with hp | hp
        · subst hp
          simp only [List.mem_cons] at hc
          rcases hc with hc | hc
          · subst hc
            exact ⟨List.mem_cons_self _ _, by simpa using ha⟩
          · obtain ⟨h1, h2⟩ := ih h (by rw [hs]; exact List.mem_cons_self h r) c hc
            exact ⟨List.mem_cons_of_mem a h1, h2⟩
        · obtain ⟨h1, h2⟩ := ih piece (by rw [hs]; exact List.mem_cons_of_mem h hp) c hc
          exact ⟨List.mem_cons_of_mem a h1, h2⟩

theorem joinWith_mem_chars (sep : Str) (L : List Str) (c : Char)
    (h : c ∈ joinWith sep L) : c ∈ sep ∨ ∃ x ∈ L, c ∈ x := by
  induction L with
  | nil => simp [joinWith] at h
  | cons x r ih =>
    cases r with
    | nil =>
      simp only [joinWith] at h
      exact Or.inr ⟨x, by simp, h⟩
    | cons y r' =>
      rw [joinWith_cons sep x (y :: r') (by simp)] at h
      simp only [List.mem_append] at h
      rcases h with (h | h) | h
      · exact Or.inr ⟨x, by simp, h⟩
      · exact Or.inl h
      · rcases ih h with h' | ⟨z, hz, hcz⟩
        · exact Or.inl h'
        · exact Or.inr ⟨z, List.mem_cons_of_mem x hz, hcz⟩

theorem normWS_chars (s : Str) (c : Char) (h : c ∈ normWS s) :
    c = ' ' ∨ (c ∈ s ∧ pyWs c = false) := by
  unfold normWS at h
  rcases joinWith_mem_chars _ _ _ h with h' | ⟨x, hx, hcx⟩
  · left
    simpa [ofS] using h'
  · right
    simp only [List.mem_filter] at hx
    exact splitP_piece_chars pyWs s x hx.1 c hcx

theorem normWS_no_pipe (s : Str) (h : '|' ∉ s) : '|' ∉ normWS s := by
  intro hc
  rcases normWS_chars s '|' hc with h' | ⟨h1, _⟩
  · exact absurd h' (by decide)
  · exact h h1

theorem normWS_no_nl (s : Str) : '\n' ∉ normWS s := by
  intro hc
  rcases normWS_chars s '\n' hc with h' | ⟨_, h2⟩
  · exact absurd h' (by decide)
  · exact absurd h2 (by decide)

theorem cleanRow_chars (row : List (Option Str)) (c : Str) (hc : c ∈ cleanRow row) :
    c = [] ∨ ∃ s, some s ∈ row ∧ c = normWS s := by
  unfold cleanRow at hc
  obtain ⟨cell, hcell, hceq⟩ := List.mem_map.mp hc
  cases cell with
  | none => exact Or.inl hceq.symm
  | some s => exact Or.inr ⟨s, hcell, hceq.symm⟩

theorem mem_cleanedTable (td : TableGrid) (r : List Str) (hr : r ∈ cleanedTable td) :
    (∃ row ∈ td, r = cleanRow row) ∧ r.any (fun c => c ≠ []) = true := by
  unfold cleanedTable at hr
  have h1 := (List.mem_filter.mp hr).1
  have h2 := (List.mem_filter.mp hr).2
  obtain ⟨row, hrow, hre⟩ := List.mem_map.mp h1
  exact ⟨⟨row, hrow, hre.symm⟩, h2⟩

/-- Cells of a cleaned row of the table are pipe-free when the raw cells are,
and never contain a newline. -/
theorem cleanedTable_cell_chars (td : TableGrid) (r : List Str) (hr : r ∈ cleanedTable td)
    (c : Str) (hc : c ∈ r) :
    ('\n' ∉ c) ∧ ((∀ row ∈ td, ∀ cell ∈ row, ∀ s, cell = some s → '|' ∉ s) → '|' ∉ c) := by
  obtain ⟨⟨row, hrow, hre⟩, _⟩ := mem_cleanedTable td r hr
  subst hre
  rcases cleanRow_chars row c hc with rfl | ⟨s, hs, rfl⟩
  · constructor
    · simp
    · intro _; simp
  · constructor
    · exact normWS_no_nl s
    · intro hcell
      exact normWS_no_pipe s (hcell row hrow (some s) hs s rfl)

theorem padRow_length (n : Nat) (row : List Str) : (padRow n row).length = n := by
  unfold padRow
  by_cases h : row.length < n
  · simp only [h, if_true, List.length_append, List.length_take, List.length_replicate]
    omega
  · simp only [h, if_false, List.length_take]
    omega

theorem padRow_mem (n : Nat) (row : List Str) (c : Str) (hc : c ∈ padRow n row) :
    c ∈ row ∨ c = [] := by
  unfold padRow at hc
  by_cases h : row.length < n
  · simp only [h, if_true, List.mem_append] at hc
    rcases hc with hc | hc
    · exact Or.inl (List.mem_of_mem_take hc)
    · exact Or.inr (List.eq_of_mem_replicate hc)
  · simp only [h, if_false] at hc
    exact Or.inl (List.mem_of_mem_take hc)

theorem count_joinWith_sep (cells : List Str) (hne : cells ≠ [])
    (h : ∀ c ∈ cells, '|' ∉ c) :
    (joinWith (ofS " | ") cells).count '|' = cells.length - 1 := by
  induction cells with
  | nil => exact absurd rfl hne
  | cons x r ih =>
    cases r with
    | nil =>
      simp only [joinWith, List.length_cons, List.length_nil]
      rw [List.count_eq_zero.mpr (h x (by simp))]
    | cons y r' =>
      rw [joinWith_cons _ _ _ (by simp)]
      simp only [List.count_append]
      rw [List.count_eq_zero.mpr (h x (by simp))]
      rw [ih (by simp) (fun c hc => h c (List.mem_cons_of_mem x hc))]
      simp [ofS, List.count_cons]
      omega

theorem splitChar_pipeLine_length (cells : List Str) (hne : cells ≠ [])
    (h : ∀ c ∈ cells, '|' ∉ c) :
    (splitChar '|' (pipeLine cells)).length = cells.length + 2 := by
  rw [splitChar_length]
  unfold pipeLine
  simp only [List.count_append]
  rw [count_joinWith_sep cells hne h]
  have h1 : (ofS "| ").count '|' = 1 := by decide
  have h2 : (ofS " |").count '|' = 1 := by decide
  rw [h1, h2]
  have : cells.length ≥ 1 := by
    cases cells with
    | nil => exact absurd rfl hne
    | cons a l => simp
  omega

theorem pipeLine_no_nl (cells : List Str) (h : ∀ c ∈ cells, '\n' ∉ c) :
    '\n' ∉ pipeLine cells := by
  unfold pipeLine
  intro hc
  simp only [List.mem_append] at hc
  rcases hc with (hc | hc) | hc
  · exact absurd hc (by decide)
  · rcases joinWith_mem_chars _ _ _ hc with h' | ⟨x, hx, hcx⟩
    · exact absurd h' (by decide)
    · exact h x hx hcx
  · exact absurd hc (by decide)

/-- The formatted output for a usable grid, written as the joined line list. -/
theorem detect_shape (td : TableGrid) (ctx : Str)
    (h1 : (td.isEmpty || td.all List.isEmpty) = false)
    (r0 : List Str) (rs : List (List Str)) (hc : cleanedTable td = r0 :: rs)
    (hn : numColsOf (r0 :: rs) ≠ 0) :
    detect_and_extract_tables td ctx =
      joinWith (ofS "\n")
        ((ofS "[TABLE_START: " ++ ctx ++ ofS "]") ::
          pipeLine (padRow (numColsOf (r0 :: rs)) r0) ::
          pipeLine (List.replicate (numColsOf (r0 :: rs)) (ofS "---")) ::
          ((rs.map (padRow (numColsOf (r0 :: rs)))).map pipeLine ++ [ofS "[TABLE_END]"])) := by
  unfold detect_and_extract_tables
  rw [h1]
  simp only [Bool.false_eq_true, if_false]
  rw [hc]
  simp only [List.isEmpty_cons, Bool.false_eq_true, if_false]
  rw [if_neg hn]
  simp only [List.map_cons]

theorem numColsOf_cons (r0 : List Str) (rs : List (List Str)) (h : r0 ≠ []) :
    numColsOf (r0 :: rs) = r0.length := by
  unfold numColsOf
  have : r0.length ≠ 0 := by
    cases r0 with
    | nil => exact absurd rfl h
    | cons a l => simp
  simp [this]

/-- C6: the claim as stated quantifies over every non-empty grid, but the
serialization does not escape pipe characters inside cells: for the grid
`[["A|B"]]` the header line splits on the pipe into 4 pieces, while a
1-column line of pipe-delimited cells splits into 3. -/
theorem c6_counterexample :
    detect_and_extract_tables [[some (ofS "A|B")]] (ofS "Table") ≠ [] ∧
    numColsOf (cleanedTable [[some (ofS "A|B")]]) = 1 ∧
    (splitChar '|'
        ((splitChar '\n' (detect_and_extract_tables [[some (ofS "A|B")]] (ofS "Table"))).getD
          1 [])).length = 4 ∧ (4 : Nat) ≠ 1 + 2 := by
  decide

/-- C6 (amended): for every grid with no pipe character inside any cell, and
any label free of pipes and newlines, the non-empty output of
`detect_and_extract_tables` splits on newlines into the opening marker line,
one header line, one dashed separator line, one line per remaining cleaned
data row, and the closing marker line; and each of those interior lines,
split on the pipe character, carries exactly the determined column count of
pipe-delimited cells (`numCols + 2` pieces). -/
theorem c6_round_trip (td : TableGrid) (ctx : Str)
    (hcell : ∀ row ∈ td, ∀ cell ∈ row, ∀ s, cell = some s → '|' ∉ s)
    (hctxn : '\n' ∉ ctx)
    (hne : detect_and_extract_tables td ctx ≠ []) :
    (splitChar '\n' (detect_and_extract_tables td ctx)).length =
      (cleanedTable td).length + 3 ∧
    (splitChar '\n' (detect_and_extract_tables td ctx)).head? =
      some (ofS "[TABLE_START: " ++ ctx ++ ofS "]") ∧
    (splitChar '\n' (detect_and_extract_tables td ctx)).getLast? =
      some (ofS "[TABLE_END]") ∧
    ∀ l ∈ ((splitChar '\n' (detect_and_extract_tables td ctx)).drop 1).take
        ((cleanedTable td).length + 1),
      (splitChar '|' l).length = numColsOf (cleanedTable td) + 2 := by
  cases hguard : (td.isEmpty || td.all List.isEmpty) with
  | true =>
    exfalso
    apply hne
    unfold detect_and_extract_tables
    rw [hguard]
    simp
  | false =>
  cases hc : cleanedTable td with
  | nil =>
    exfalso
    apply hne
    unfold detect_and_extract_tables
    rw [hguard]
    simp only [Bool.false_eq_true, if_false]
    rw [hc]
    simp
  | cons r0 rs =>
  have hr0mem : r0 ∈ cleanedTable td := by
    rw [hc]
    exact List.mem_cons_self _ _
  have hr0ne : r0 ≠ [] := by
    obtain ⟨_, hany⟩ := mem_cleanedTable td r0 hr0mem
    obtain ⟨c, hcr, _⟩ := List.any_eq_true.mp hany
    exact List.ne_nil_of_mem hcr
  have hnum : numColsOf (r0 :: rs) = r0.length := numColsOf_cons r0 rs hr0ne
  have hn1 : 1 ≤ r0.length := by
    cases r0 with
    | nil => exact absurd rfl hr0ne
    | cons a l => simp
  have hshape := detect_shape td ctx hguard r0 rs hc (by omega)
  set n := numColsOf (r0 :: rs) with hnset
  -- cells of any padded cleaned row are pipe-free and newline-free
  have hrowcells : ∀ r ∈ cleanedTable td, ∀ c ∈ padRow n r, '|' ∉ c ∧ '\n' ∉ c := by
    intro r hr c hcp
    rcases padRow_mem n r c hcp with hcr | rfl
    · obtain ⟨hnl, hp⟩ := cleanedTable_cell_chars td r hr c hcr
      exact ⟨hp hcell, hnl⟩
    · exact ⟨by simp, by simp⟩
  have hsepcells : ∀ c ∈ List.replicate n (ofS "---"), '|' ∉ c ∧ '\n' ∉ c := by
    intro c hcr
    rw [List.eq_of_mem_replicate hcr]
    exact ⟨by decide, by decide⟩
  -- every line of the output is newline-free
  have hstartnl : '\n' ∉ ofS "[TABLE_START: " ++ ctx ++ ofS "]" := by
    intro hmem
    rcases List.mem_append.mp hmem with hmem | hmem
    · rcases List.mem_append.mp hmem with hmem | hmem
      · exact absurd hmem (by decide)
      · exact hctxn hmem
    · exact absurd hmem (by decide)
  have hlinesnl : ∀ l ∈ ((ofS "[TABLE_START: " ++ ctx ++ ofS "]") ::
      pipeLine (padRow n r0) ::
      pipeLine (List.replicate n (ofS "---")) ::
      ((rs.map (padRow n)).map pipeLine ++ [ofS "[TABLE_END]"])), '\n' ∉ l := by
    intro l hl
    rcases List.mem_cons.mp hl with rfl | hl
    · exact hstartnl
    rcases List.mem_cons.mp hl with rfl | hl
    · exact pipeLine_no_nl _ (fun c hcp => (hrowcells r0 hr0mem c hcp).2)
    rcases List.mem_cons.mp hl with rfl | hl
    · exact pipeLine_no_nl _ (fun c hcp => (hsepcells c hcp).2)
    rcases List.mem_append.mp hl with hl | hl
    · obtain ⟨pr, hpr, rfl⟩ := List.mem_map.mp hl
      obtain ⟨r, hrrs, rfl⟩ := List.mem_map.mp hpr
      have hrmem : r ∈ cleanedTable td := by
        rw [hc]
        exact List.mem_cons_of_mem r0 hrrs
      exact pipeLine_no_nl _ (fun c hcp => (hrowcells r hrmem c hcp).2)
    · rw [List.mem_singleton.mp hl]
      decide
  have hsplit : splitChar '\n' (detect_and_extract_tables td ctx) =
      (ofS "[TABLE_START: " ++ ctx ++ ofS "]") ::
        pipeLine (padRow n r0) ::
        pipeLine (List.replicate n (ofS "---")) ::
        ((rs.map (padRow n)).map pipeLine ++ [ofS "[TABLE_END]"]) := by
    rw [hshape]
    rw [show (ofS "\n") = ['\n'] from rfl]
    exact splitChar_joinWith '\n' _ (by simp) hlinesnl
  rw [hsplit]
  refine ⟨?_, ?_, ?_, ?_⟩
  · simp
  · simp
  · rw [show ((ofS "[TABLE_START: " ++ ctx ++ ofS "]") ::
        pipeLine (padRow n r0) ::
        pipeLine (List.replicate n (ofS "---")) ::
        ((rs.map (padRow n)).map pipeLine ++ [ofS "[TABLE_END]"])) =
        ((ofS "[TABLE_START: " ++ ctx ++ ofS "]") ::
          pipeLine (padRow n r0) ::
          pipeLine (List.replicate n (ofS "---")) ::
          (rs.map (padRow n)).map pipeLine) ++ [ofS "[TABLE_END]"] by simp]
    exact List.getLast?_concat _
  · intro l hl
    have hmid : (((ofS "[TABLE_START: " ++ ctx ++ ofS "]") ::
        pipeLine (padRow n r0) ::
        pipeLine (List.replicate n (ofS "---")) ::
        ((rs.map (padRow n)).map pipeLine ++ [ofS "[TABLE_END]"])).drop 1).take
          ((r0 :: rs).length + 1) =
        pipeLine (padRow n r0) ::
        pipeLine (List.replicate n (ofS "---")) ::
        (rs.map (padRow n)).map pipeLine := by
      simp only [List.drop_succ_cons, List.drop_zero, List.length_cons, List.take_succ_cons]
      have hlen : rs.length = ((rs.map (padRow n)).map pipeLine).length := by simp
      rw [hlen, List.take_left]
    rw [hmid] at hl
    have hnlen : n = r0.length := hnum
    rcases List.mem_cons.mp hl with rfl | hl
    · rw [splitChar_pipeLine_length (padRow n r0)
        (by
          intro hcon
          have := padRow_length n r0
          rw [hcon] at this
          simp at this
          omega)
        (fun c hcp => (hrowcells r0 hr0mem c hcp).1)]
      rw [padRow_length]
    rcases List.mem_cons.mp hl with rfl | hl
    · rw [splitChar_pipeLine_length (List.replicate n (ofS "---"))
        (by
          intro hcon
          have : (List.replicate n (ofS "---")).length = 0 := by rw [hcon]; rfl
          simp at this
          omega)
        (fun c hcp => (hsepcells c hcp).1)]
      simp
    · obtain ⟨pr, hpr, rfl⟩ := List.mem_map.mp hl
      obtain ⟨r, hrrs, rfl⟩ := List.mem_map.mp hpr
      have hrmem : r ∈ cleanedTable td := by
        rw [hc]
        exact List.mem_cons_of_mem r0 hrrs
      rw [splitChar_pipeLine_length (padRow n r)
        (by
          intro hcon
          have := padRow_length n r
          rw [hcon] at this
          simp at this
          omega)
        (fun c hcp => (hrowcells r hrmem c hcp).1)]
      rw [padRow_length]

theorem c6_witness :
    ((∀ row ∈ ([[some (ofS "A"), some (ofS "B")], [some (ofS "1")]] : TableGrid),
        ∀ cell ∈ row, ∀ s, cell = some s → '|' ∉ s) ∧
      '\n' ∉ ofS "T2" ∧
      detect_and_extract_tables [[some (ofS "A"), some (ofS "B")], [some (ofS "1")]]
        (ofS "T2") ≠ []) ∧
    ((splitChar '\n'
        (detect_and_extract_tables [[some (ofS "A"), some (ofS "B")], [some (ofS "1")]]
          (ofS "T2"))).length =
      (cleanedTable [[some (ofS "A"), some (ofS "B")], [some (ofS "1")]]).length + 3 ∧
    (splitChar '\n'
        (detect_and_extract_tables [[some (ofS "A"), some (ofS "B")], [some (ofS "1")]]
          (ofS "T2"))).head? =
      some (ofS "[TABLE_START: " ++ ofS "T2" ++ ofS "]") ∧
    (splitChar '\n'
        (detect_and_extract_tables [[some (ofS "A"), some (ofS "B")], [some (ofS "1")]]
          (ofS "T2"))).getLast? =
      some (ofS "[TABLE_END]") ∧
    ∀ l ∈ ((splitChar '\n'
        (detect_and_extract_tables [[some (ofS "A"), some (ofS "B")], [some (ofS "1")]]
          (ofS "T2"))).drop 1).take
        ((cleanedTable [[some (ofS "A"), some (ofS "B")], [some (ofS "1")]]).length + 1),
      (splitChar '|' l).length =
        numColsOf (cleanedTable [[some (ofS "A"), some (ofS "B")], [some (ofS "1")]]) + 2) :=
  ⟨⟨by decide, by decide, by decide⟩,
    c6_round_trip [[some (ofS "A"), some (ofS "B")], [some (ofS "1")]] (ofS "T2")
      (by decide) (by decide) (by decide)⟩

/-! ## Occurrence toolkit for the postprocessor claims -/

theorem infix_iff_exists_drop (q s : Str) : q <:+: s ↔ ∃ a, q <+: s.drop a := by
  constructor
  · rintro ⟨u, v, huv⟩
    refine ⟨u.length, ?_⟩
    rw [← huv, List.append_assoc, List.drop_left]
    exact ⟨v, rfl⟩
  · rintro ⟨a, hpre⟩
    exact hpre.isInfix.trans (List.drop_suffix a s).isInfix

theorem occ_cover (q s : Str) (a m : Nat) (hql : q <+: s.drop a)
    (h1 : a ≤ m) (h2 : m < a + q.length) : s.getD m '?' ∈ q := by
  obtain ⟨v, hv⟩ := hql
  have hm : s.getD m '?' = (s.drop a).getD (m - a) '?' := by
    rw [List.getD_eq_getD_get?, List.getD_eq_getD_get?]
    congr 1
    rw [List.get?_drop]
    congr 1
    omega
  rw [hm, ← hv]
  have hlt : m - a < q.length := by omega
  rw [List.getD_append _ _ _ _ hlt, List.getD_eq_getElem _ _ hlt]
  exact List.getElem_mem _

theorem prefix_take_of_le (q l : Str) (k : Nat) (h : q <+: l) (hk : q.length ≤ k) :
    q <+: l.take k := by
  obtain ⟨v, hv⟩ := h
  rw [← hv, List.take_append_eq_append_take]
  refine ⟨(v.take (k - q.length)), ?_⟩
  congr 1
  rw [List.take_of_length_le (by omega)]

theorem replaceAux_nil (pat repl : Str) (fuel : Nat) : replaceAux pat repl fuel [] = [] := by
  cases fuel <;> rfl

theorem replaceAux_pos (pat repl : Str) (fuel : Nat) (c : Char) (t : Str)
    (h : pat ≠ [] ∧ pat <+: (c :: t)) :
    replaceAux pat repl (fuel + 1) (c :: t) =
      repl ++ replaceAux pat repl fuel (t.drop (pat.length - 1)) := by
  have hb : pat.isPrefixOf (c :: t) = true := List.isPrefixOf_iff_prefix.mpr h.2
  simp [replaceAux, h.1, hb]

theorem replaceAux_neg (pat repl : Str) (fuel : Nat) (c : Char) (t : Str)
    (h : ¬ (pat ≠ [] ∧ pat <+: (c :: t))) :
    replaceAux pat repl (fuel + 1) (c :: t) = c :: replaceAux pat repl fuel t := by
  have hb : ¬ (pat ≠ [] ∧ pat.isPrefixOf (c :: t)) := by
    intro ⟨h1, h2⟩
    exact h ⟨h1, List.isPrefixOf_iff_prefix.mp h2⟩
  simp only [replaceAux]
  rw [if_neg hb]

/-- A string without an occurrence of the pattern is returned unchanged. -/
theorem replaceAux_of_not_infix (pat repl : Str) :
    ∀ fuel s, ¬ pat <:+: s → replaceAux pat repl fuel s = s := by
  intro fuel
  induction fuel with
  | zero => intro s _; rfl
  | succ k ih =>
    intro s hocc
    cases s with
    | nil => rfl
    | cons c t =>
      rw [replaceAux_neg pat repl k c t (by
        intro ⟨_, hp⟩
        exact hocc hp.isInfix)]
      rw [ih t (fun hocc' => hocc (hocc'.trans (List.suffix_cons c t).isInfix))]

/-- Replacing an occurring pattern makes the replacement text appear. -/
theorem replaceAux_repl_infix (pat repl : Str) (hpat : pat ≠ []) :
    ∀ fuel s, s.length ≤ fuel → pat <:+: s → repl <:+: replaceAux pat repl fuel s := by
  intro fuel
  induction fuel with
  | zero =>
    intro s hlen hocc
    have hs : s = [] := List.eq_nil_of_length_eq_zero (by omega)
    subst hs
    exact absurd (List.eq_nil_of_infix_nil hocc) hpat
  | succ k ih =>
    intro s hlen hocc
    cases s with
    | nil => exact absurd (List.eq_nil_of_infix_nil hocc) hpat
    | cons c t =>
      by_cases hp : pat <+: (c :: t)
      · rw [replaceAux_pos pat repl k c t ⟨hpat, hp⟩]
        exact (List.prefix_append repl _).isInfix
      · rw [replaceAux_neg pat repl k c t (fun hh => hp hh.2)]
        rcases List.infix_cons_iff.mp hocc with hh | hh
        · exact absurd hh hp
        · exact List.infix_cons (ih t (by simp at hlen; omega) hh)

theorem suffix_getLast? (l₁ l₂ : Str) (h : l₁ <:+ l₂) (hne : l₁ ≠ []) :
    l₂.getLast? = l₁.getLast? := by
  obtain ⟨u, hu⟩ := h
  rw [← hu, List.getLast?_append]
  obtain ⟨x, hx⟩ := Option.isSome_iff_exists.mp (List.getLast?_isSome.mpr hne)
  rw [hx]
  rfl

theorem getLast?_mem (l : Str) (x : Char) (h : l.getLast? = some x) : x ∈ l := by
  cases l with
  | nil => simp at h
  | cons a t =>
    rw [List.getLast?_eq_getLast (a :: t) (by simp)] at h
    have hmem := List.getLast_mem (l := a :: t) (by simp)
    rwa [Option.some_inj.mp h] at hmem

/-- Splitting an infix occurrence across an append: it lies in the left part,
in the right part, or straddles the seam with a non-empty suffix of the left
part and a non-empty prefix of the right part. -/
theorem infix_append_split (q X Y : Str) (h : q <:+: X ++ Y) :
    q <:+: X ∨ q <:+: Y ∨
      ∃ q1 q2, q = q1 ++ q2 ∧ q1 ≠ [] ∧ q2 ≠ [] ∧ q1 <:+ X ∧ q2 <+: Y := by
  induction X generalizing q with
  | nil =>
    right; left
    simpa using h
  | cons x X' ih =>
    rw [List.cons_append] at h
    rcases List.infix_cons_iff.mp h with hpre | hinf
    · -- q is a prefix of x :: (X' ++ Y)
      rcases List.prefix_or_prefix_of_prefix hpre (List.prefix_append (x :: X') Y) with hq | hq
      · exact Or.inl hq.isInfix
      · -- x :: X' <+: q : q = (x :: X') ++ q2 with q2 <+: Y
        obtain ⟨q2, hq2⟩ := hq
        by_cases hq2nil : q2 = []
        · subst hq2nil
          left
          rw [← hq2]
          simp
        · right; right
          refine ⟨x :: X', q2, hq2.symm, by simp, hq2nil, List.suffix_rfl, ?_⟩
          have : (x :: X') ++ q2 <+: (x :: X') ++ Y := by
            rw [hq2]
            exact hpre
          exact (List.prefix_append_right_inj (x :: X')).mp this
    · rcases ih q hinf with hq | hq | ⟨q1, q2, hq12, h1, h2, h3, h4⟩
      · exact Or.inl (List.infix_cons hq)
      · exact Or.inr (Or.inl hq)
      · exact Or.inr (Or.inr ⟨q1, q2, hq12, h1, h2, h3.trans (List.suffix_cons x X'), h4⟩)

/-- Chasing a dangling suffix of `q` through the replacement: since the
replacement text starts with `[` and `q` never contains `[`, a proper suffix
of `q` that prefixes the replaced string already prefixes the original. -/
theorem chain_repl (pat repl q : Str) (hq : '[' ∉ q) (hr : ∃ r, repl = '[' :: r) :
    ∀ t k fuel, 1 ≤ k → k < q.length →
      q.drop k <+: replaceAux pat repl fuel t → q.drop k <+: t := by
  intro t
  induction t with
  | nil =>
    intro k fuel hk1 hk2 hpre
    rw [replaceAux_nil] at hpre
    have : q.drop k = [] := List.prefix_nil.mp hpre
    have : (q.drop k).length = 0 := by rw [this]; rfl
    simp at this
    omega
  | cons c u ih =>
    intro k fuel hk1 hk2 hpre
    have hdropk : q.drop k = q[k] :: q.drop (k + 1) := List.drop_eq_getElem_cons hk2
    cases fuel with
    | zero => exact hpre
    | succ f =>
      by_cases hp : pat ≠ [] ∧ pat <+: (c :: u)
      · rw [replaceAux_pos pat repl f c u hp] at hpre
        obtain ⟨r, hrr⟩ := hr
        rw [hrr] at hpre
        rw [hdropk] at hpre
        rw [List.cons_append] at hpre
        have := (List.cons_prefix_cons.mp hpre).1
        exact absurd (this ▸ List.getElem_mem hk2) hq
      · rw [replaceAux_neg pat repl f c u hp] at hpre
        rw [hdropk] at hpre
        obtain ⟨hqc, hrest⟩ := List.cons_prefix_cons.mp hpre
        by_cases hend : k + 1 = q.length
        · have : q.drop (k + 1) = [] := by
            rw [List.drop_eq_nil_iff_le]
            omega
          rw [hdropk, this, hqc]
          exact ⟨u, rfl⟩
        · have := ih (k + 1) f (by omega) (by omega) hrest
          rw [hdropk, hqc]
          exact List.cons_prefix_cons.mpr ⟨rfl, this⟩

/-- The break-marker occurrence precondition: every occurrence of the break
marker is at the start of the string or directly preceded by whitespace
(which holds for every raw chunk, since `_preprocess_text` inserts the
marker only after `^`, `\n\n` or whitespace). -/
def PreM (s : Str) : Prop :=
  ∀ a, 0 < a → SECTION_BREAK <+: s.drop a → pyWs (s.getD (a - 1) 'x') = true

theorem PreM_tail (c : Char) (t : Str) (h : PreM (c :: t)) : PreM t := by
  intro a ha hpre
  have h2 : (c :: t).drop (a + 1) = t.drop a := rfl
  have := h (a + 1) (by omega) (by rw [h2]; exact hpre)
  have h3 : (c :: t).getD (a + 1 - 1) 'x' = t.getD (a - 1) 'x' := by
    have : a + 1 - 1 = a := by omega
    rw [this]
    cases a with
    | zero => omega
    | succ a' =>
      have : a' + 1 - 1 = a' := by omega
      rw [List.getD_cons_succ, this]
  rwa [h3] at this

theorem PreM_not_prefix_tail (c : Char) (t : Str) (h : PreM (c :: t))
    (hc : ¬ pyWs c = true) : ¬ SECTION_BREAK <+: t := by
  intro hpre
  exact hc (h 1 (by omega) hpre)

/-- The removal analogue of `chain_repl`: a proper suffix of an all-non-space
`q` prefixing the marker-removed string already prefixes the original,
provided the marker does not prefix the string and all its occurrences are
whitespace-preceded. -/
theorem chain_rem (q : Str) (hq : q.all (fun ch => !pyWs ch) = true) :
    ∀ t, PreM t → ¬ SECTION_BREAK <+: t → ∀ k fuel, 1 ≤ k → k < q.length →
      q.drop k <+: replaceAux SECTION_BREAK [] fuel t → q.drop k <+: t := by
  intro t
  induction t with
  | nil =>
    intro _ _ k fuel hk1 hk2 hpre
    rw [replaceAux_nil] at hpre
    have h0 : q.drop k = [] := List.prefix_nil.mp hpre
    have : (q.drop k).length = 0 := by rw [h0]; rfl
    simp at this
    omega
  | cons c u ih =>
    intro hPre hnp k fuel hk1 hk2 hpre
    have hdropk : q.drop k = q[k] :: q.drop (k + 1) := List.drop_eq_getElem_cons hk2
    cases fuel with
    | zero => exact hpre
    | succ f =>
      have hp : ¬ (SECTION_BREAK ≠ [] ∧ SECTION_BREAK <+: (c :: u)) := by
        intro ⟨_, hpp⟩
        exact hnp hpp
      rw [replaceAux_neg _ _ f c u hp] at hpre
      rw [hdropk] at hpre
      obtain ⟨hqc, hrest⟩ := List.cons_prefix_cons.mp hpre
      have hcnws : ¬ pyWs c = true := by
        have := List.all_eq_true.mp hq q[k] (List.getElem_mem hk2)
        rw [hqc] at this
        simpa using this
      by_cases hend : k + 1 = q.length
      · have hnil : q.drop (k + 1) = [] := by
          rw [List.drop_eq_nil_iff_le]
          omega
        rw [hdropk, hnil, hqc]
        exact ⟨u, rfl⟩
      · have := ih (PreM_tail c u hPre) (PreM_not_prefix_tail c u hPre hcnws)
          (k + 1) f (by omega) (by omega) hrest
        rw [hdropk, hqc]
        exact List.cons_prefix_cons.mpr ⟨rfl, this⟩

/-- One-pass replacement removes every occurrence of the pattern: the
replacement text (a table block `[...]`) can neither contain nor help glue a
new occurrence of a bracket-free pattern. -/
theorem replace_kill (pat repl : Str) (hpat : pat ≠ []) (hlb : '[' ∉ pat)
    (hrb : ']' ∉ pat) (hrs : ∃ r, repl = '[' :: r) (hre : repl.getLast? = some ']')
    (hnr : ¬ pat <:+: repl) :
    ∀ fuel s, s.length ≤ fuel → ¬ pat <:+: replaceAux pat repl fuel s := by
  intro fuel
  induction fuel with
  | zero =>
    intro s hlen hocc
    have hs : s = [] := List.eq_nil_of_length_eq_zero (by omega)
    subst hs
    rw [replaceAux_nil] at hocc
    exact hpat (List.eq_nil_of_infix_nil hocc)
  | succ f ih =>
    intro s hlen hocc
    cases s with
    | nil =>
      rw [replaceAux_nil] at hocc
      exact hpat (List.eq_nil_of_infix_nil hocc)
    | cons c t =>
      simp only [List.length_cons] at hlen
      by_cases hp : pat <+: (c :: t)
      · rw [replaceAux_pos pat repl f c t ⟨hpat, hp⟩] at hocc
        rcases infix_append_split pat repl _ hocc with hh | hh | ⟨q1, q2, heq, h1, h2, h3, h4⟩
        · exact hnr hh
        · exact ih (t.drop (pat.length - 1)) (by
            have := List.length_drop (pat.length - 1) t
            omega) hh
        · have hlast : q1.getLast? = some ']' := by
            rw [← suffix_getLast? q1 repl h3 h1]
            exact hre
          have : (']' : Char) ∈ pat := by
            rw [heq]
            exact List.mem_append.mpr (Or.inl (getLast?_mem q1 ']' hlast))
          exact hrb this
      · rw [replaceAux_neg pat repl f c t (fun hh => hp hh.2)] at hocc
        rcases List.infix_cons_iff.mp hocc with hh | hh
        · cases pat with
          | nil => exact hpat rfl
          | cons p0 pt =>
            obtain ⟨hpc, hpt⟩ := List.cons_prefix_cons.mp hh
            by_cases hptnil : pt = []
            · subst hptnil
              subst hpc
              exact hp ⟨t, rfl⟩
            · have hlen2 : 1 < (p0 :: pt).length := by
                cases pt with
                | nil => exact absurd rfl hptnil
                | cons a l => simp
              have hdrop1 : (p0 :: pt).drop 1 = pt := rfl
              have := chain_repl (p0 :: pt) repl (p0 :: pt) hlb hrs t 1 f
                (by omega) hlen2 (by rw [hdrop1]; exact hpt)
              rw [hdrop1] at this
              subst hpc
              exact hp (List.cons_prefix_cons.mpr ⟨rfl, this⟩)
        · exact ih t (by omega) hh

/-- One-pass replacement of one pattern cannot create an occurrence of
another bracket-free string that was absent. -/
theorem replace_preserve_absent (pat repl q : Str) (hq : q ≠ []) (hlb : '[' ∉ q)
    (hrb : ']' ∉ q) (hrs : ∃ r, repl = '[' :: r) (hre : repl.getLast? = some ']')
    (hnq : ¬ q <:+: repl) :
    ∀ fuel s, s.length ≤ fuel → ¬ q <:+: s → ¬ q <:+: replaceAux pat repl fuel s := by
  intro fuel
  induction fuel with
  | zero =>
    intro s hlen habs hocc
    have hs : s = [] := List.eq_nil_of_length_eq_zero (by omega)
    subst hs
    rw [replaceAux_nil] at hocc
    exact habs hocc
  | succ f ih =>
    intro s hlen habs hocc
    cases s with
    | nil =>
      rw [replaceAux_nil] at hocc
      exact habs hocc
    | cons c t =>
      simp only [List.length_cons] at hlen
      by_cases hp : pat ≠ [] ∧ pat <+: (c :: t)
      · rw [replaceAux_pos pat repl f c t hp] at hocc
        rcases infix_append_split q repl _ hocc with hh | hh | ⟨q1, q2, heq, h1, h2, h3, h4⟩
        · exact hnq hh
        · refine ih (t.drop (pat.length - 1)) (by
            have := List.length_drop (pat.length - 1) t
            omega) ?_ hh
          intro hcon
          exact habs ((hcon.trans (List.drop_suffix _ t).isInfix).trans
            (List.suffix_cons c t).isInfix)
        · have hlast : q1.getLast? = some ']' := by
            rw [← suffix_getLast? q1 repl h3 h1]
            exact hre
          have : (']' : Char) ∈ q := by
            rw [heq]
            exact List.mem_append.mpr (Or.inl (getLast?_mem q1 ']' hlast))
          exact hrb this
      · rw [replaceAux_neg pat repl f c t hp] at hocc
        rcases List.infix_cons_iff.mp hocc with hh | hh
        · cases q with
          | nil => exact hq rfl
          | cons q0 qt =>
            obtain ⟨hqc, hqt⟩ := List.cons_prefix_cons.mp hh
            by_cases hqtnil : qt = []
            · subst hqtnil
              subst hqc
              exact habs ⟨[], t, by simp⟩
            · have hlen2 : 1 < (q0 :: qt).length := by
                cases qt with
                | nil => exact absurd rfl hqtnil
                | cons a l => simp
              have hdrop1 : (q0 :: qt).drop 1 = qt := rfl
              have hchain := chain_repl pat repl (q0 :: qt) hlb hrs t 1 f
                (by omega) hlen2 (by rw [hdrop1]; exact hqt)
              rw [hdrop1] at hchain
              subst hqc
              exact habs ⟨[], t.drop qt.length, by
                simp only [List.nil_append]
                obtain ⟨v, hv⟩ := hchain
                rw [List.cons_append, ← hv]
                simp⟩
        · exact ih t (by omega) (fun hcon =>
            habs (hcon.trans (List.suffix_cons c t).isInfix)) hh

theorem getD_drop (s : Str) (n i : Nat) (d : Char) :
    (s.drop n).getD i d = s.getD (n + i) d := by
  rw [List.getD_eq_getD_get?, List.getD_eq_getD_get?, List.get?_drop]

theorem PreM_drop_marker (s : Str) (h : PreM s) :
    PreM (s.drop SECTION_BREAK.length) := by
  intro a ha hpre
  have hd : (s.drop SECTION_BREAK.length).drop a = s.drop (SECTION_BREAK.length + a) := by
    rw [List.drop_drop]
  have := h (SECTION_BREAK.length + a) (by omega) (by rw [← hd]; exact hpre)
  rw [getD_drop]
  have harith : SECTION_BREAK.length + (a - 1) = SECTION_BREAK.length + a - 1 := by omega
  rw [harith]
  exact this

/-- One-pass removal of the break marker leaves no occurrence of it, for
strings all of whose marker occurrences are whitespace-preceded or initial. -/
theorem rem_kill :
    ∀ fuel s, s.length ≤ fuel → PreM s →
      ¬ SECTION_BREAK <:+: replaceAux SECTION_BREAK [] fuel s := by
  intro fuel
  induction fuel with
  | zero =>
    intro s hlen _ hocc
    have hs : s = [] := List.eq_nil_of_length_eq_zero (by omega)
    subst hs
    rw [replaceAux_nil] at hocc
    exact absurd (List.eq_nil_of_infix_nil hocc) (by decide)
  | succ f ih =>
    intro s hlen hPre hocc
    cases s with
    | nil =>
      rw [replaceAux_nil] at hocc
      exact absurd (List.eq_nil_of_infix_nil hocc) (by decide)
    | cons c t =>
      simp only [List.length_cons] at hlen
      by_cases hp : SECTION_BREAK <+: (c :: t)
      · rw [replaceAux_pos _ _ f c t ⟨by decide, hp⟩] at hocc
        rw [List.nil_append] at hocc
        have hdropeq : t.drop (SECTION_BREAK.length - 1) =
            (c :: t).drop SECTION_BREAK.length := rfl
        rw [hdropeq] at hocc
        exact ih _ (by
            have h1 := List.length_drop SECTION_BREAK.length (c :: t)
            have h2 : 1 ≤ SECTION_BREAK.length := by decide
            simp only [List.length_cons] at h1
            omega)
          (PreM_drop_marker (c :: t) hPre) hocc
      · rw [replaceAux_neg _ _ f c t (fun hh => hp hh.2)] at hocc
        rcases List.infix_cons_iff.mp hocc with hh | hh
        · have hM : SECTION_BREAK = '_' :: SECTION_BREAK.drop 1 := by decide
          rw [hM] at hh
          obtain ⟨hmc, hmt⟩ := List.cons_prefix_cons.mp hh
          have hcnws : ¬ pyWs c = true := by
            rw [← hmc]
            decide
          have hnpt : ¬ SECTION_BREAK <+: t := PreM_not_prefix_tail c t hPre hcnws
          have hchain := chain_rem SECTION_BREAK (by decide) t (PreM_tail c t hPre)
            hnpt 1 f (by omega) (by decide) hmt
          apply hp
          rw [hM]
          subst hmc
          exact List.cons_prefix_cons.mpr ⟨rfl, hchain⟩
        · exact ih t (by omega) (PreM_tail c t hPre) hh

/-- One-pass removal of the break marker cannot create an occurrence of an
absent all-non-whitespace string. -/
theorem rem_preserve_absent (q : Str) (hq : q ≠ [])
    (hqnw : q.all (fun ch => !pyWs ch) = true) :
    ∀ fuel s, s.length ≤ fuel → PreM s → ¬ q <:+: s →
      ¬ q <:+: replaceAux SECTION_BREAK [] fuel s := by
  intro fuel
  induction fuel with
  | zero =>
    intro s hlen _ habs hocc
    have hs : s = [] := List.eq_nil_of_length_eq_zero (by omega)
    subst hs
    rw [replaceAux_nil] at hocc
    exact habs hocc
  | succ f ih =>
    intro s hlen hPre habs hocc
    cases s with
    | nil =>
      rw [replaceAux_nil] at hocc
      exact habs hocc
    | cons c t =>
      simp only [List.length_cons] at hlen
      by_cases hp : SECTION_BREAK <+: (c :: t)
      · rw [replaceAux_pos _ _ f c t ⟨by decide, hp⟩] at hocc
        rw [List.nil_append] at hocc
        have hdropeq : t.drop (SECTION_BREAK.length - 1) =
            (c :: t).drop SECTION_BREAK.length := rfl
        rw [hdropeq] at hocc
        refine ih _ (by
            have h1 := List.length_drop SECTION_BREAK.length (c :: t)
            have h2 : 1 ≤ SECTION_BREAK.length := by decide
            simp only [List.length_cons] at h1
            omega)
          (PreM_drop_marker (c :: t) hPre) ?_ hocc
        intro hcon
        exact habs (hcon.trans (List.drop_suffix _ _).isInfix)
      · rw [replaceAux_neg _ _ f c t (fun hh => hp hh.2)] at hocc
        rcases List.infix_cons_iff.mp hocc with hh | hh
        · cases q with
          | nil => exact hq rfl
          | cons q0 qt =>
            obtain ⟨hqc, hqt⟩ := List.cons_prefix_cons.mp hh
            by_cases hqtnil : qt = []
            · subst hqtnil
              subst hqc
              exact habs ⟨[], t, by simp⟩
            · have hlen2 : 1 < (q0 :: qt).length := by
                cases qt with
                | nil => exact absurd rfl hqtnil
                | cons a l => simp
              have hcnws : ¬ pyWs c = true := by
                have := List.all_eq_true.mp hqnw q0 (by simp)
                rw [hqc] at this
                simpa using this
              have hnpt : ¬ SECTION_BREAK <+: t := PreM_not_prefix_tail c t hPre hcnws
              have hdrop1 : (q0 :: qt).drop 1 = qt := rfl
              have hchain := chain_rem (q0 :: qt) hqnw t (PreM_tail c t hPre) hnpt
                1 f (by omega) hlen2 (by rw [hdrop1]; exact hqt)
              rw [hdrop1] at hchain
              subst hqc
              exact habs ⟨[], t.drop qt.length, by
                simp only [List.nil_append]
                obtain ⟨v, hv⟩ := hchain
                rw [List.cons_append, ← hv]
                simp⟩
        · exact ih t (by omega) (PreM_tail c t hPre)
            (fun hcon => habs (hcon.trans (List.suffix_cons c t).isInfix)) hh

theorem prefix_of_append_of_le (q X Y : Str) (h : q <+: X ++ Y)
    (hl : q.length ≤ X.length) : q <+: X := by
  have h2 := prefix_take_of_le q (X ++ Y) q.length h (le_refl _)
  rw [List.take_append_of_le_length hl] at h2
  exact h2.trans (List.take_prefix _ _)

theorem getLast?_getD (l : Str) (x : Char) (d : Char) (h : l.getLast? = some x) :
    l.getD (l.length - 1) d = x := by
  rw [List.getLast?_eq_getElem?] at h
  rw [List.getD_eq_getD_get?, List.get?_eq_getElem?, h]
  rfl

theorem PreM_drop (s : Str) (n : Nat) (h : PreM s) : PreM (s.drop n) := by
  intro a ha hpre
  have hd : (s.drop n).drop a = s.drop (n + a) := by rw [List.drop_drop]
  have := h (n + a) (by omega) (by rw [← hd]; exact hpre)
  rw [getD_drop]
  have harith : n + (a - 1) = n + a - 1 := by omega
  rw [harith]
  exact this

/-- Replacing a pattern by a table block (starting with `[`) cannot create a
break-marker occurrence at the very start of the string. -/
theorem replace_not_prefix_marker (pat repl : Str) (hrs : ∃ r, repl = '[' :: r) :
    ∀ fuel u, ¬ SECTION_BREAK <+: u → ¬ SECTION_BREAK <+: replaceAux pat repl fuel u := by
  intro fuel u hnp hocc
  cases fuel with
  | zero => exact hnp hocc
  | succ f =>
    cases u with
    | nil =>
      rw [replaceAux_nil] at hocc
      have := List.prefix_nil.mp hocc
      exact absurd this (by decide)
    | cons c t =>
      by_cases hp : pat ≠ [] ∧ pat <+: (c :: t)
      · rw [replaceAux_pos pat repl f c t hp] at hocc
        obtain ⟨r, hrr⟩ := hrs
        rw [hrr] at hocc
        have hM : SECTION_BREAK = '_' :: SECTION_BREAK.drop 1 := by decide
        rw [hM, List.cons_append] at hocc
        have := (List.cons_prefix_cons.mp hocc).1
        exact absurd this (by decide)
      · rw [replaceAux_neg pat repl f c t hp] at hocc
        have hM : SECTION_BREAK = '_' :: SECTION_BREAK.drop 1 := by decide
        rw [hM] at hocc
        obtain ⟨hmc, hmt⟩ := List.cons_prefix_cons.mp hocc
        have hchain := chain_repl pat repl SECTION_BREAK (by decide) hrs t 1 f
          (by omega) (by decide) hmt
        apply hnp
        rw [hM]
        subst hmc
        exact List.cons_prefix_cons.mpr ⟨rfl, hchain⟩

/-- Replacing a token by a table block preserves the break-marker
precondition `PreM`. -/
theorem replace_preserve_PreM (pat repl : Str) (hpat : pat ≠ [])
    (p0 : Char) (hplast : pat.getLast? = some p0) (hp0 : ¬ pyWs p0 = true)
    (hrs : ∃ r, repl = '[' :: r) (hre : repl.getLast? = some ']')
    (hnm : ¬ SECTION_BREAK <:+: repl) :
    ∀ fuel s, s.length ≤ fuel → PreM s → PreM (replaceAux pat repl fuel s) := by
  intro fuel
  induction fuel with
  | zero =>
    intro s hlen _
    have hs : s = [] := List.eq_nil_of_length_eq_zero (by omega)
    subst hs
    rw [replaceAux_nil]
    intro a _ hpre
    have := List.prefix_nil.mp (by simpa using hpre)
    exact absurd this (by decide)
  | succ f ih =>
    intro s hlen hPre
    cases s with
    | nil =>
      rw [replaceAux_nil]
      intro a _ hpre
      have := List.prefix_nil.mp (by simpa using hpre)
      exact absurd this (by decide)
    | cons c t =>
      simp only [List.length_cons] at hlen
      by_cases hp : pat <+: (c :: t)
      · rw [replaceAux_pos pat repl f c t ⟨hpat, hp⟩]
        have hdropeq : t.drop (pat.length - 1) = (c :: t).drop pat.length := by
          cases hpl : pat.length with
          | zero =>
            exact absurd (List.eq_nil_of_length_eq_zero hpl) hpat
          | succ k => simp
        -- (A): the marker cannot start right after the replaced occurrence
        have hA : ¬ SECTION_BREAK <+: (c :: t).drop pat.length := by
          intro hpre
          have hplen : 0 < pat.length := by
            cases pat with
            | nil => exact absurd rfl hpat
            | cons a l => simp
          have hws := hPre pat.length hplen hpre
          obtain ⟨v, hv⟩ := hp
          have hgd : (c :: t).getD (pat.length - 1) 'x' = p0 := by
            rw [← hv]
            have hlt : pat.length - 1 < pat.length := by omega
            rw [List.getD_append _ _ _ _ hlt]
            have := getLast?_getD pat p0 'x' hplast
            rw [List.getD_eq_getD_get?] at this ⊢
            exact this
          rw [hgd] at hws
          exact hp0 hws
        have hlen2 : ((c :: t).drop pat.length).length ≤ f := by
          have h1 := List.length_drop pat.length (c :: t)
          have hplen : 0 < pat.length := by
            cases pat with
            | nil => exact absurd rfl hpat
            | cons a l => simp
          simp only [List.length_cons] at h1
          omega
        have hB : PreM (replaceAux pat repl f ((c :: t).drop pat.length)) := by
          rw [← hdropeq]
          exact ih (t.drop (pat.length - 1)) (by rw [hdropeq]; exact hlen2)
            (by rw [hdropeq]; exact PreM_drop (c :: t) pat.length hPre)
        have hC : ¬ SECTION_BREAK <+: replaceAux pat repl f ((c :: t).drop pat.length) :=
          replace_not_prefix_marker pat repl hrs f _ hA
        rw [hdropeq]
        set R := replaceAux pat repl f ((c :: t).drop pat.length) with hR
        intro b hb hpre
        have hrlen : 0 < repl.length := by
          obtain ⟨r, hrr⟩ := hrs
          rw [hrr]
          simp
        by_cases hb1 : b + SECTION_BREAK.length ≤ repl.length
        · -- occurrence inside the replacement text: contradicts hnm
          exfalso
          apply hnm
          rw [List.drop_append_eq_append_drop] at hpre
          have hbr : b ≤ repl.length := by omega
          have hdrz : R.drop (b - repl.length) = R := by
            have : b - repl.length = 0 := by omega
            rw [this]
            rfl
          rw [hdrz] at hpre
          have hpre2 : SECTION_BREAK <+: repl.drop b :=
            prefix_of_append_of_le _ _ _ hpre (by
              have := List.length_drop b repl
              omega)
          exact (infix_iff_exists_drop _ _).mpr ⟨b, hpre2⟩
        · by_cases hb2 : b < repl.length
          · -- straddling occurrence would contain the final bracket
            exfalso
            have hcov := occ_cover SECTION_BREAK (repl ++ R) b (repl.length - 1) hpre
              (by omega) (by omega)
            have hgd : (repl ++ R).getD (repl.length - 1) '?' = ']' := by
              have hlt : repl.length - 1 < repl.length := by omega
              rw [List.getD_append _ _ _ _ hlt]
              exact getLast?_getD repl ']' '?' hre
            rw [hgd] at hcov
            exact absurd hcov (by decide)
          · -- occurrence inside the tail part
            have hbr : repl.length ≤ b := by omega
            rw [List.drop_append_eq_append_drop, List.drop_of_length_le (by omega),
              List.nil_append] at hpre
            by_cases hb3 : b = repl.length
            · exfalso
              apply hC
              rw [hb3] at hpre
              simpa using hpre
            · have hbp : 0 < b - repl.length := by omega
              have hws := hB (b - repl.length) hbp hpre
              have hgd : (repl ++ R).getD (b - 1) 'x' = R.getD (b - repl.length - 1) 'x' := by
                rw [List.getD_append_right _ _ _ _ (by omega)]
                congr 1
                omega
              rw [hgd]
              exact hws
      · rw [replaceAux_neg pat repl f c t (fun hh => hp hh.2)]
        have hPreR : PreM (replaceAux pat repl f t) :=
          ih t (by omega) (PreM_tail c t hPre)
        intro b hb hpre
        have hdr : (c :: replaceAux pat repl f t).drop b =
            (replaceAux pat repl f t).drop (b - 1) := by
          cases b with
          | zero => omega
          | succ b' => simp
        rw [hdr] at hpre
        by_cases hb1 : b = 1
        · subst hb1
          simp only [Nat.sub_self, List.drop_zero] at hpre
          have hMt : SECTION_BREAK <+: t := by
            by_contra hcon
            exact replace_not_prefix_marker pat repl hrs f t hcon hpre
          have hws := hPre 1 (by omega) (by simpa using hMt)
          simpa using hws
        · have hbp : 0 < b - 1 := by omega
          have hws := hPreR (b - 1) hbp hpre
          have hgd : (c :: replaceAux pat repl f t).getD (b - 1) 'x' =
              (replaceAux pat repl f t).getD (b - 1 - 1) 'x' := by
            cases hbe : b - 1 with
            | zero => omega
            | succ k =>
              rw [List.getD_cons_succ]
              simp
          rw [hgd]
          exact hws

/-- The well-formedness of an arising placeholder map: tokens are non-empty,
bracket-free, all-non-whitespace strings; table contents are bracket-framed
blocks containing neither the break marker nor any token of the map. -/
def GoodMap (m : PlaceholderMap) : Prop :=
  ∀ pt ∈ m,
    pt.1 ≠ [] ∧ '[' ∉ pt.1 ∧ ']' ∉ pt.1 ∧
    pt.1.all (fun ch => !pyWs ch) = true ∧
    pt.2.head? = some '[' ∧ pt.2.getLast? = some ']' ∧
    ¬ SECTION_BREAK <:+: pt.2 ∧
    (∀ pt' ∈ m, ¬ pt'.1 <:+: pt.2)

theorem GoodMap_tail (x : Str × Str) (m : PlaceholderMap) (h : GoodMap (x :: m)) :
    GoodMap m := by
  intro pt hpt
  obtain ⟨h1, h2, h3, h4, h5, h6, h7, h8⟩ := h pt (List.mem_cons_of_mem x hpt)
  exact ⟨h1, h2, h3, h4, h5, h6, h7, fun pt' hpt' => h8 pt' (List.mem_cons_of_mem x hpt')⟩

theorem head?_eq_cons (l : Str) (x : Char) (h : l.head? = some x) : ∃ r, l = x :: r := by
  cases l with
  | nil => simp at h
  | cons a t =>
    simp only [List.head?_cons, Option.some_inj] at h
    exact ⟨t, by rw [h]⟩

theorem token_getLast_nonws (p : Str) (hp : p ≠ [])
    (hnw : p.all (fun ch => !pyWs ch) = true) :
    ∃ p0, p.getLast? = some p0 ∧ ¬ pyWs p0 = true := by
  obtain ⟨p0, hp0⟩ := Option.isSome_iff_exists.mp (List.getLast?_isSome.mpr hp)
  refine ⟨p0, hp0, ?_⟩
  have := List.all_eq_true.mp hnw p0 (getLast?_mem p p0 hp0)
  simpa using this

theorem applyMap_cons (pt : Str × Str) (m : PlaceholderMap) (s : Str) :
    applyMap (pt :: m) s = applyMap m (replaceL pt.1 pt.2 s) := rfl

theorem applyMap_preM (m : PlaceholderMap) (hGm : GoodMap m) :
    ∀ s, PreM s → PreM (applyMap m s) := by
  induction m with
  | nil => exact fun s h => h
  | cons pt m' ih =>
    intro s hPre
    rw [applyMap_cons]
    obtain ⟨h1, h2, h3, h4, h5, h6, h7, h8⟩ := hGm pt (List.mem_cons_self _ _)
    obtain ⟨p0, hp0, hp0w⟩ := token_getLast_nonws pt.1 h1 h4
    exact ih (GoodMap_tail pt m' hGm) _
      (replace_preserve_PreM pt.1 pt.2 h1 p0 hp0 hp0w (head?_eq_cons _ _ h5) h6 h7
        s.length s (le_refl _) hPre)

theorem applyMap_preserve_absent (m : PlaceholderMap) (hGm : GoodMap m) (q : Str)
    (hq : q ≠ []) (hlb : '[' ∉ q) (hrb : ']' ∉ q)
    (hqt : ∀ pt ∈ m, ¬ q <:+: pt.2) :
    ∀ s, ¬ q <:+: s → ¬ q <:+: applyMap m s := by
  induction m with
  | nil => exact fun s h => h
  | cons pt m' ih =>
    intro s habs
    rw [applyMap_cons]
    obtain ⟨h1, h2, h3, h4, h5, h6, h7, h8⟩ := hGm pt (List.mem_cons_self _ _)
    refine ih (GoodMap_tail pt m' hGm) (fun pt' hpt' => hqt pt' (List.mem_cons_of_mem pt hpt'))
      _ ?_
    exact replace_preserve_absent pt.1 pt.2 q hq hlb hrb (head?_eq_cons _ _ h5) h6
      (hqt pt (List.mem_cons_self _ _)) s.length s (le_refl _) habs

theorem applyMap_kill (m : PlaceholderMap) (hGm : GoodMap m) :
    ∀ s, ∀ pt ∈ m, ¬ pt.1 <:+: applyMap m s := by
  induction m with
  | nil =>
    intro s pt hpt
    simp at hpt
  | cons x m' ih =>
    intro s pt hpt
    rw [applyMap_cons]
    obtain ⟨hx1, hx2, hx3, hx4, hx5, hx6, hx7, hx8⟩ := hGm x (List.mem_cons_self _ _)
    rcases List.mem_cons.mp hpt with rfl | hpt'
    · obtain ⟨h1, h2, h3, h4, h5, h6, h7, h8⟩ := hGm pt (List.mem_cons_self _ _)
      have hkilled : ¬ pt.1 <:+: replaceL pt.1 pt.2 s :=
        replace_kill pt.1 pt.2 h1 h2 h3 (head?_eq_cons _ _ h5) h6
          (h8 pt (List.mem_cons_self _ _)) s.length s (le_refl _)
      refine applyMap_preserve_absent m' (GoodMap_tail pt m' hGm) pt.1 h1 h2 h3 ?_ _ hkilled
      intro pt' hpt'
      obtain ⟨_, _, _, _, _, _, _, h8'⟩ := hGm pt' (List.mem_cons_of_mem pt hpt')
      exact h8' pt (List.mem_cons_self _ _)
    · exact ih (GoodMap_tail x m' hGm) _ pt hpt'

theorem stripL_within (s : Str) : stripL s <:+: s := by
  unfold stripL
  have h1 : s.dropWhile pyWs <:+ s := List.dropWhile_suffix pyWs
  have h2 : (s.dropWhile pyWs).reverse.dropWhile pyWs <:+ (s.dropWhile pyWs).reverse :=
    List.dropWhile_suffix pyWs
  obtain ⟨x, hx⟩ := h2
  have h3 : ((s.dropWhile pyWs).reverse.dropWhile pyWs).reverse <+: s.dropWhile pyWs := by
    refine ⟨x.reverse, ?_⟩
    have := congrArg List.reverse hx
    simpa using this
  exact h3.isInfix.trans h1.isInfix

theorem dropWhile_head_false (l : Str) : ∀ a t, l.dropWhile pyWs = a :: t → pyWs a = false := by
  induction l with
  | nil =>
    intro a t h
    simp at h
  | cons x xs ih =>
    intro a t h
    by_cases hx : pyWs x = true
    · rw [List.dropWhile_cons_of_pos hx] at h
      exact ih a t h
    · rw [List.dropWhile_cons_of_neg hx] at h
      rw [← (List.cons.injEq x xs a t).mp h |>.1]
      simpa using hx

theorem stripL_not_spaceonly (s : Str) (h : stripL s ≠ []) : isspaceB (stripL s) = false := by
  unfold stripL at h ⊢
  cases hveq : (s.dropWhile pyWs).reverse.dropWhile pyWs with
  | nil =>
    rw [hveq] at h
    exact absurd rfl h
  | cons a t =>
    have hhead : pyWs a = false := dropWhile_head_false _ a t hveq
    have hmem : a ∈ (a :: t).reverse := by simp
    have hall : (a :: t).reverse.all pyWs = false := by
      cases hba : (a :: t).reverse.all pyWs with
      | false => rfl
      | true =>
        have := List.all_eq_true.mp hba a hmem
        rw [hhead] at this
        simp at this
    unfold isspaceB
    rw [hall]
    simp

theorem stripL_preserve_absent (q s : Str) (h : ¬ q <:+: s) : ¬ q <:+: stripL s :=
  fun hc => h (hc.trans (stripL_within s))

/-- A decidable check of the marker precondition `PreM`, bounded by the
string length. -/
def preMB (s : Str) : Bool :=
  (List.range (s.length + 1)).all (fun a =>
    !(decide (0 < a) && SECTION_BREAK.isPrefixOf (s.drop a)) || pyWs (s.getD (a - 1) 'x'))

theorem preMB_sound (s : Str) (h : preMB s = true) : PreM s := by
  intro a ha hpre
  by_cases hlen : a ≤ s.length
  · have hmem : a ∈ List.range (s.length + 1) := List.mem_range.mpr (by omega)
    have hb := List.all_eq_true.mp h a hmem
    have hcond : (decide (0 < a) && SECTION_BREAK.isPrefixOf (s.drop a)) = true := by
      rw [Bool.and_eq_true]
      exact ⟨decide_eq_true ha, List.isPrefixOf_iff_prefix.mpr hpre⟩
    rw [hcond] at hb
    simpa using hb
  · exfalso
    have hdrop : s.drop a = [] := List.drop_eq_nil_of_le (by omega)
    rw [hdrop] at hpre
    have : SECTION_BREAK = [] := List.prefix_nil.mp hpre
    exact absurd this (by decide)

/-- C3: for every raw-chunk list and placeholder map arising in `chunk_text`
(captured by the map well-formedness `GoodMap` and the marker precondition
`PreM` on each raw chunk), every string returned by `_postprocess_chunks`
contains neither `__SECTION_BREAK__` nor any placeholder token of the map as
a substring, and is neither empty nor whitespace-only. -/
theorem c3_clean_chunks (chunks : List Str) (m : PlaceholderMap)
    (hGm : GoodMap m) (hPre : ∀ c ∈ chunks, PreM c) :
    ∀ c ∈ _postprocess_chunks chunks m,
      ¬ SECTION_BREAK <:+: c ∧ (∀ pt ∈ m, ¬ pt.1 <:+: c) ∧
      c ≠ [] ∧ isspaceB c = false := by
  intro c hc
  unfold _postprocess_chunks at hc
  rw [List.mem_filter] at hc
  obtain ⟨hmem, hne⟩ := hc
  rw [List.mem_map] at hmem
  obtain ⟨ch, hch, rfl⟩ := hmem
  have hne' : stripL (replaceL SECTION_BREAK [] (applyMap m ch)) ≠ [] := by
    simpa using hne
  have hPreA : PreM (applyMap m ch) := applyMap_preM m hGm ch (hPre ch hch)
  refine ⟨?_, ?_, hne', stripL_not_spaceonly _ hne'⟩
  · exact stripL_preserve_absent _ _
      (rem_kill (applyMap m ch).length (applyMap m ch) (le_refl _) hPreA)
  · intro pt hpt
    refine stripL_preserve_absent _ _
      (rem_preserve_absent pt.1 (hGm pt hpt).1 (hGm pt hpt).2.2.2.1
        (applyMap m ch).length (applyMap m ch) (le_refl _) hPreA ?_)
    exact applyMap_kill m hGm ch pt hpt

def c3wMap : PlaceholderMap :=
  [(ofS "__TABLE_0__",
    ofS "[TABLE_START: T]\n| A | B |\n| --- | --- |\n| 1 | 2 |\n[TABLE_END]")]

def c3wChunks : List Str :=
  [ofS "intro __TABLE_0__ text", ofS "__SECTION_BREAK__Section 1. Hello"]

set_option maxRecDepth 8192 in
theorem c3_witness :
    (GoodMap c3wMap ∧ (∀ c ∈ c3wChunks, PreM c)) ∧
    (∀ c ∈ _postprocess_chunks c3wChunks c3wMap,
      ¬ SECTION_BREAK <:+: c ∧ (∀ pt ∈ c3wMap, ¬ pt.1 <:+: c) ∧
      c ≠ [] ∧ isspaceB c = false) := by
  have hGm : GoodMap c3wMap := by
    unfold GoodMap
    decide
  have hPre : ∀ c ∈ c3wChunks, PreM c := by
    intro c hc
    simp only [c3wChunks, List.mem_cons, List.not_mem_nil, or_false] at hc
    rcases hc with rfl | rfl
    · exact preMB_sound _ (by decide)
    · exact preMB_sound _ (by decide)
  exact ⟨⟨hGm, hPre⟩, c3_clean_chunks c3wChunks c3wMap hGm hPre⟩

/-- Does the window fully contain the occurrence `(a, l)`? -/
def containsB (a l : Nat) (w : Nat × Nat) : Bool := decide (w.1 ≤ a ∧ a + l ≤ w.2)

theorem protIntervals_wf (tokens : List Str) (text : Str) :
    ∀ al ∈ protIntervals tokens text, ∃ pq ∈ tokens,
      al.2 = pq.length ∧ pq ≠ [] ∧ pq.isPrefixOf (text.drop al.1) = true ∧
      al.1 + al.2 ≤ text.length := by
  induction tokens with
  | nil =>
    intro al hal
    simp [protIntervals] at hal
  | cons p rest ih =>
    intro al hal
    simp only [protIntervals, List.foldr_cons] at hal
    rcases List.mem_append.mp hal with hl | hr
    · rw [List.mem_map] at hl
      obtain ⟨a, ha, rfl⟩ := hl
      simp only [occPositions, List.mem_filter, List.mem_range, Bool.and_eq_true,
        bne_iff_ne, ne_eq, decide_eq_true_eq] at ha
      obtain ⟨hrange, hpne, hpref⟩ := ha
      refine ⟨p, List.mem_cons_self _ _, rfl, hpne, hpref, ?_⟩
      have hlen := (List.isPrefixOf_iff_prefix.mp hpref).length_le
      rw [List.length_drop] at hlen
      omega
    · obtain ⟨pq, hpq, h⟩ := ih al hr
      exact ⟨pq, List.mem_cons_of_mem p hpq, h⟩

theorem splitW_starts_ge (occs : List (Nat × Nat)) (size ov n : Nat) (hov : ov < size) :
    ∀ fuel s, ∀ w ∈ splitWindowsAux occs size ov n fuel s, s ≤ w.1 := by
  intro fuel
  induction fuel with
  | zero =>
    intro s w hw
    simp only [splitWindowsAux, List.mem_singleton] at hw
    subst hw
    simp
  | succ k ih =>
    intro s w hw
    simp only [splitWindowsAux] at hw
    by_cases hns : n ≤ s + size
    · rw [if_pos hns] at hw
      rw [List.mem_singleton] at hw
      subst hw
      simp
    · rw [if_neg hns] at hw
      cases hcd : findCutDown occs ov (s + size) (size - ov) with
      | some e =>
        rw [hcd] at hw
        obtain ⟨hsafe, hlo, hhi⟩ :=
          findCutDown_bounds occs ov (size - ov) (s + size) e (by omega) hcd
        rcases List.mem_cons.mp hw with rfl | hw'
        · simp
        · have := ih (e - ov) w hw'
          omega
      | none =>
        rw [hcd] at hw
        cases hcu : findCutUp occs ov (s + size + 1) (n - (s + size + 1)) with
        | some e =>
          rw [hcu] at hw
          obtain ⟨hsafe, hlo, hhi⟩ := findCutUp_bounds occs ov _ _ e hcu
          rcases List.mem_cons.mp hw with rfl | hw'
          · simp
          · have := ih (e - ov) w hw'
            omega
        | none =>
          rw [hcu] at hw
          rw [List.mem_singleton] at hw
          subst hw
          simp

theorem splitW_boundary (occs : List (Nat × Nat)) (size ov n a l : Nat)
    (hmem : (a, l) ∈ occs) (hl : 0 < l) (han : a + l ≤ n) :
    ∀ fuel s, ¬ (a < s ∧ s < a + l) →
      ∀ w ∈ splitWindowsAux occs size ov n fuel s,
        ¬ (a < w.1 ∧ w.1 < a + l) ∧ ¬ (a < w.2 ∧ w.2 < a + l) := by
  intro fuel
  induction fuel with
  | zero =>
    intro s hs w hw
    simp only [splitWindowsAux, List.mem_singleton] at hw
    subst hw
    exact ⟨hs, by simp; omega⟩
  | succ k ih =>
    intro s hs w hw
    simp only [splitWindowsAux] at hw
    by_cases hns : n ≤ s + size
    · rw [if_pos hns] at hw
      rw [List.mem_singleton] at hw
      subst hw
      exact ⟨hs, by simp; omega⟩
    · rw [if_neg hns] at hw
      cases hcd : findCutDown occs ov (s + size) (size - ov) with
      | some e =>
        rw [hcd] at hw
        obtain ⟨hsafe, hlo, hhi⟩ :=
          findCutDown_bounds occs ov (size - ov) (s + size) e (by omega) hcd
        have hdis : e ≤ a ∨ a + l + ov ≤ e := by
          have := List.all_eq_true.mp hsafe (a, l) hmem
          simpa using this
        rcases List.mem_cons.mp hw with rfl | hw'
        · exact ⟨hs, by simp; omega⟩
        · exact ih (e - ov) (by omega) w hw'
      | none =>
        rw [hcd] at hw
        cases hcu : findCutUp occs ov (s + size + 1) (n - (s + size + 1)) with
        | some e =>
          rw [hcu] at hw
          obtain ⟨hsafe, hlo, hhi⟩ := findCutUp_bounds occs ov _ _ e hcu
          have hdis : e ≤ a ∨ a + l + ov ≤ e := by
            have := List.all_eq_true.mp hsafe (a, l) hmem
            simpa using this
          rcases List.mem_cons.mp hw with rfl | hw'
          · exact ⟨hs, by simp; omega⟩
          · exact ih (e - ov) (by omega) w hw'
        | none =>
          rw [hcu] at hw
          rw [List.mem_singleton] at hw
          subst hw
          exact ⟨hs, by simp; omega⟩

theorem splitW_count_zero (occs : List (Nat × Nat)) (size ov n a l : Nat)
    (hov : ov < size) :
    ∀ fuel s, a < s →
      (splitWindowsAux occs size ov n fuel s).countP (containsB a l) = 0 := by
  intro fuel s hs
  rw [List.countP_eq_zero]
  intro w hw
  have := splitW_starts_ge occs size ov n hov fuel s w hw
  simp only [containsB, decide_eq_true_eq]
  intro hcon
  omega

theorem splitW_count_one (occs : List (Nat × Nat)) (size ov n a l : Nat)
    (hov : ov < size) (hmem : (a, l) ∈ occs) (hl : 0 < l) (han : a + l ≤ n) :
    ∀ fuel s, s ≤ a →
      (splitWindowsAux occs size ov n fuel s).countP (containsB a l) = 1 := by
  intro fuel
  induction fuel with
  | zero =>
    intro s hs
    simp only [splitWindowsAux]
    rw [List.countP_cons]
    simp only [List.countP_nil, containsB, decide_eq_true_eq]
    rw [if_pos ⟨hs, han⟩]
  | succ k ih =>
    intro s hs
    simp only [splitWindowsAux]
    by_cases hns : n ≤ s + size
    · rw [if_pos hns]
      rw [List.countP_cons]
      simp only [List.countP_nil, containsB, decide_eq_true_eq]
      rw [if_pos ⟨hs, han⟩]
    · rw [if_neg hns]
      cases hcd : findCutDown occs ov (s + size) (size - ov) with
      | some e =>
        obtain ⟨hsafe, hlo, hhi⟩ :=
          findCutDown_bounds occs ov (size - ov) (s + size) e (by omega) hcd
        have hdis : e ≤ a ∨ a + l + ov ≤ e := by
          have := List.all_eq_true.mp hsafe (a, l) hmem
          simpa using this
        rw [List.countP_cons]
        rcases hdis with hle | hge
        · rw [if_neg (by simp only [containsB, decide_eq_true_eq]; intro hc; omega)]
          rw [ih (e - ov) (by omega)]
        · rw [if_pos (by simp only [containsB, decide_eq_true_eq]; exact ⟨hs, by omega⟩)]
          rw [splitW_count_zero occs size ov n a l hov k (e - ov) (by omega)]
      | none =>
        cases hcu : findCutUp occs ov (s + size + 1) (n - (s + size + 1)) with
        | some e =>
          obtain ⟨hsafe, hlo, hhi⟩ := findCutUp_bounds occs ov _ _ e hcu
          have hdis : e ≤ a ∨ a + l + ov ≤ e := by
            have := List.all_eq_true.mp hsafe (a, l) hmem
            simpa using this
          rw [List.countP_cons]
          rcases hdis with hle | hge
          · rw [if_neg (by simp only [containsB, decide_eq_true_eq]; intro hc; omega)]
            rw [ih (e - ov) (by omega)]
          · rw [if_pos (by simp only [containsB, decide_eq_true_eq]; exact ⟨hs, by omega⟩)]
            rw [splitW_count_zero occs size ov n a l hov k (e - ov) (by omega)]
        | none =>
          rw [List.countP_cons]
          simp only [List.countP_nil, containsB, decide_eq_true_eq]
          rw [if_pos ⟨hs, han⟩]

theorem windowChunk_within (text : Str) (w : Nat × Nat) : windowChunk text w <:+: text := by
  unfold windowChunk
  exact (List.take_prefix _ _).isInfix.trans (List.drop_suffix _ _).isInfix

theorem occ_in_window (text p : Str) (a s e : Nat) (hpre : p <+: text.drop a)
    (hs : s ≤ a) (he : a + p.length ≤ e) : p <:+: windowChunk text (s, e) := by
  rw [infix_iff_exists_drop]
  refine ⟨a - s, ?_⟩
  unfold windowChunk
  rw [List.drop_take, List.drop_drop]
  have hsa : s + (a - s) = a := by omega
  rw [hsa]
  exact prefix_take_of_le p _ _ hpre (by omega)

theorem window_occ (text p : Str) (s e : Nat) (hp : p ≠ [])
    (hin : p <:+: windowChunk text (s, e)) :
    ∃ a, a ∈ occPositions p text ∧ s ≤ a ∧ a + p.length ≤ e := by
  rw [infix_iff_exists_drop] at hin
  obtain ⟨k, hk⟩ := hin
  unfold windowChunk at hk
  rw [List.drop_take, List.drop_drop] at hk
  dsimp only at hk
  have hlen := hk.length_le
  rw [List.length_take] at hlen
  have hfit : p.length ≤ e - s - k := le_trans hlen (min_le_left _ _)
  have hpre : p <+: text.drop (s + k) :=
    hk.trans (List.take_prefix _ _)
  have hppos : 0 < p.length := List.length_pos.mpr hp
  refine ⟨s + k, ?_, by omega, by omega⟩
  have hne : text.drop (s + k) ≠ [] := by
    intro hcon
    rw [hcon] at hpre
    exact hp (List.prefix_nil.mp hpre)
  have hsk : s + k ≤ text.length := by
    by_contra hgt
    exact hne (List.drop_eq_nil_of_le (by omega))
  simp only [occPositions, List.mem_filter, List.mem_range, Bool.and_eq_true,
    bne_iff_ne, ne_eq, decide_eq_true_eq]
  exact ⟨by omega, ⟨hp, List.isPrefixOf_iff_prefix.mpr hpre⟩⟩

theorem dropWhile_preserve_infix (q : Str) (c0 : Char)
    (hh : q.head? = some c0) (h0 : pyWs c0 = false) :
    ∀ s, q <:+: s → q <:+: s.dropWhile pyWs := by
  intro s
  induction s with
  | nil => exact fun h => h
  | cons c t ih =>
    intro h
    by_cases hc : pyWs c = true
    · rw [List.dropWhile_cons_of_pos hc]
      apply ih
      rcases List.infix_cons_iff.mp h with hpre | hinf
      · exfalso
        obtain ⟨q', hq'⟩ := head?_eq_cons q c0 hh
        rw [hq'] at hpre
        have : c0 = c := (List.cons_prefix_cons.mp hpre).1
        rw [this] at h0
        rw [h0] at hc
        exact absurd hc (by simp)
      · exact hinf
    · rw [List.dropWhile_cons_of_neg hc]
      exact h

theorem strip_preserve_present (q : Str) (c0 c1 : Char)
    (hh : q.head? = some c0) (hl : q.getLast? = some c1)
    (h0 : pyWs c0 = false) (h1 : pyWs c1 = false) :
    ∀ s, q <:+: s → q <:+: stripL s := by
  intro s h
  unfold stripL
  have h2 : q <:+: s.dropWhile pyWs := dropWhile_preserve_infix q c0 hh h0 s h
  have h3 : q.reverse <:+: (s.dropWhile pyWs).reverse := List.reverse_infix.mpr h2
  have hh' : q.reverse.head? = some c1 := by rw [List.head?_reverse]; exact hl
  have h4 : q.reverse <:+: ((s.dropWhile pyWs).reverse).dropWhile pyWs :=
    dropWhile_preserve_infix q.reverse c1 hh' h1 _ h3
  have h5 := List.reverse_infix.mpr h4
  simpa using h5

theorem replaceL_id_of_absent (pat repl s : Str) (h : ¬ pat <:+: s) :
    replaceL pat repl s = s :=
  replaceAux_of_not_infix pat repl s.length s h

/-- The literal opening of every formatted table block. -/
def TSmark : Str := ofS "[TABLE_START:"

/-- The greedy left-to-right run of Python's one-pass `str.replace`: the
string decomposes into unmatched gaps separated by pattern occurrences, and
the output replaces each occurrence in place. -/
inductive GRun (pat repl : Str) : Str → Str → Prop where
  | base (g : Str) (h : ∀ k, ¬ pat <+: g.drop k) : GRun pat repl g g
  | step (g t t' : Str)
      (h : ∀ k, k < g.length → ¬ pat <+: (g ++ pat ++ t).drop k)
      (ht : GRun pat repl t t') :
      GRun pat repl (g ++ pat ++ t) (g ++ repl ++ t')

theorem occPositions_mem_iff (pat text : Str) (hp : pat ≠ []) (k : Nat) :
    k ∈ occPositions pat text ↔ pat <+: text.drop k := by
  constructor
  · intro h
    simp only [occPositions, List.mem_filter, List.mem_range, Bool.and_eq_true,
      bne_iff_ne, ne_eq, decide_eq_true_eq] at h
    exact List.isPrefixOf_iff_prefix.mp h.2.2
  · intro h
    have hk : k ≤ text.length := by
      by_contra hgt
      have hnil : text.drop k = [] := List.drop_eq_nil_of_le (by omega)
      rw [hnil] at h
      exact hp (List.prefix_nil.mp h)
    simp only [occPositions, List.mem_filter, List.mem_range, Bool.and_eq_true,
      bne_iff_ne, ne_eq, decide_eq_true_eq]
    exact ⟨by omega, hp, List.isPrefixOf_iff_prefix.mpr h⟩

theorem prefix_getD (q l : Str) (h : q <+: l) (d : Char) (i : Nat) (hi : i < q.length) :
    l.getD i d = q.getD i d := by
  obtain ⟨t, ht⟩ := h
  rw [← ht, List.getD_eq_getD_get?, List.getD_eq_getD_get?]
  congr 1
  rw [List.get?_eq_getElem?, List.get?_eq_getElem?, List.getElem?_append_left hi]

theorem getD_append_pos (u v : Str) (d : Char) (i : Nat) :
    (u ++ v).getD (u.length + i) d = v.getD i d := by
  rw [List.getD_eq_getD_get?, List.getD_eq_getD_get?]
  congr 1
  rw [List.get?_eq_getElem?, List.get?_eq_getElem?, List.getElem?_append_right (by omega)]
  congr 1
  omega

theorem take_eq_of_prefix (q l : Str) (h : q <+: l) : l.take q.length = q :=
  (List.prefix_iff_eq_take.mp h).symm

theorem take_agree_prefix (X Y q : Str) (L i : Nat) (hagree : X.take L = Y.take L)
    (h : q <+: X.drop i) (hfit : i + q.length ≤ L) : q <+: Y.drop i := by
  have h1 : q <+: (X.drop i).take (L - i) := prefix_take_of_le q _ _ h (by omega)
  rw [← List.drop_take] at h1
  rw [hagree] at h1
  rw [List.drop_take] at h1
  exact h1.trans (List.take_prefix _ _)

theorem firstMatch (pat : Str) (hp : pat ≠ []) :
    ∀ s : Str, (¬ pat <:+: s) ∨ ∃ r, pat <+: s.drop r ∧ ∀ k, k < r → ¬ pat <+: s.drop k := by
  intro s
  induction s with
  | nil =>
    left
    intro hc
    rw [List.infix_nil] at hc
    exact hp hc
  | cons c t ih =>
    by_cases h0 : pat <+: c :: t
    · right
      exact ⟨0, by simpa using h0, by intro k hk; omega⟩
    · rcases ih with hni | ⟨r, hr, hmin⟩
      · left
        intro hc
        rcases List.infix_cons_iff.mp hc with h | h
        · exact h0 h
        · exact hni h
      · right
        refine ⟨r + 1, by simpa using hr, ?_⟩
        intro k hk
        cases k with
        | zero => simpa using h0
        | succ j =>
          intro hc
          exact hmin j (by omega) (by simpa using hc)

theorem copy_through (pat repl : Str) (hp : pat ≠ []) :
    ∀ (w : Str) (fuel : Nat) (s : Str), w <+: s →
      (∀ k, k < w.length → ¬ pat <+: s.drop k) →
      replaceAux pat repl fuel s =
        w ++ replaceAux pat repl (fuel - w.length) (s.drop w.length) := by
  intro w
  induction w with
  | nil =>
    intro fuel s _ _
    simp
  | cons c w' ih =>
    intro fuel s hpre hnm
    obtain ⟨t, ht⟩ : ∃ t, s = c :: t := by
      cases s with
      | nil => exact absurd (List.prefix_nil.mp hpre) (by simp)
      | cons a t =>
        have : c = a := (List.cons_prefix_cons.mp hpre).1
        exact ⟨t, by rw [this]⟩
    subst ht
    have hw' : w' <+: t := (List.cons_prefix_cons.mp hpre).2
    cases fuel with
    | zero =>
      obtain ⟨z, hz⟩ := hw'
      have hz' : t = w' ++ z := hz.symm
      subst hz'
      have hd : (c :: (w' ++ z)).drop (w'.length + 1) = z := by
        rw [show w'.length + 1 = (c :: w').length from rfl]
        exact List.drop_left _ _
      show c :: (w' ++ z) = (c :: w') ++ replaceAux pat repl (0 - (w'.length + 1))
        ((c :: (w' ++ z)).drop (w'.length + 1))
      rw [hd, Nat.zero_sub]
      rfl
    | succ f =>
      have hneg : ¬ (pat ≠ [] ∧ pat <+: (c :: t)) := by
        rintro ⟨_, hp0⟩
        exact hnm 0 (by simp) (by simpa using hp0)
      rw [replaceAux_neg pat repl f c t hneg]
      have hnm' : ∀ k, k < w'.length → ¬ pat <+: t.drop k := by
        intro k hk
        exact hnm (k + 1) (by simp; omega)
      rw [ih f t hw' hnm']
      simp only [List.length_cons, Nat.succ_sub_succ]
      rfl

theorem grun_replaceAux (pat repl : Str) (hp : pat ≠ []) :
    ∀ fuel, ∀ s : Str, s.length ≤ fuel → GRun pat repl s (replaceAux pat repl fuel s) := by
  intro fuel
  induction fuel using Nat.strong_induction_on with
  | _ fuel ih =>
    intro s hlen
    rcases firstMatch pat hp s with hno | ⟨r, hr, hmin⟩
    · rw [ replaceAux_of_not_infix pat repl fuel s hno]
      exact GRun.base s (fun k hk => hno ((infix_iff_exists_drop pat s).mpr ⟨k, hk⟩))
    · have hppos : 0 < pat.length := List.length_pos.mpr hp
      have hrlen : r + pat.length ≤ s.length := by
        have hle := hr.length_le
        rw [List.length_drop] at hle
        by_cases hrs : r ≤ s.length
        · omega
        · exfalso
          have hnil : s.drop r = [] := List.drop_eq_nil_of_le (by omega)
          rw [hnil] at hr
          exact hp (List.prefix_nil.mp hr)
      obtain ⟨z, hz⟩ := hr
      have hzlen : z.length = s.length - r - pat.length := by
        have := congrArg List.length hz
        rw [List.length_append, List.length_drop] at this
        omega
      have htklen : (s.take r).length = r := by
        rw [List.length_take]
        omega
      have hct := copy_through pat repl hp (s.take r) fuel s (List.take_prefix _ _)
        (by intro k hk; rw [htklen] at hk; exact hmin k hk)
      rw [htklen] at hct
      -- one matched step at position r
      obtain ⟨pc, pt, hpat⟩ : ∃ pc pt, pat = pc :: pt := by
        cases pat with
        | nil => exact absurd rfl hp
        | cons pc pt => exact ⟨pc, pt, rfl⟩
      have hsr : s.drop r = pc :: (pt ++ z) := by
        rw [← hz, hpat]
        rfl
      obtain ⟨f', hf'⟩ : ∃ f', fuel - r = f' + 1 := by
        refine ⟨fuel - r - 1, ?_⟩
        omega
      have hpos := replaceAux_pos pat repl f' pc (pt ++ z)
        (by constructor
            · exact hp
            · rw [← hsr, ← hz]
              exact ⟨z, rfl⟩)
      have hdrop1 : (pt ++ z).drop (pat.length - 1) = z := by
        rw [hpat]
        simp only [List.length_cons, Nat.succ_sub_one]
        exact List.drop_left _ _
      rw [hdrop1] at hpos
      have hrun : GRun pat repl z (replaceAux pat repl f' z) := by
        apply ih f' (by omega) z (by omega)
      have hstep := @GRun.step pat repl (s.take r) z
        (replaceAux pat repl f' z)
        (by
          intro k hk
          rw [htklen] at hk
          have hdec : s.take r ++ pat ++ z = s := by
            conv_rhs => rw [← List.take_append_drop r s]
            rw [← hz, List.append_assoc]
          rw [hdec]
          exact hmin k hk)
        hrun
      have hdec : s.take r ++ pat ++ z = s := by
        conv_rhs => rw [← List.take_append_drop r s]
        rw [← hz, List.append_assoc]
      have hout : replaceAux pat repl fuel s = s.take r ++ repl ++ replaceAux pat repl f' z := by
        rw [hct, hf', hsr, hpos]
        rw [List.append_assoc]
      rw [hout]
      rw [← hdec]
      rw [hdec] at hstep
      rw [← hdec] at hstep
      exact hstep

theorem grun_replaceL (pat repl s : Str) (hp : pat ≠ []) :
    GRun pat repl s (replaceL pat repl s) :=
  grun_replaceAux pat repl hp s.length s (le_refl _)

theorem drop_append_pos (u v : Str) (i : Nat) : (u ++ v).drop (u.length + i) = v.drop i := by
  rw [List.drop_append_eq_append_drop]
  simp

theorem span_inside (pat w s : Str) (g k : Nat)
    (hpat : pat <+: s.drop g) (hw : w <+: s.drop k)
    (hpne : pat ≠ []) (hwne : w ≠ [])
    (hlb : '[' ∉ pat) (hrb : ']' ∉ pat)
    (hwh : w.head? = some '[') (hwl : w.getLast? = some ']')
    (hint : ¬ (k + w.length ≤ g ∨ g + pat.length ≤ k)) :
    pat <:+: w := by
  push_neg at hint
  obtain ⟨h1, h2⟩ := hint
  by_cases hcase1 : k ≤ g ∧ g + pat.length ≤ k + w.length
  · obtain ⟨hkg, hfit⟩ := hcase1
    rw [infix_iff_exists_drop]
    refine ⟨g - k, ?_⟩
    have hsg : s.drop g = (s.drop k).drop (g - k) := by
      rw [List.drop_drop]
      congr 1
      omega
    rw [hsg] at hpat
    have hps : pat <+: ((s.drop k).take w.length).drop (g - k) := by
      rw [List.drop_take]
      exact prefix_take_of_le pat _ _ hpat (by omega)
    rw [ take_eq_of_prefix w _ hw] at hps
    exact hps
  · exfalso
    push_neg at hcase1
    by_cases hkg : k ≤ g
    · have hfit := hcase1 hkg
      have hwpos := List.length_pos.mpr hwne
      have hch : s.getD (k + w.length - 1) '?' ∈ pat :=
        occ_cover pat s g (k + w.length - 1) hpat (by omega) (by omega)
      have hchw : s.getD (k + w.length - 1) '?' = ']' := by
        have h3 : s.getD (k + w.length - 1) '?' = (s.drop k).getD (w.length - 1) '?' := by
          rw [getD_drop]
          congr 1
          omega
        rw [h3, prefix_getD w _ hw '?' (w.length - 1) (by omega)]
        exact getLast?_getD w ']' '?' hwl
      rw [hchw] at hch
      exact hrb hch
    · push_neg at hkg
      have hwpos := List.length_pos.mpr hwne
      have hch : s.getD k '?' ∈ pat := occ_cover pat s g k hpat (by omega) (by omega)
      have hchw : s.getD k '?' = '[' := by
        have h3 : s.getD k '?' = (s.drop k).getD 0 '?' := by
          rw [getD_drop, Nat.add_zero]
        rw [h3, prefix_getD w _ hw '?' 0 hwpos]
        obtain ⟨w', hw'⟩ := head?_eq_cons w '[' hwh
        rw [hw']
        rfl
      rw [hchw] at hch
      exact hlb hch

theorem grun_preserve_present (pat repl w : Str) (hpne : pat ≠ [])
    (hlb : '[' ∉ pat) (hrb : ']' ∉ pat)
    (hwh : w.head? = some '[') (hwl : w.getLast? = some ']')
    (hnw : ¬ pat <:+: w) :
    ∀ s s', GRun pat repl s s' → w <:+: s → w <:+: s' := by
  intro s s' hrun
  induction hrun with
  | base g h => exact fun hin => hin
  | step g t t' h ht ih =>
    intro hin
    rw [infix_iff_exists_drop] at hin
    obtain ⟨k, hk⟩ := hin
    have hwne : w ≠ [] := by
      intro hc
      rw [hc] at hwh
      simp at hwh
    have hpg : pat <+: (g ++ pat ++ t).drop g.length := by
      rw [List.append_assoc, List.drop_left]
      exact ⟨t, rfl⟩
    have hdisj : k + w.length ≤ g.length ∨ g.length + pat.length ≤ k := by
      by_contra hc
      exact hnw (span_inside pat w (g ++ pat ++ t) g.length k hpg hk hpne hwne hlb hrb
        hwh hwl hc)
    rcases hdisj with hleft | hright
    · rw [infix_iff_exists_drop]
      refine ⟨k, ?_⟩
      have hagree : (g ++ pat ++ t).take g.length = (g ++ repl ++ t').take g.length := by
        rw [List.append_assoc, List.append_assoc, List.take_left, List.take_left]
      exact take_agree_prefix (g ++ pat ++ t) (g ++ repl ++ t') w g.length k hagree hk hleft
    · have hkt : w <+: t.drop (k - (g.length + pat.length)) := by
        have heq : (g ++ pat ++ t).drop k = t.drop (k - (g.length + pat.length)) := by
          have hk' : k = (g ++ pat).length + (k - (g.length + pat.length)) := by
            rw [List.length_append]
            omega
          conv_lhs => rw [hk']
          rw [drop_append_pos]
        rw [heq] at hk
        exact hk
      have hwt : w <:+: t := (infix_iff_exists_drop w t).mpr ⟨_, hkt⟩
      have hwt' : w <:+: t' := ih hwt
      refine hwt'.trans ?_
      exact ⟨g ++ repl, [], by simp⟩

/-- All occurrences of `q` in `s` avoid the span `[lo, hi)`. -/
def DisjAt (q s : Str) (lo hi : Nat) : Prop :=
  ∀ k, q <+: s.drop k → k + q.length ≤ lo ∨ hi ≤ k

theorem DisjAt_shift (q s w : Str) (lo hi : Nat)
    (h : DisjAt q (w ++ s) (w.length + lo) (w.length + hi)) :
    DisjAt q s lo hi := by
  intro k hk
  have := h (w.length + k) (by rw [drop_append_pos]; exact hk)
  omega

theorem grun_preserve_span (pat repl p : Str)
    (hpne : pat ≠ []) (hppne : p ≠ [])
    (hrh : repl.head? = some '[') (hrl : repl.getLast? = some ']') :
    ∀ s s', GRun pat repl s s' → ∀ u v, s = u ++ p ++ v →
      DisjAt pat s u.length (u.length + p.length) →
      ∃ u' v', s' = u' ++ p ++ v' ∧
        (∀ q : Str, q ≠ [] → '[' ∉ q → ']' ∉ q →
          DisjAt q s u.length (u.length + p.length) →
          DisjAt q s' u'.length (u'.length + p.length)) := by
  intro s s' hrun
  induction hrun with
  | base g h =>
    intro u v hsv hdisj
    exact ⟨u, v, hsv, fun q _ _ _ hq => hq⟩
  | step g t t' h ht ih =>
    intro u v hsv hdisj
    have hrne : repl ≠ [] := by
      intro hc
      rw [hc] at hrh
      simp at hrh
    have hpg : pat <+: (g ++ pat ++ t).drop g.length := by
      have he : g.length = g.length + 0 := by omega
      rw [List.append_assoc, he, drop_append_pos]
      exact ⟨t, rfl⟩
    rcases hdisj g.length hpg with hA | hB
    · -- the matched occurrence lies inside u
      have hgp_pre : g ++ pat <+: u := by
        have h1 : g ++ pat <+: g ++ pat ++ t := ⟨t, rfl⟩
        rw [hsv, List.append_assoc] at h1
        exact prefix_of_append_of_le _ _ _ h1 (by rw [List.length_append]; omega)
      obtain ⟨u₂, hu₂⟩ := hgp_pre
      have hulen : u.length = g.length + pat.length + u₂.length := by
        rw [← hu₂]
        simp [List.length_append]
        omega
      have htdec : t = u₂ ++ p ++ v := by
        have h1 : g ++ pat ++ t = g ++ pat ++ (u₂ ++ p ++ v) := by
          calc g ++ pat ++ t = u ++ p ++ v := hsv
            _ = g ++ pat ++ u₂ ++ p ++ v := by rw [← hu₂]
            _ = g ++ pat ++ (u₂ ++ p ++ v) := by simp [List.append_assoc]
        have h2 : (g ++ pat) ++ t = (g ++ pat) ++ (u₂ ++ p ++ v) := h1
        exact List.append_cancel_left h2
      have hglen : (g ++ pat).length = g.length + pat.length := by
        rw [List.length_append]
      have hshift : DisjAt pat t u₂.length (u₂.length + p.length) := by
        intro k hk
        have hk2 : pat <+: (g ++ pat ++ t).drop (g.length + pat.length + k) := by
          rw [show g.length + pat.length + k = (g ++ pat).length + k by omega,
            drop_append_pos]
          exact hk
        have := hdisj _ hk2
        omega
      obtain ⟨u₂', v'', ht'eq, transfer⟩ := ih u₂ v htdec hshift
      refine ⟨g ++ repl ++ u₂', v'', ?_, ?_⟩
      · rw [ht'eq]
        simp [List.append_assoc]
      · intro q hq hqlb hqrb hqdisj
        have hqt : DisjAt q t u₂.length (u₂.length + p.length) := by
          intro k hk
          have hk2 : q <+: (g ++ pat ++ t).drop (g.length + pat.length + k) := by
            rw [show g.length + pat.length + k = (g ++ pat).length + k by omega,
              drop_append_pos]
            exact hk
          have := hqdisj _ hk2
          omega
        have hqt' := transfer q hq hqlb hqrb hqt
        intro k' hk'
        have hu'len : (g ++ repl ++ u₂').length = g.length + repl.length + u₂'.length := by
          simp [List.length_append]
          omega
        by_cases hk'big : g.length + repl.length ≤ k'
        · have hdropeq : (g ++ repl ++ t').drop k' = t'.drop (k' - (g.length + repl.length)) := by
            have hk'' : k' = (g ++ repl).length + (k' - (g.length + repl.length)) := by
              rw [List.length_append]
              omega
            conv_lhs => rw [hk'']
            rw [drop_append_pos]
          rw [hdropeq] at hk'
          rcases hqt' (k' - (g.length + repl.length)) hk' with h1 | h1
          · left
            rw [hu'len]
            omega
          · right
            rw [hu'len]
            omega
        · push_neg at hk'big
          left
          rw [hu'len]
          by_contra hcon
          push_neg at hcon
          have hrpos := List.length_pos.mpr hrne
          have hcov : (g ++ repl ++ t').getD (g.length + repl.length - 1) '?' ∈ q :=
            occ_cover q (g ++ repl ++ t') k' (g.length + repl.length - 1) hk'
              (by omega) (by omega)
          have hchar : (g ++ repl ++ t').getD (g.length + repl.length - 1) '?' = ']' := by
            have he : g.length + repl.length - 1 = g.length + (repl.length - 1) := by omega
            rw [List.append_assoc, he, getD_append_pos]
            have h2 : (repl ++ t').getD (repl.length - 1) '?' =
                repl.getD (repl.length - 1) '?' := by
              rw [List.getD_eq_getD_get?, List.getD_eq_getD_get?]
              congr 1
              rw [List.get?_eq_getElem?, List.get?_eq_getElem?,
                List.getElem?_append_left (by omega)]
            rw [h2]
            exact getLast?_getD repl ']' '?' hrl
          rw [hchar] at hcov
          exact hqrb hcov
    · -- the span lies inside the gap g
      have hup_pre : u ++ p <+: g := by
        have h1 : u ++ p <+: u ++ p ++ v := ⟨v, rfl⟩
        rw [← hsv] at h1
        have h2 : u ++ p <+: g ++ (pat ++ t) := by
          rw [← List.append_assoc]
          exact h1
        exact prefix_of_append_of_le _ _ _ h2 (by rw [List.length_append]; omega)
      obtain ⟨g₂, hg₂⟩ := hup_pre
      have hvdec : v = g₂ ++ pat ++ t := by
        have h1 : (u ++ p) ++ v = (u ++ p) ++ (g₂ ++ pat ++ t) := by
          calc (u ++ p) ++ v = g ++ pat ++ t := hsv.symm
            _ = u ++ p ++ g₂ ++ pat ++ t := by rw [← hg₂]
            _ = (u ++ p) ++ (g₂ ++ pat ++ t) := by simp [List.append_assoc]
        exact List.append_cancel_left h1
      refine ⟨u, g₂ ++ repl ++ t', ?_, ?_⟩
      · rw [← hg₂]
        simp [List.append_assoc]
      · intro q hq hqlb hqrb hqdisj
        intro k' hk'
        have hglen2 : g.length = u.length + p.length + g₂.length := by
          rw [← hg₂]
          simp [List.length_append]
          omega
        by_cases hk'r : u.length + p.length ≤ k'
        · right
          exact hk'r
        · push_neg at hk'r
          left
          by_contra hcon
          push_neg at hcon
          by_cases hfit : k' + q.length ≤ g.length
          · have hagree : (g ++ repl ++ t').take g.length = (g ++ pat ++ t).take g.length := by
              rw [List.append_assoc, List.append_assoc, List.take_left, List.take_left]
            have hks : q <+: (g ++ pat ++ t).drop k' :=
              take_agree_prefix (g ++ repl ++ t') (g ++ pat ++ t) q g.length k' hagree hk' hfit
            rcases hqdisj k' hks with h1 | h1
            · omega
            · omega
          · push_neg at hfit
            have hcov : (g ++ repl ++ t').getD g.length '?' ∈ q :=
              occ_cover q (g ++ repl ++ t') k' g.length hk' (by omega) (by omega)
            have hchar : (g ++ repl ++ t').getD g.length '?' = '[' := by
              have he : g.length = g.length + 0 := by omega
              rw [List.append_assoc, he, getD_append_pos]
              obtain ⟨r', hr'⟩ := head?_eq_cons repl '[' hrh
              rw [hr']
              rfl
            rw [hchar] at hcov
            exact hqlb hcov

theorem grun_TS_transfer (pat repl : Str)
    (hpne : pat ≠ []) (hlb : '[' ∉ pat) (hrb : ']' ∉ pat)
    (hrh : repl.head? = some '[') (hrl : repl.getLast? = some ']')
    (hTSr : ∀ k, TSmark <+: repl.drop k → k = 0) :
    ∀ s s', GRun pat repl s s' → ∀ k', TSmark <+: s'.drop k' →
      (repl <+: s'.drop k') ∨
      (∃ k, TSmark <+: s.drop k ∧
        ∀ w : Str, w.head? = some '[' → w.getLast? = some ']' → ¬ pat <:+: w →
          w <+: s.drop k → w <+: s'.drop k') := by
  intro s s' hrun
  induction hrun with
  | base g h =>
    intro k' hk'
    exact Or.inr ⟨k', hk', fun w _ _ _ hw => hw⟩
  | step g t t' h ht ih =>
    intro k' hk'
    have hrne : repl ≠ [] := by
      intro hc
      rw [hc] at hrh
      simp at hrh
    have hrpos := List.length_pos.mpr hrne
    have hTSne : TSmark ≠ [] := by decide
    have hTSpos : 0 < TSmark.length := List.length_pos.mpr hTSne
    have hpg : pat <+: (g ++ pat ++ t).drop g.length := by
      have he : g.length = g.length + 0 := by omega
      rw [List.append_assoc, he, drop_append_pos]
      exact ⟨t, rfl⟩
    by_cases hc1 : k' + TSmark.length ≤ g.length
    · -- TS inside the gap
      right
      have hagree : (g ++ repl ++ t').take g.length = (g ++ pat ++ t).take g.length := by
        rw [List.append_assoc, List.append_assoc, List.take_left, List.take_left]
      refine ⟨k', take_agree_prefix (g ++ repl ++ t') (g ++ pat ++ t) TSmark
        g.length k' hagree hk' hc1, ?_⟩
      intro w hwh hwl hnw hw
      have hwne : w ≠ [] := by
        intro hcn
        rw [hcn] at hwh
        simp at hwh
      have hdisj : k' + w.length ≤ g.length ∨ g.length + pat.length ≤ k' := by
        by_contra hcn
        exact hnw (span_inside pat w (g ++ pat ++ t) g.length k' hpg hw hpne hwne hlb hrb
          hwh hwl hcn)
      have hwin : k' + w.length ≤ g.length := by
        rcases hdisj with h1 | h1
        · exact h1
        · have hppos := List.length_pos.mpr hpne
          omega
      have hagree' : (g ++ pat ++ t).take g.length = (g ++ repl ++ t').take g.length :=
        hagree.symm
      exact take_agree_prefix (g ++ pat ++ t) (g ++ repl ++ t') w g.length k' hagree' hw hwin
    · push_neg at hc1
      by_cases hc2 : k' < g.length
      · -- straddle of the gap boundary: TS would need a second opening bracket
        exfalso
        have hch1 : (g ++ repl ++ t').getD g.length '?' = '[' := by
          have he : g.length = g.length + 0 := by omega
          rw [List.append_assoc, he, getD_append_pos]
          obtain ⟨r', hr'⟩ := head?_eq_cons repl '[' hrh
          rw [hr']
          rfl
        have hch2 : (g ++ repl ++ t').getD g.length '?' =
            TSmark.getD (g.length - k') '?' := by
          have h1 : (g ++ repl ++ t').getD g.length '?' =
              ((g ++ repl ++ t').drop k').getD (g.length - k') '?' := by
            rw [getD_drop]
            congr 1
            omega
          rw [h1, prefix_getD TSmark _ hk' '?' (g.length - k') (by omega)]
        have hTSbr : ∀ j, j < TSmark.length → TSmark.getD j '?' = '[' → j = 0 := by decide
        have := hTSbr (g.length - k') (by omega) (by rw [← hch2, hch1])
        omega
      · push_neg at hc2
        by_cases hc3 : k' < g.length + repl.length
        · -- TS starts inside the inserted block
          by_cases hc4 : k' + TSmark.length ≤ g.length + repl.length
          · -- entirely inside the block: only at its head
            have hdropeq : (g ++ repl ++ t').drop k' =
                (repl.drop (k' - g.length)) ++ t' := by
              rw [List.append_assoc]
              have hk'' : k' = g.length + (k' - g.length) := by omega
              conv_lhs => rw [hk'']
              rw [drop_append_pos, List.drop_append_eq_append_drop]
              have : k' - g.length - repl.length = 0 := by omega
              rw [this]
              rfl
            rw [hdropeq] at hk'
            have hfit : TSmark <+: repl.drop (k' - g.length) := by
              refine prefix_of_append_of_le _ _ _ hk' ?_
              rw [List.length_drop]
              omega
            have := hTSr (k' - g.length) hfit
            have hk0 : k' = g.length := by omega
            left
            rw [hk0]
            have he : g.length = g.length + 0 := by omega
            rw [List.append_assoc, he, drop_append_pos]
            exact ⟨t', by simp⟩
          · -- TS would cover the block's closing bracket
            exfalso
            push_neg at hc4
            have hcov : (g ++ repl ++ t').getD (g.length + repl.length - 1) '?' ∈ TSmark :=
              occ_cover TSmark (g ++ repl ++ t') k' (g.length + repl.length - 1) hk'
                (by omega) (by omega)
            have hchar : (g ++ repl ++ t').getD (g.length + repl.length - 1) '?' = ']' := by
              have he : g.length + repl.length - 1 = g.length + (repl.length - 1) := by omega
              rw [List.append_assoc, he, getD_append_pos]
              have h2 : (repl ++ t').getD (repl.length - 1) '?' =
                  repl.getD (repl.length - 1) '?' := by
                rw [List.getD_eq_getD_get?, List.getD_eq_getD_get?]
                congr 1
                rw [List.get?_eq_getElem?, List.get?_eq_getElem?,
                  List.getElem?_append_left (by omega)]
              rw [h2]
              exact getLast?_getD repl ']' '?' hrl
            rw [hchar] at hcov
            have : ']' ∉ TSmark := by decide
            exact this hcov
        · -- TS in the tail: recurse
          push_neg at hc3
          have hdropeq : (g ++ repl ++ t').drop k' =
              t'.drop (k' - (g.length + repl.length)) := by
            have hk'' : k' = (g ++ repl).length + (k' - (g.length + repl.length)) := by
              rw [List.length_append]
              omega
            conv_lhs => rw [hk'']
            rw [drop_append_pos]
          rw [hdropeq] at hk'
          rcases ih _ hk' with hL | ⟨kt, hts, payload⟩
          · left
            rw [hdropeq]
            exact hL
          · right
            refine ⟨g.length + pat.length + kt, ?_, ?_⟩
            · rw [show g.length + pat.length + kt = (g ++ pat).length + kt by
                rw [List.length_append], List.append_assoc, ← List.append_assoc,
                drop_append_pos]
              exact hts
            · intro w hwh hwl hnw hw
              rw [show g.length + pat.length + kt = (g ++ pat).length + kt by
                rw [List.length_append], List.append_assoc, ← List.append_assoc,
                drop_append_pos] at hw
              rw [hdropeq]
              exact payload w hwh hwl hnw hw

theorem grun_TS_removal :
    ∀ s s', GRun SECTION_BREAK [] s s' → PreM s → ∀ k', TSmark <+: s'.drop k' →
      ∃ k, TSmark <+: s.drop k ∧
        ∀ w : Str, w.head? = some '[' → w.getLast? = some ']' →
          ¬ SECTION_BREAK <:+: w → w <+: s.drop k → w <+: s'.drop k' := by
  intro s s' hrun
  induction hrun with
  | base g h =>
    intro _ k' hk'
    exact ⟨k', hk', fun w _ _ _ hw => hw⟩
  | step g t t' h ht ih =>
    intro hPre k' hk'
    have hMne : SECTION_BREAK ≠ [] := by decide
    have hMpos : 0 < SECTION_BREAK.length := List.length_pos.mpr hMne
    have hTSne : TSmark ≠ [] := by decide
    have hTSpos : 0 < TSmark.length := List.length_pos.mpr hTSne
    have hs'eq : g ++ ([] : Str) ++ t' = g ++ t' := by simp
    rw [hs'eq] at hk'
    have hpg : SECTION_BREAK <+: (g ++ SECTION_BREAK ++ t).drop g.length := by
      have he : g.length = g.length + 0 := by omega
      rw [List.append_assoc, he, drop_append_pos]
      exact ⟨t, rfl⟩
    have hPret : PreM t := by
      have hdrop : (g ++ SECTION_BREAK ++ t).drop (g.length + SECTION_BREAK.length) = t := by
        rw [show g.length + SECTION_BREAK.length = (g ++ SECTION_BREAK).length + 0 by
          rw [List.length_append]; omega, List.append_assoc, ← List.append_assoc,
          drop_append_pos]
        rfl
      have := PreM_drop (g ++ SECTION_BREAK ++ t) (g.length + SECTION_BREAK.length) hPre
      rw [hdrop] at this
      exact this
    by_cases hc1 : k' + TSmark.length ≤ g.length
    · -- TS inside the gap
      have hagree : (g ++ t').take g.length = (g ++ SECTION_BREAK ++ t).take g.length := by
        rw [List.append_assoc, List.take_left, List.take_left]
      refine ⟨k', take_agree_prefix (g ++ t') (g ++ SECTION_BREAK ++ t) TSmark
        g.length k' hagree hk' hc1, ?_⟩
      intro w hwh hwl hnw hw
      have hwne : w ≠ [] := by
        intro hcn
        rw [hcn] at hwh
        simp at hwh
      have hdisj : k' + w.length ≤ g.length ∨ g.length + SECTION_BREAK.length ≤ k' := by
        by_contra hcn
        exact hnw (span_inside SECTION_BREAK w (g ++ SECTION_BREAK ++ t) g.length k'
          hpg hw hMne hwne (by decide) (by decide) hwh hwl hcn)
      have hwin : k' + w.length ≤ g.length := by
        rcases hdisj with h1 | h1
        · exact h1
        · omega
      rw [hs'eq]
      exact take_agree_prefix (g ++ SECTION_BREAK ++ t) (g ++ t') w g.length k'
        hagree.symm hw hwin
    · push_neg at hc1
      by_cases hc2 : k' < g.length
      · -- straddle: TS would cover the whitespace before the removed marker
        exfalso
        have hgpos : 0 < g.length := by omega
        have hws : pyWs ((g ++ SECTION_BREAK ++ t).getD (g.length - 1) 'x') = true := by
          exact hPre g.length hgpos hpg
        have hch2 : (g ++ t').getD (g.length - 1) '?' =
            TSmark.getD (g.length - 1 - k') '?' := by
          have h1 : (g ++ t').getD (g.length - 1) '?' =
              ((g ++ t').drop k').getD (g.length - 1 - k') '?' := by
            rw [getD_drop]
            congr 1
            omega
          rw [h1, prefix_getD TSmark _ hk' '?' (g.length - 1 - k') (by omega)]
        have hgD : (g ++ t').getD (g.length - 1) '?' = g.getD (g.length - 1) '?' :=
          prefix_getD g _ ⟨t', rfl⟩ '?' (g.length - 1) (by omega)
        have hgD2 : (g ++ SECTION_BREAK ++ t).getD (g.length - 1) 'x' =
            g.getD (g.length - 1) 'x' := by
          refine prefix_getD g _ ?_ 'x' (g.length - 1) (by omega)
          rw [List.append_assoc]
          exact ⟨SECTION_BREAK ++ t, rfl⟩
        have hgsame : g.getD (g.length - 1) '?' = g.getD (g.length - 1) 'x' := by
          rw [List.getD_eq_getD_get?, List.getD_eq_getD_get?]
          have : g.get? (g.length - 1) = some (g.getD (g.length - 1) '?') := by
            rw [List.get?_eq_getElem?, List.getElem?_eq_getElem (by omega)]
            rw [List.getD_eq_getElem _ '?' (by omega)]
          rw [this]
          rfl
        have hTSnw : ∀ j, j < TSmark.length → pyWs (TSmark.getD j '?') = false := by decide
        have := hTSnw (g.length - 1 - k') (by omega)
        rw [← hch2, hgD, hgsame, ← hgD2] at this
        rw [hws] at this
        exact absurd this (by simp)
      · -- TS in the tail: recurse
        push_neg at hc2
        have hdropeq : (g ++ t').drop k' = t'.drop (k' - g.length) := by
          have hk'' : k' = g.length + (k' - g.length) := by omega
          conv_lhs => rw [hk'']
          rw [drop_append_pos]
        rw [hdropeq] at hk'
        obtain ⟨kt, hts, payload⟩ := ih hPret _ hk'
        refine ⟨g.length + SECTION_BREAK.length + kt, ?_, ?_⟩
        · rw [show g.length + SECTION_BREAK.length + kt =
            (g ++ SECTION_BREAK).length + kt by rw [List.length_append],
            List.append_assoc, ← List.append_assoc, drop_append_pos]
          exact hts
        · intro w hwh hwl hnw hw
          rw [show g.length + SECTION_BREAK.length + kt =
            (g ++ SECTION_BREAK).length + kt by rw [List.length_append],
            List.append_assoc, ← List.append_assoc, drop_append_pos] at hw
          rw [hs'eq, hdropeq]
          exact payload w hwh hwl hnw hw

theorem getD_take (l : Str) (n m : Nat) (h : m < n) : (l.take n).getD m '?' = l.getD m '?' := by
  rw [List.getD_eq_getD_get?, List.getD_eq_getD_get?]
  congr 1
  rw [List.get?_eq_getElem?, List.get?_eq_getElem?, List.getElem?_take]
  simp [h]

theorem PreM_slice (s : Str) (i j : Nat) (h : PreM s) : PreM ((s.drop i).take j) := by
  intro a ha hpre
  have hMne : SECTION_BREAK ≠ [] := by decide
  have hMpos : 0 < SECTION_BREAK.length := List.length_pos.mpr hMne
  have hdj : ((s.drop i).take j).drop a = ((s.drop i).drop a).take (j - a) := List.drop_take ..
  rw [hdj] at hpre
  have hpre2 : SECTION_BREAK <+: (s.drop i).drop a := hpre.trans (List.take_prefix _ _)
  rw [List.drop_drop] at hpre2
  have hlen : a < j := by
    by_contra hcon
    push_neg at hcon
    have hz : j - a = 0 := by omega
    rw [hz] at hpre
    simp at hpre
    exact hMne hpre
  have hlen2 : a < (s.drop i).length := by
    have hl := hpre.length_le
    rw [List.length_take, List.length_drop] at hl
    have hmin : SECTION_BREAK.length ≤ (s.drop i).length - a :=
      le_trans hl (min_le_right _ _)
    omega
  have hslen : i + a < s.length := by
    rw [List.length_drop] at hlen2
    omega
  have hws := h (i + a) (by omega) hpre2
  have hgd : ((s.drop i).take j).getD (a - 1) 'x' = s.getD (i + a - 1) 'x' := by
    have h1 : ((s.drop i).take j).getD (a - 1) 'x' =
        ((s.drop i).take j).getD (a - 1) '?' := by
      rw [List.getD_eq_getD_get?, List.getD_eq_getD_get?]
      have hlt : a - 1 < ((s.drop i).take j).length := by
        rw [List.length_take]
        exact lt_min (by omega) (by omega)
      rw [List.get?_eq_getElem?, List.getElem?_eq_getElem hlt]
      rfl
    rw [h1, getD_take _ _ _ (by omega), getD_drop]
    have h2 : i + (a - 1) = i + a - 1 := by omega
    rw [h2]
    rw [List.getD_eq_getD_get?, List.getD_eq_getD_get?]
    rw [List.get?_eq_getElem?, List.getElem?_eq_getElem (show i + a - 1 < s.length by omega)]
    rfl
  rw [hgd]
  exact hws

theorem TSonly_of_occPos (b : Str) (h : occPositions TSmark b = [0]) :
    ∀ k, TSmark <+: b.drop k → k = 0 := by
  intro k hk
  have hTSne : TSmark ≠ [] := by decide
  have := (occPositions_mem_iff TSmark b hTSne k).mpr hk
  rw [h] at this
  simpa using this

theorem TS_head_of_occPos (b : Str) (h : occPositions TSmark b = [0]) : TSmark <+: b := by
  have hTSne : TSmark ≠ [] := by decide
  have h0 : (0 : Nat) ∈ occPositions TSmark b := by
    rw [h]
    exact List.mem_singleton.mpr rfl
  have := (occPositions_mem_iff TSmark b hTSne 0).mp h0
  simpa using this

/-- Every `[TABLE_START:` occurrence heads a complete table block of an entry
other than the distinguished one. -/
def TSset (m : PlaceholderMap) (p : Str) (s : Str) : Prop :=
  ∀ k, TSmark <+: s.drop k → ∃ pt ∈ m, pt.1 ≠ p ∧ pt.2 <+: s.drop k

theorem applyMapFold_pres (m : PlaceholderMap) (p : Str) (hGm : GoodMap m) (hppne : p ≠ []) :
    ∀ entries : List (Str × Str), (∀ e ∈ entries, e ∈ m) → (∀ e ∈ entries, e.1 ≠ p) →
    ∀ s u v, s = u ++ p ++ v →
      (∀ pt ∈ m, pt.1 ≠ p → DisjAt pt.1 s u.length (u.length + p.length)) →
      ∃ u' v', entries.foldl (fun c pt => replaceL pt.1 pt.2 c) s = u' ++ p ++ v' ∧
        (∀ pt ∈ m, pt.1 ≠ p →
          DisjAt pt.1 (entries.foldl (fun c pt => replaceL pt.1 pt.2 c) s)
            u'.length (u'.length + p.length)) := by
  intro entries
  induction entries with
  | nil =>
    intro _ _ s u v hsv hdisj
    exact ⟨u, v, hsv, hdisj⟩
  | cons e rest ih =>
    intro hsub hne s u v hsv hdisj
    have hem : e ∈ m := hsub e (List.mem_cons_self _ _)
    obtain ⟨he1, he2, he3, he4, he5, he6, he7, he8⟩ := hGm e hem
    have hrun := grun_replaceL e.1 e.2 s he1
    obtain ⟨u', v', heq, transfer⟩ := grun_preserve_span e.1 e.2 p he1 hppne he5 he6
      s _ hrun u v hsv (hdisj e hem (hne e (List.mem_cons_self _ _)))
    have hfold : (e :: rest).foldl (fun c pt => replaceL pt.1 pt.2 c) s =
        rest.foldl (fun c pt => replaceL pt.1 pt.2 c) (replaceL e.1 e.2 s) := rfl
    rw [hfold]
    refine ih (fun x hx => hsub x (List.mem_cons_of_mem e hx))
      (fun x hx => hne x (List.mem_cons_of_mem e hx)) _ u' v' heq ?_
    intro pt hpt hptne
    obtain ⟨hq1, hq2, hq3, _, _, _, _, _⟩ := hGm pt hpt
    exact transfer pt.1 hq1 hq2 hq3 (hdisj pt hpt hptne)

theorem applyMapFold_present (m : PlaceholderMap) (T : Str) (hGm : GoodMap m)
    (hTh : T.head? = some '[') (hTl : T.getLast? = some ']')
    (hTfree : ∀ e ∈ m, ¬ e.1 <:+: T) :
    ∀ entries : List (Str × Str), (∀ e ∈ entries, e ∈ m) →
    ∀ s, T <:+: s → T <:+: entries.foldl (fun c pt => replaceL pt.1 pt.2 c) s := by
  intro entries
  induction entries with
  | nil =>
    intro _ s h
    exact h
  | cons e rest ih =>
    intro hsub s hT
    have hem : e ∈ m := hsub e (List.mem_cons_self _ _)
    obtain ⟨he1, he2, he3, _, _, _, _, _⟩ := hGm e hem
    have hrun := grun_replaceL e.1 e.2 s he1
    exact ih (fun x hx => hsub x (List.mem_cons_of_mem e hx)) _
      (grun_preserve_present e.1 e.2 T he1 he2 he3 hTh hTl (hTfree e hem) s _ hrun hT)

theorem applyMapFold_TSset (m : PlaceholderMap) (p : Str) (hGm : GoodMap m)
    (hTSb : ∀ pt ∈ m, occPositions TSmark pt.2 = [0]) (hppne : p ≠ [])
    (hplb : '[' ∉ p) (hprb : ']' ∉ p)
    (hpabs : ∀ e ∈ m, ¬ p <:+: e.2) :
    ∀ entries : List (Str × Str), (∀ e ∈ entries, e ∈ m) →
    ∀ s, TSset m p s → ¬ p <:+: s → PreM s →
      TSset m p (entries.foldl (fun c pt => replaceL pt.1 pt.2 c) s) ∧
      ¬ p <:+: entries.foldl (fun c pt => replaceL pt.1 pt.2 c) s ∧
      PreM (entries.foldl (fun c pt => replaceL pt.1 pt.2 c) s) := by
  intro entries
  induction entries with
  | nil =>
    intro _ s h1 h2 h3
    exact ⟨h1, h2, h3⟩
  | cons e rest ih =>
    intro hsub s hTSs hnp hPre
    have hem := hsub e (List.mem_cons_self _ _)
    obtain ⟨he1, he2, he3, he4, he5, he6, he7, he8⟩ := hGm e hem
    have hfold : (e :: rest).foldl (fun c pt => replaceL pt.1 pt.2 c) s =
        rest.foldl (fun c pt => replaceL pt.1 pt.2 c) (replaceL e.1 e.2 s) := rfl
    by_cases hep : e.1 = p
    · have hid : replaceL e.1 e.2 s = s := by
        rw [hep]
        exact replaceL_id_of_absent p e.2 s hnp
      rw [hfold, hid]
      exact ih (fun x hx => hsub x (List.mem_cons_of_mem e hx)) s hTSs hnp hPre
    · have hrun := grun_replaceL e.1 e.2 s he1
      have hTS' : TSset m p (replaceL e.1 e.2 s) := by
        intro k' hk'
        rcases grun_TS_transfer e.1 e.2 he1 he2 he3 he5 he6
          (TSonly_of_occPos e.2 (hTSb e hem)) s _ hrun k' hk' with hL | ⟨k, hts, payload⟩
        · exact ⟨e, hem, hep, hL⟩
        · obtain ⟨pt', hpt', hne', hblock⟩ := hTSs k hts
          obtain ⟨hp1, hp2, hp3, hp4, hp5, hp6, hp7, hp8⟩ := hGm pt' hpt'
          exact ⟨pt', hpt', hne', payload pt'.2 hp5 hp6 (hp8 e hem) hblock⟩
      have hnp' : ¬ p <:+: replaceL e.1 e.2 s :=
        replace_preserve_absent e.1 e.2 p hppne hplb hprb (head?_eq_cons _ _ he5) he6
          (hpabs e hem) s.length s (le_refl _) hnp
      have hPre' : PreM (replaceL e.1 e.2 s) := by
        obtain ⟨p0, hp0, hp0w⟩ := token_getLast_nonws e.1 he1 he4
        exact replace_preserve_PreM e.1 e.2 he1 p0 hp0 hp0w (head?_eq_cons _ _ he5) he6 he7
          s.length s (le_refl _) hPre
      rw [hfold]
      exact ih (fun x hx => hsub x (List.mem_cons_of_mem e hx)) _ hTS' hnp' hPre'

theorem TSset_removal (m : PlaceholderMap) (p : Str) (hGm : GoodMap m) :
    ∀ s, TSset m p s → PreM s → TSset m p (replaceL SECTION_BREAK [] s) := by
  intro s hTSs hPre k' hk'
  have hMne : SECTION_BREAK ≠ [] := by decide
  obtain ⟨k, hts, payload⟩ := grun_TS_removal s _ (grun_replaceL SECTION_BREAK [] s hMne)
    hPre k' hk'
  obtain ⟨pt', hpt', hne', hblock⟩ := hTSs k hts
  obtain ⟨hp1, hp2, hp3, hp4, hp5, hp6, hp7, hp8⟩ := hGm pt' hpt'
  exact ⟨pt', hpt', hne', payload pt'.2 hp5 hp6 hp7 hblock⟩

theorem T_absent_of_TSset (m : PlaceholderMap) (p T : Str)
    (hT_TS : TSmark <+: T)
    (hTdist : ∀ pt ∈ m, pt.1 ≠ p → ¬ T <:+: pt.2 ∧ ¬ pt.2 <+: T) :
    ∀ s, TSset m p s → ¬ T <:+: s := by
  intro s hTSs hTin
  rw [infix_iff_exists_drop] at hTin
  obtain ⟨k, hk⟩ := hTin
  have hts : TSmark <+: s.drop k := hT_TS.trans hk
  obtain ⟨pt', hpt', hne', hblock⟩ := hTSs k hts
  rcases List.prefix_or_prefix_of_prefix hk hblock with h1 | h1
  · exact (hTdist pt' hpt' hne').1 h1.isInfix
  · exact (hTdist pt' hpt' hne').2 h1

theorem chunk_T_present (m : PlaceholderMap) (p T : Str)
    (hGm : GoodMap m) (hmem : (p, T) ∈ m) (hNoDup : (m.map Prod.fst).Nodup) :
    ∀ s u v, s = u ++ p ++ v →
      (∀ pt ∈ m, pt.1 ≠ p → DisjAt pt.1 s u.length (u.length + p.length)) →
      T <:+: stripL (replaceL SECTION_BREAK [] (applyMap m s)) ∧
      stripL (replaceL SECTION_BREAK [] (applyMap m s)) ≠ [] := by
  intro s u v hsv hdisj
  obtain ⟨hp1, hp2, hp3, hp4, hp5, hp6, hp7, hp8⟩ := hGm (p, T) hmem
  obtain ⟨pre, post, hsplit⟩ := List.append_of_mem hmem
  have hkeys : (pre ++ (p, T) :: post).map Prod.fst =
      pre.map Prod.fst ++ p :: post.map Prod.fst := by
    rw [List.map_append, List.map_cons]
  rw [hsplit, hkeys] at hNoDup
  have hpre_ne : ∀ e ∈ pre, e.1 ≠ p := by
    intro e he hep
    have hdisjoint := (List.nodup_append.mp hNoDup).2.2
    exact hdisjoint (List.mem_map.mpr ⟨e, he, hep⟩) (List.mem_cons_self _ _)
  have hpre_sub : ∀ e ∈ pre, e ∈ m := by
    intro e he
    rw [hsplit]
    exact List.mem_append_left _ he
  have hpost_sub : ∀ e ∈ post, e ∈ m := by
    intro e he
    rw [hsplit]
    exact List.mem_append_right _ (List.mem_cons_of_mem _ he)
  have hAM : applyMap m s =
      post.foldl (fun c pt => replaceL pt.1 pt.2 c)
        (replaceL p T (pre.foldl (fun c pt => replaceL pt.1 pt.2 c) s)) := by
    unfold applyMap
    rw [hsplit, List.foldl_append]
    rfl
  obtain ⟨u', v', heq, _⟩ := applyMapFold_pres m p hGm hp1 pre hpre_sub hpre_ne
    s u v hsv hdisj
  have hpin : p <:+: pre.foldl (fun c pt => replaceL pt.1 pt.2 c) s := by
    rw [heq]
    exact ⟨u', v', by simp [List.append_assoc]⟩
  have hTrep : T <:+: replaceL p T (pre.foldl (fun c pt => replaceL pt.1 pt.2 c) s) :=
    replaceAux_repl_infix p T hp1 _ _ (le_refl _) hpin
  have hTpost : T <:+: applyMap m s := by
    rw [hAM]
    exact applyMapFold_present m T hGm hp5 hp6 (fun e he => (hGm (p, T) hmem).2.2.2.2.2.2.2 e he)
      post hpost_sub _ hTrep
  have hMne : SECTION_BREAK ≠ [] := by decide
  have hTrem : T <:+: replaceL SECTION_BREAK [] (applyMap m s) :=
    grun_preserve_present SECTION_BREAK [] T hMne (by decide) (by decide) hp5 hp6 hp7
      _ _ (grun_replaceL SECTION_BREAK [] _ hMne) hTpost
  have hTfin : T <:+: stripL (replaceL SECTION_BREAK [] (applyMap m s)) :=
    strip_preserve_present T '[' ']' hp5 hp6 (by decide) (by decide) _ hTrem
  refine ⟨hTfin, ?_⟩
  intro hem
  rw [hem, List.infix_nil] at hTfin
  rw [hTfin] at hp5
  simp at hp5

theorem chunk_T_absent (m : PlaceholderMap) (p T : Str)
    (hGm : GoodMap m) (hmem : (p, T) ∈ m)
    (hTSb : ∀ pt ∈ m, occPositions TSmark pt.2 = [0])
    (hTdist : ∀ pt ∈ m, pt.1 ≠ p → ¬ T <:+: pt.2 ∧ ¬ pt.2 <+: T) :
    ∀ s, ¬ TSmark <:+: s → ¬ p <:+: s → PreM s →
      ¬ T <:+: stripL (replaceL SECTION_BREAK [] (applyMap m s)) := by
  intro s hTSs hnp hPre
  obtain ⟨hp1, hp2, hp3, hp4, hp5, hp6, hp7, hp8⟩ := hGm (p, T) hmem
  have hpabs : ∀ e ∈ m, ¬ p <:+: e.2 := by
    intro e he
    exact (hGm e he).2.2.2.2.2.2.2 (p, T) hmem
  have hTS0 : TSset m p s := by
    intro k hk
    exact absurd ((infix_iff_exists_drop TSmark s).mpr ⟨k, hk⟩) hTSs
  obtain ⟨hTS1, hnp1, hPre1⟩ := applyMapFold_TSset m p hGm hTSb hp1 hp2 hp3 hpabs
    m (fun e he => he) s hTS0 hnp hPre
  have hTS2 : TSset m p (replaceL SECTION_BREAK [] (applyMap m s)) :=
    TSset_removal m p hGm _ hTS1 hPre1
  have habs : ¬ T <:+: replaceL SECTION_BREAK [] (applyMap m s) :=
    T_absent_of_TSset m p T (TS_head_of_occPos T (hTSb (p, T) hmem)) hTdist _ hTS2
  exact stripL_preserve_absent T _ habs

theorem mem_protIntervals_intro (tokens : List Str) (text p : Str) (a : Nat)
    (hp : p ∈ tokens) (ha : a ∈ occPositions p text) :
    (a, p.length) ∈ protIntervals tokens text := by
  induction tokens with
  | nil => simp at hp
  | cons q rest ih =>
    simp only [protIntervals, List.foldr_cons]
    rcases List.mem_cons.mp hp with rfl | hp'
    · exact List.mem_append_left _ (List.mem_map.mpr ⟨a, ha, rfl⟩)
    · exact List.mem_append_right _ (ih hp')

/-- C2 (Modelled from the spec: the Bounded Splitter windows): no window
boundary of the splitter ever falls strictly inside a placeholder-token
occurrence — for every text and every token set — and, for an arising page
(well-formed map, marker precondition, fresh once-occurring token whose
occurrence does not overlap other tokens' occurrences, and a preprocessed
text free of raw `[TABLE_START:` openings), the table text of that token
appears in exactly one clean chunk of the postprocessed output. -/
theorem c2_token_atomicity
    (m : PlaceholderMap) (p T text : Str)
    (hGm : GoodMap m) (hmem : (p, T) ∈ m)
    (hNoDup : (m.map Prod.fst).Nodup)
    (hPre : PreM text)
    (hocc : occCount p text = 1)
    (hdisj : ∀ pt ∈ m, pt.1 ≠ p → ∀ a' ∈ occPositions pt.1 text,
        ∀ a ∈ occPositions p text,
        a' + pt.1.length ≤ a ∨ a + p.length ≤ a')
    (hTS : ¬ TSmark <:+: text)
    (hTSb : ∀ pt ∈ m, occPositions TSmark pt.2 = [0])
    (hTdist : ∀ pt ∈ m, pt.1 ≠ p → ¬ T <:+: pt.2 ∧ ¬ pt.2 <+: T)
    (hTsz : T.length ≤ CHUNK_SIZE) :
    (∀ (t0 : Str) (tokens : List Str),
      ∀ w ∈ splitWindowsAux (protIntervals tokens t0) CHUNK_SIZE CHUNK_OVERLAP
          t0.length (t0.length + 1) 0,
      ∀ al ∈ protIntervals tokens t0,
        ¬ (al.1 < w.1 ∧ w.1 < al.1 + al.2) ∧ ¬ (al.1 < w.2 ∧ w.2 < al.1 + al.2)) ∧
    ((_postprocess_chunks (splitText (m.map Prod.fst) text) m).countP
        (fun c => decide (T <:+: c)) = 1) := by
  obtain ⟨hp1, hp2, hp3, hp4, hp5, hp6, hp7, hp8⟩ := hGm (p, T) hmem
  constructor
  · intro t0 tokens w hw al hal
    obtain ⟨pq, hpq, hlq, hpqne, hpref, hle⟩ := protIntervals_wf tokens t0 al hal
    have hlpos : 0 < al.2 := by rw [hlq]; exact List.length_pos.mpr hpqne
    exact splitW_boundary (protIntervals tokens t0) CHUNK_SIZE CHUNK_OVERLAP
      t0.length al.1 al.2 hal hlpos hle (t0.length + 1) 0 (by omega) w hw
  · obtain ⟨a, ha⟩ := List.length_eq_one.mp hocc
    have hamem : a ∈ occPositions p text := by
      rw [ha]
      exact List.mem_singleton.mpr rfl
    have hppre : p <+: text.drop a := (occPositions_mem_iff p text hp1 a).mp hamem
    have hppos : 0 < p.length := List.length_pos.mpr hp1
    have han : a + p.length ≤ text.length := by
      have hlen := hppre.length_le
      rw [List.length_drop] at hlen
      by_cases hax : a ≤ text.length
      · omega
      · exfalso
        have hnil : text.drop a = [] := List.drop_eq_nil_of_le (by omega)
        rw [hnil] at hppre
        exact hp1 (List.prefix_nil.mp hppre)
    have hmem' : (a, p.length) ∈ protIntervals (m.map Prod.fst) text :=
      mem_protIntervals_intro (m.map Prod.fst) text p a
        (List.mem_map.mpr ⟨(p, T), hmem, rfl⟩) hamem
    have key : ∀ w ∈ splitWindowsAux (protIntervals (m.map Prod.fst) text) CHUNK_SIZE
        CHUNK_OVERLAP text.length (text.length + 1) 0,
        ((T <:+: stripL (replaceL SECTION_BREAK []
            (applyMap m (windowChunk text w)))) ∧
          stripL (replaceL SECTION_BREAK [] (applyMap m (windowChunk text w))) ≠ []) ↔
        (w.1 ≤ a ∧ a + p.length ≤ w.2) := by
      intro w _
      constructor
      · rintro ⟨hTin, _⟩
        by_contra hnc
        have hnop : ¬ p <:+: windowChunk text w := by
          intro hpin
          obtain ⟨a', ha'mem, ha's, ha'e⟩ := window_occ text p w.1 w.2 hp1 hpin
          rw [ha] at ha'mem
          have haa : a' = a := List.mem_singleton.mp ha'mem
          subst haa
          exact hnc ⟨ha's, ha'e⟩
        have hTSc : ¬ TSmark <:+: windowChunk text w :=
          fun hc => hTS (hc.trans (windowChunk_within text w))
        have hPrec : PreM (windowChunk text w) := PreM_slice text w.1 (w.2 - w.1) hPre
        exact chunk_T_absent m p T hGm hmem hTSb hTdist (windowChunk text w)
          hTSc hnop hPrec hTin
      · rintro ⟨hws, hwe⟩
        -- positional decomposition of the chunk around the occurrence
        have hc0 : windowChunk text w = (text.drop w.1).take (w.2 - w.1) := rfl
        have hrest : p <+: (windowChunk text w).drop (a - w.1) := by
          rw [hc0, List.drop_take, List.drop_drop]
          rw [show w.1 + (a - w.1) = a by omega]
          exact prefix_take_of_le p _ _ hppre (by omega)
        obtain ⟨v₀, hv₀⟩ := hrest
        have hlentext : a - w.1 ≤ (windowChunk text w).length := by
          rw [hc0, List.length_take, List.length_drop]
          exact le_min (by omega) (by omega)
        have hdec : windowChunk text w =
            (windowChunk text w).take (a - w.1) ++ p ++ v₀ := by
          conv_lhs => rw [← List.take_append_drop (a - w.1) (windowChunk text w)]
          rw [← hv₀, List.append_assoc]
        have hulen : ((windowChunk text w).take (a - w.1)).length = a - w.1 := by
          rw [List.length_take]
          omega
        have hdisjc : ∀ pt ∈ m, pt.1 ≠ p →
            DisjAt pt.1 (windowChunk text w)
              ((windowChunk text w).take (a - w.1)).length
              (((windowChunk text w).take (a - w.1)).length + p.length) := by
          intro pt hpt hne k hk
          obtain ⟨hq1, _, _, _, _, _, _, _⟩ := hGm pt hpt
          have hktext : pt.1 <+: text.drop (w.1 + k) := by
            rw [hc0, List.drop_take, List.drop_drop] at hk
            exact hk.trans (List.take_prefix _ _)
          have ha' : (w.1 + k) ∈ occPositions pt.1 text :=
            (occPositions_mem_iff pt.1 text hq1 (w.1 + k)).mpr hktext
          rcases hdisj pt hpt hne (w.1 + k) ha' a hamem with h1 | h1
          · left
            rw [hulen]
            omega
          · right
            rw [hulen]
            omega
        exact chunk_T_present m p T hGm hmem hNoDup (windowChunk text w)
          ((windowChunk text w).take (a - w.1)) v₀ hdec hdisjc
    unfold _postprocess_chunks splitText
    rw [List.countP_filter, List.countP_map, List.countP_map]
    rw [List.countP_congr (q := containsB a p.length) ?_]
    · exact splitW_count_one (protIntervals (m.map Prod.fst) text) CHUNK_SIZE CHUNK_OVERLAP
        text.length a p.length (by decide) hmem' hppos han (text.length + 1) 0 (by omega)
    · intro w hw
      have hk := key w hw
      simp only [Function.comp, Bool.and_eq_true, decide_eq_true_eq, containsB]
      constructor
      · rintro ⟨h1, h2⟩
        exact hk.mp ⟨h1, h2⟩
      · intro hc
        exact ⟨(hk.mpr hc).1, (hk.mpr hc).2⟩

def c2wP : Str := ofS "__TABLE_1__"

def c2wT : Str :=
  ofS "[TABLE_START: Page 1 - Table 2]\n| B |\n| --- |\n| 2 |\n[TABLE_END]"

def c2wMap : PlaceholderMap :=
  [(ofS "__TABLE_0__",
    ofS "[TABLE_START: Page 1 - Table 1]\n| A |\n| --- |\n| 1 |\n[TABLE_END]"),
   (c2wP, c2wT)]

def c2wText : Str :=
  ofS "Intro. __SECTION_BREAK__Section 1. Alpha __TABLE_0__ beta __TABLE_1__ end."

set_option maxRecDepth 16384 in
theorem c2_witness :
    (GoodMap c2wMap ∧ (c2wP, c2wT) ∈ c2wMap ∧ (c2wMap.map Prod.fst).Nodup ∧
      PreM c2wText ∧ occCount c2wP c2wText = 1 ∧
      (∀ pt ∈ c2wMap, pt.1 ≠ c2wP → ∀ a' ∈ occPositions pt.1 c2wText,
        ∀ a ∈ occPositions c2wP c2wText,
        a' + pt.1.length ≤ a ∨ a + c2wP.length ≤ a') ∧
      ¬ TSmark <:+: c2wText ∧
      (∀ pt ∈ c2wMap, occPositions TSmark pt.2 = [0]) ∧
      (∀ pt ∈ c2wMap, pt.1 ≠ c2wP → ¬ c2wT <:+: pt.2 ∧ ¬ pt.2 <+: c2wT) ∧
      c2wT.length ≤ CHUNK_SIZE) ∧
    ((∀ (t0 : Str) (tokens : List Str),
      ∀ w ∈ splitWindowsAux (protIntervals tokens t0) CHUNK_SIZE CHUNK_OVERLAP
          t0.length (t0.length + 1) 0,
      ∀ al ∈ protIntervals tokens t0,
        ¬ (al.1 < w.1 ∧ w.1 < al.1 + al.2) ∧ ¬ (al.1 < w.2 ∧ w.2 < al.1 + al.2)) ∧
    ((_postprocess_chunks (splitText (c2wMap.map Prod.fst) c2wText) c2wMap).countP
        (fun c => decide (c2wT <:+: c)) = 1)) := by
  have hGm : GoodMap c2wMap := by
    unfold GoodMap
    decide
  have hPre : PreM c2wText := preMB_sound _ (by decide)
  exact ⟨⟨hGm, by decide, by decide, hPre, by decide, by decide, by decide, by decide,
      by decide, by decide⟩,
    c2_token_atomicity c2wMap c2wP c2wT c2wText hGm (by decide) (by decide) hPre
      (by decide) (by decide) (by decide) (by decide) (by decide) (by decide)⟩
